import Mathlib

/-!
# Verification of the `ls_core` document engine

A shallow embedding of `src/ls_core/src/document.rs` (and the relevant parts of
`src/ls_core/src/util.rs`): a line-organized text buffer with anchors, a
self-inverting change log, and undo/redo stacks.

Modelling conventions:

* Rust `String` line content is modelled as `List Char`; `chars().count()` is
  `List.length`.  The cached `Line.length` field is modelled explicitly.
* `HashMap<u32, Anchor>` is modelled as an association list kept sorted by
  handle (a canonical representation of the finite map; `HashMap` iteration
  order is unspecified in Rust, and no observable behaviour of the engine
  depends on it because per-handle updates on distinct handles commute).
* Functions that can `panic!` / `assert!` / `todo!` in Rust return `Option`;
  `none` models the panic.  Caller-facing recoverable failures are the
  `Except Oops` layer inside the `Option`.
* The `parser`/`tree` fields and `update_parse` concern the external
  tree-sitter collaborator; they touch none of the fields modelled here
  (`update_parse` only rebuilds the parse tree), so they are omitted.
* The four fields of `Document` that `Change::apply_untracked` can touch
  (`lines`, `anchors`, `indentation`, `language`) are grouped in a `Core`
  structure; the undo/redo stacks live alongside it.
-/

/-- A row-column position in a document (`Position` in document.rs).
Codepoint-indexed, 0-based. -/
structure Position where
  row : Nat
  column : Nat
deriving DecidableEq, Repr

/-- Lexicographic `<=` on positions, matching Rust's derived `PartialOrd`
(row first, then column). -/
def posLe (p q : Position) : Bool :=
  Nat.blt p.row q.row || (p.row == q.row && Nat.ble p.column q.column)

/-- Lexicographic `<` on positions, matching Rust's derived `PartialOrd`. -/
def posLt (p q : Position) : Bool :=
  Nat.blt p.row q.row || (p.row == q.row && Nat.blt p.column q.column)

/-- A tracked position (`Anchor` in document.rs). -/
structure Anchor where
  position : Position
deriving DecidableEq, Repr

/-- A span with a beginning and an ending position (`Range` in document.rs). -/
structure Range where
  beginning : Position
  ending : Position
deriving DecidableEq, Repr

/-- `Range::empty`: the range starts and ends at the same position. -/
def Range.empty (r : Range) : Bool :=
  r.beginning == r.ending

/-- An indentation policy (`Indentation` in document.rs). -/
structure Indentation where
  use_spaces : Bool
  spaces_per_tab : Nat
deriving DecidableEq, Repr

/-- One buffer line with its cached codepoint count (`Line` in document.rs). -/
structure Line where
  content : List Char
  length : Nat
deriving DecidableEq, Repr

/-- `Line::from`: build a line, caching `content.chars().count()`. -/
def Line.fromContent (content : List Char) : Line :=
  ⟨content, content.length⟩

/-- Anchor handles (`AnchorHandle = u32` in document.rs). -/
abbrev AnchorHandle := Nat

/-- The structured failure type (`Oops` in util.rs, the variant set actually
used by document.rs).  `&'static str` payloads are modelled as `String`. -/
inductive Oops where
  | Ouch (msg : String)
  | NonexistentAnchor (handle : AnchorHandle)
  | CannotRemoveAnchor (handle : AnchorHandle)
  | NoMoreUndos (times : Nat)
  | NoMoreRedos (times : Nat)
  | InvalidIndex (index : Nat) (context : String)
  | InvalidPosition (position : Position) (context : String)
  | InvalidRange (range : Range) (context : String)
  | EmptyString (context : String)
deriving DecidableEq, Repr

/-- A reversible primitive modification (`Change` in document.rs). -/
inductive Change where
  | Insert (text : List (List Char)) (position : Position)
  | Remove (range : Range)
  | AnchorSet (handle : AnchorHandle) (value : Anchor)
  | AnchorInsert (handle : AnchorHandle) (value : Anchor)
  | AnchorRemove (handle : AnchorHandle)
  | IndentationChange (value : Indentation)
  | LanguageChange (value : List Char)
deriving DecidableEq, Repr

/-- A group of changes undone/redone as one unit (`ChangePacket`). -/
structure ChangePacket where
  changes : List Change
deriving DecidableEq, Repr

/-- `ChangePacket::new`. -/
def ChangePacket.new : ChangePacket := ⟨[]⟩

/-- The per-document anchor container (`Anchors` in document.rs).
`store` models the `HashMap<u32, Anchor>` as an assoc list sorted by handle. -/
structure Anchors where
  store : List (AnchorHandle × Anchor)
  next_id : AnchorHandle
deriving DecidableEq, Repr

/-- `Anchors::CURSOR`. -/
def Anchors.CURSOR : AnchorHandle := 0

/-- `Anchors::MARK`. -/
def Anchors.MARK : AnchorHandle := 1

/-- `Anchors::new`: just a cursor and a mark at (0, 0), next id 2. -/
def Anchors.new : Anchors :=
  ⟨[(0, ⟨⟨0, 0⟩⟩), (1, ⟨⟨0, 0⟩⟩)], 2⟩

/-- Key lookup on the store list (first match). -/
def storeGet (s : List (AnchorHandle × Anchor)) (handle : AnchorHandle) :
    Option Anchor :=
  (s.find? (fun e => e.1 == handle)).map (fun e => e.2)

/-- `Anchors::get` (`HashMap::get`). -/
def Anchors.get (a : Anchors) (handle : AnchorHandle) : Option Anchor :=
  storeGet a.store handle

/-- Map-replace at a key: the effect of `*anchor = *value` through
`HashMap::get_mut`. -/
def storeSet (s : List (AnchorHandle × Anchor)) (handle : AnchorHandle)
    (value : Anchor) : List (AnchorHandle × Anchor) :=
  s.map (fun e => if e.1 == handle then (e.1, value) else e)

/-- `Anchors::set`: fails with `NonexistentAnchor` if absent, else replaces
and returns the old anchor. -/
def Anchors.set (a : Anchors) (handle : AnchorHandle) (value : Anchor) :
    Except Oops (Anchor × Anchors) :=
  match a.get handle with
  | none => .error (.NonexistentAnchor handle)
  | some old => .ok (old, ⟨storeSet a.store handle value, a.next_id⟩)

/-- Sorted-position insert-or-replace: the effect of `HashMap::insert` on the
canonical sorted representation. -/
def storeInsert (s : List (AnchorHandle × Anchor)) (handle : AnchorHandle)
    (value : Anchor) : List (AnchorHandle × Anchor) :=
  match s with
  | [] => [(handle, value)]
  | e :: rest =>
    if handle < e.1 then (handle, value) :: e :: rest
    else if handle == e.1 then (handle, value) :: rest
    else e :: storeInsert rest handle value

/-- Delete a key: the effect of `HashMap::remove` on the store. -/
def storeErase (s : List (AnchorHandle × Anchor)) (handle : AnchorHandle) :
    List (AnchorHandle × Anchor) :=
  s.filter (fun e => !(e.1 == handle))

/-- `Anchors::get_new_handle`: return `next_id` and increment it. -/
def Anchors.get_new_handle (a : Anchors) : AnchorHandle × Anchors :=
  (a.next_id, ⟨a.store, a.next_id + 1⟩)

/-- `Anchors::create`: insert at the forced handle, or at a newly generated
one. -/
def Anchors.create (a : Anchors) (anchor : Anchor)
    (force_handle : Option AnchorHandle) : AnchorHandle × Anchors :=
  match force_handle with
  | some h => (h, ⟨storeInsert a.store h anchor, a.next_id⟩)
  | none =>
    let (h, a') := a.get_new_handle
    (h, ⟨storeInsert a'.store h anchor, a'.next_id⟩)

/-- `Anchors::remove`: `CannotRemoveAnchor` for the cursor/mark handles,
`NonexistentAnchor` if absent, otherwise delete and return the old anchor. -/
def Anchors.remove (a : Anchors) (handle : AnchorHandle) :
    Except Oops (Anchor × Anchors) :=
  if handle == Anchors.CURSOR || handle == Anchors.MARK then
    .error (.CannotRemoveAnchor handle)
  else
    match a.get handle with
    | none => .error (.NonexistentAnchor handle)
    | some old => .ok (old, ⟨storeErase a.store handle, a.next_id⟩)

/-- The undo/redo bookkeeping (`UndoRedoStacks`).  The list head is the top of
the stack (Rust pushes/pops at the `Vec` end). -/
structure UndoRedoStacks where
  undo_stack : List ChangePacket
  redo_stack : List ChangePacket
  checkpoint_requested : Bool
deriving DecidableEq, Repr

/-- `UndoRedoStacks::new`. -/
def UndoRedoStacks.new : UndoRedoStacks := ⟨[], [], false⟩

/-- `UndoRedoStacks::forget_redos`. -/
def UndoRedoStacks.forget_redos (s : UndoRedoStacks) : UndoRedoStacks :=
  { s with redo_stack := [] }

/-- `UndoRedoStacks::forget_everything`. -/
def UndoRedoStacks.forget_everything (s : UndoRedoStacks) : UndoRedoStacks :=
  { s with redo_stack := [], undo_stack := [] }

/-- `UndoRedoStacks::checkpoint`: clear redos, set the checkpoint flag. -/
def UndoRedoStacks.checkpoint (s : UndoRedoStacks) : UndoRedoStacks :=
  { s.forget_redos with checkpoint_requested := true }

/-- `UndoRedoStacks::push_undo`: clear redos; start a new packet if the undo
stack is empty or a checkpoint was requested; append the change to the top
packet; clear the checkpoint flag. -/
def UndoRedoStacks.push_undo (s : UndoRedoStacks) (change : Change) :
    UndoRedoStacks :=
  let stack :=
    if s.undo_stack.isEmpty || s.checkpoint_requested then
      ChangePacket.new :: s.undo_stack
    else s.undo_stack
  match stack with
  | [] => ⟨[⟨[change]⟩], [], false⟩
  | top :: rest => ⟨⟨top.changes ++ [change]⟩ :: rest, [], false⟩

/-- `UndoRedoStacks::depth`: `(undos available, redos available)`. -/
def UndoRedoStacks.depth (s : UndoRedoStacks) : Nat × Nat :=
  (s.undo_stack.length, s.redo_stack.length)

/-- The mutable document state that `Change::apply_untracked` can touch:
`lines`, `anchors`, `indentation` and `language` (the parser/tree pair is
external state, see the module comment). -/
structure Core where
  lines : List Line
  anchors : Anchors
  indentation : Indentation
  language : List Char
deriving DecidableEq, Repr

/-- The document (`Document` in document.rs): the core state plus the
undo/redo stacks. -/
structure Document where
  core : Core
  undo_redo : UndoRedoStacks
deriving DecidableEq, Repr

/-- `Document::position_valid`: `row < lines.len() && column <= lines[row].length`. -/
def positionValid (c : Core) (p : Position) : Bool :=
  Nat.blt p.row c.lines.length &&
    Nat.ble p.column ((c.lines.getD p.row (Line.fromContent [])).length)

/-- `Document::range_valid`: both ends valid and `beginning <= ending`. -/
def rangeValid (c : Core) (r : Range) : Bool :=
  positionValid c r.beginning && positionValid c r.ending &&
    posLe r.beginning r.ending

/-- Modelled from the spec: `util::LINE_SPLIT` (a lazily built regex used by
`Document::from` and `Document::prep_text`) is not under `src/`; the spec and
the doc-tests in document.rs fix its behaviour on `"\n"`-delimited text
(`Document::from("\nHello\n  there!\n")` yields four lines), which is the
only behaviour any claim depends on.  Splitting at each `'\n'`; always
returns at least one (possibly empty) line. -/
def splitLines (t : List Char) : List (List Char) :=
  match t with
  | [] => [[]]
  | ch :: rest =>
    if ch = '\n' then [] :: splitLines rest
    else
      match splitLines rest with
      | [] => [[ch]]
      | l :: ls => (ch :: l) :: ls

/-- `Document::text`: lines joined by `'\n'`. -/
def joinLines (ls : List (List Char)) : List Char :=
  match ls with
  | [] => []
  | [l] => l
  | l :: rest => l ++ '\n' :: joinLines rest

/-- The primitive insertion (`Document::insert_untracked`), acting on the
core.  `none` models the panics (`text.len() == 0`, invalid position).
Returns the updated core together with the inverse `Change::Remove`. -/
def applyInsertUntracked (text : List (List Char)) (p : Position) (c : Core) :
    Option (Core × Change) :=
  if text = [] then none
  else if !(positionValid c p) then none
  else
    let L := (c.lines.getD p.row (Line.fromContent [])).content
    let before := L.take p.column
    let after := L.drop p.column
    match text with
    | [] => none
    | [t0] =>
      let newRow := Line.fromContent (before ++ t0 ++ after)
      let col := (before ++ t0).length
      some ({ c with lines := c.lines.set p.row newRow },
        .Remove ⟨p, ⟨p.row, col⟩⟩)
    | t0 :: t1 :: ts =>
      let rest := t1 :: ts
      let firstRow := Line.fromContent (before ++ t0)
      let mids := rest.dropLast.map Line.fromContent
      let tlast := rest.getLastD []
      let lastRow : Line := ⟨tlast ++ after, tlast.length + after.length⟩
      let newLines := c.lines.take p.row ++ firstRow :: mids ++ lastRow ::
        c.lines.drop (p.row + 1)
      some ({ c with lines := newLines },
        .Remove ⟨p, ⟨p.row + text.length - 1, tlast.length⟩⟩)

/-- The primitive removal (`Document::remove_untracked`), acting on the core.
`none` models the `assert_range_valid` panic.  Returns the updated core and
the inverse `Change::Insert` carrying the removed lines. -/
def applyRemoveUntracked (r : Range) (c : Core) : Option (Core × Change) :=
  if !(rangeValid c r) then none
  else
    let br := r.beginning.row
    let bc := r.beginning.column
    let er := r.ending.row
    let ec := r.ending.column
    if br = er then
      let L := (c.lines.getD br (Line.fromContent [])).content
      let removed := (L.drop bc).take (ec - bc)
      let newRow := Line.fromContent (L.take bc ++ L.drop ec)
      some ({ c with lines := c.lines.set br newRow },
        .Insert [removed] r.beginning)
    else
      let Lb := (c.lines.getD br (Line.fromContent [])).content
      let Le := (c.lines.getD er (Line.fromContent [])).content
      let middle := ((c.lines.drop (br + 1)).take (er - br - 1)).map
        (fun l => l.content)
      let removed := Lb.drop bc :: middle ++ [Le.take ec]
      let newRow := Line.fromContent (Lb.take bc ++ Le.drop ec)
      let newLines := c.lines.take br ++ newRow :: c.lines.drop (er + 1)
      some ({ c with lines := newLines }, .Insert removed r.beginning)

/-- `Change::apply_untracked`: perform a change on the core, returning the
inverse change.  `none` models the panics of the untracked primitives
(`set_anchor_untracked` on a missing handle, `remove_anchor_untracked` on a
missing or reserved handle, invalid positions/ranges). -/
def applyChange (ch : Change) (c : Core) : Option (Core × Change) :=
  match ch with
  | .Insert text position => applyInsertUntracked text position c
  | .Remove range => applyRemoveUntracked range c
  | .AnchorSet handle value =>
    match c.anchors.set handle value with
    | .error _ => none
    | .ok (old, a') => some ({ c with anchors := a' }, .AnchorSet handle old)
  | .AnchorInsert handle value =>
    let (_, a') := c.anchors.create value (some handle)
    some ({ c with anchors := a' }, .AnchorRemove handle)
  | .AnchorRemove handle =>
    match c.anchors.remove handle with
    | .error _ => none
    | .ok (old, a') => some ({ c with anchors := a' }, .AnchorInsert handle old)
  | .IndentationChange value =>
    some ({ c with indentation := value }, .IndentationChange c.indentation)
  | .LanguageChange value =>
    some ({ c with language := value }, .LanguageChange c.language)

/-- Options for `Document::insert` (`InsertOptions`). -/
structure InsertOptions where
  escapes : Bool
  indent : Bool
  spacing : Bool
  range : Option Range
deriving DecidableEq, Repr

/-- `InsertOptions::exact`. -/
def InsertOptions.exact : InsertOptions := ⟨false, false, false, none⟩

/-- `InsertOptions::exact_at`. -/
def InsertOptions.exact_at (r : Range) : InsertOptions :=
  { InsertOptions.exact with range := some r }

/-- Options for `Document::remove` (`RemoveOptions`). -/
structure RemoveOptions where
  range : Option Range
deriving DecidableEq, Repr

/-- `RemoveOptions::exact`. -/
def RemoveOptions.exact : RemoveOptions := ⟨none⟩

/-- `RemoveOptions::exact_at`. -/
def RemoveOptions.exact_at (r : Range) : RemoveOptions := ⟨some r⟩

/-- `Document::new`: one empty line, cursor and mark at (0,0), 4-space
indentation, empty language, empty history. -/
def Document.new : Document :=
  ⟨⟨[Line.fromContent []], Anchors.new, ⟨true, 4⟩, []⟩, UndoRedoStacks.new⟩

/-- `Document::from`: initialize the line store from raw text. -/
def Document.fromText (text : List Char) : Document :=
  { Document.new with
    core := { Document.new.core with
      lines :=
        if text = [] then [Line.fromContent []]
        else (splitLines text).map Line.fromContent } }

/-- `Document::from_with_language`: `from` followed by
`set_language_untracked` (which, besides rebuilding the external parse tree,
just stores the language string; no undo tracking). -/
def Document.from_with_language (text language : List Char) : Document :=
  let d := Document.fromText text
  { d with core := { d.core with language := language } }

/-- Apply a change to a document through the undo machinery: perform the
untracked change on the core and `push_undo` the returned inverse. -/
def applyTracked (d : Document) (ch : Change) : Option Document :=
  match applyChange ch d.core with
  | none => none
  | some (c', inv) => some ⟨c', d.undo_redo.push_undo inv⟩

/-- Apply a list of changes in order through the undo machinery (the shape of
the `for change in anchor_changes { ... push_undo ... }` loops). -/
def applyTrackedList (d : Document) (chs : List Change) : Option Document :=
  match chs with
  | [] => some d
  | ch :: rest =>
    match applyTracked d ch with
    | none => none
    | some d' => applyTrackedList d' rest

/-- `Document::selection`: the range between cursor and mark, earlier position
first.  `none` models the (unreachable) `unwrap` panic on a store missing the
cursor or mark. -/
def Document.selection (d : Document) : Option Range :=
  match d.core.anchors.get Anchors.CURSOR, d.core.anchors.get Anchors.MARK with
  | some cursor, some mark =>
    if posLe cursor.position mark.position then
      some ⟨cursor.position, mark.position⟩
    else
      some ⟨mark.position, cursor.position⟩
  | _, _ => none

/-- The anchor-rebasing computed by `Document::insert` for one anchor at or
after the insertion point (`lines` is the prepared line list). -/
def insertMovedAnchor (a : Anchor) (beginning : Position)
    (lines : List (List Char)) : Anchor :=
  let moved :=
    if a.position.row == beginning.row then
      if lines.length == 1 then
        ⟨a.position.row, a.position.column + (lines.getD 0 []).length⟩
      else
        let past_original :=
          if beginning.column < a.position.column then
            a.position.column - beginning.column
          else 0
        ⟨a.position.row, (lines.getLastD []).length + past_original⟩
    else a.position
  ⟨⟨moved.row + (lines.length - 1), moved.column⟩⟩

/-- The `AnchorSet` list built by the rebasing loop in `Document::insert`. -/
def insertAnchorChanges (store : List (AnchorHandle × Anchor))
    (beginning : Position) (lines : List (List Char)) : List Change :=
  store.filterMap (fun e =>
    if posLe beginning e.2.position then
      some (.AnchorSet e.1 (insertMovedAnchor e.2 beginning lines))
    else none)

/-- The anchor-rebasing computed by `Document::remove` for one anchor (the
identity for anchors at or before the range beginning). -/
def removeMovedAnchor (a : Anchor) (r : Range) : Anchor :=
  if posLt r.ending a.position then
    ⟨⟨a.position.row - (r.ending.row - r.beginning.row),
      if a.position.row == r.ending.row then
        r.beginning.column + a.position.column - r.ending.column
      else a.position.column⟩⟩
  else if posLt r.beginning a.position then ⟨r.beginning⟩
  else a

/-- The `AnchorSet` list built by the rebasing loop in `Document::remove`. -/
def removeAnchorChanges (store : List (AnchorHandle × Anchor)) (r : Range) :
    List Change :=
  store.filterMap (fun e =>
    if posLt r.beginning e.2.position then
      some (.AnchorSet e.1 (removeMovedAnchor e.2 r))
    else none)

/-- The body of `Document::remove` after range resolution: reject empty
ranges, rebase anchors, apply the primitive removal and the rebases, pushing
every inverse onto the undo stack. -/
def Document.removeResolved (d : Document) (r : Range) :
    Option (Document × Except Oops Unit) :=
  if r.empty then
    some (d, .error (.InvalidRange r "remove - empty"))
  else
    let acs := removeAnchorChanges d.core.anchors.store r
    match applyTracked d (.Remove r) with
    | none => none
    | some d1 =>
      match applyTrackedList d1 acs with
      | none => none
      | some d2 => some (d2, .ok ())

/-- `Document::remove`: resolve the target range (explicit or selection),
reject invalid ranges, then run the removal body. -/
def Document.remove (d : Document) (options : RemoveOptions) :
    Option (Document × Except Oops Unit) :=
  match options.range with
  | some r =>
    if !(rangeValid d.core r) then
      some (d, .error (.InvalidRange r "remove"))
    else Document.removeResolved d r
  | none =>
    match d.selection with
    | none => none
    | some r => Document.removeResolved d r

/-- `Document::prep_text`: `none` models the `todo!()` panic when any of the
escape/indent/spacing options is set; otherwise split the text into lines. -/
def prepText (text : List Char) (options : InsertOptions) :
    Option (List (List Char)) :=
  if options.spacing || options.escapes || options.indent then none
  else some (splitLines text)

/-- The body of `Document::insert` after range resolution: if the range is
non-empty, first remove it (undo-tracked); split the text; reject an empty
insertion (`EmptyString`) - note the removal has already happened; rebase all
anchors at or after the insertion point; apply the primitive insert and the
rebases, pushing every inverse onto the undo stack. -/
def Document.insertResolved (d : Document) (text : List Char)
    (options : InsertOptions) (r : Range) :
    Option (Document × Except Oops Unit) :=
  let afterRemove : Option (Document × Except Oops Unit) :=
    if r.empty then some (d, .ok ())
    else d.remove (RemoveOptions.exact_at r)
  match afterRemove with
  | none => none
  | some (d1, .error e) => some (d1, .error e)
  | some (d1, .ok ()) =>
    match prepText text options with
    | none => none
    | some lines =>
      if lines.length == 0 ||
          (lines.length == 1 && (lines.getD 0 []).length == 0) then
        some (d1, .error (.EmptyString "can't insert nothing"))
      else
        let acs := insertAnchorChanges d1.core.anchors.store r.beginning lines
        match applyTracked d1 (.Insert lines r.beginning) with
        | none => none
        | some d2 =>
          match applyTrackedList d2 acs with
          | none => none
          | some d3 => some (d3, .ok ())

/-- `Document::insert`: resolve the target range (explicit or selection),
reject invalid ranges, then run the insertion body. -/
def Document.insert (d : Document) (text : List Char)
    (options : InsertOptions) : Option (Document × Except Oops Unit) :=
  match options.range with
  | some r =>
    if !(rangeValid d.core r) then
      some (d, .error (.InvalidRange r "insert"))
    else Document.insertResolved d text options r
  | none =>
    match d.selection with
    | none => none
    | some r => Document.insertResolved d text options r

/-- `Document::set_anchor`: validate handle and position, then delegate to the
untracked primitive and push its inverse. -/
def Document.set_anchor (d : Document) (handle : AnchorHandle)
    (value : Anchor) : Option (Document × Except Oops Unit) :=
  if (d.core.anchors.get handle).isNone then
    some (d, .error (.NonexistentAnchor handle))
  else if !(positionValid d.core value.position) then
    some (d, .error (.InvalidPosition value.position "set_anchor"))
  else
    match applyTracked d (.AnchorSet handle value) with
    | none => none
    | some d' => some (d', .ok ())

/-- `Document::create_anchor`: validate the position, generate a fresh handle,
insert the anchor via the untracked primitive and push its inverse. -/
def Document.create_anchor (d : Document) (anchor : Anchor) :
    Option (Document × Except Oops AnchorHandle) :=
  if !(positionValid d.core anchor.position) then
    some (d, .error (.InvalidPosition anchor.position "create_anchor"))
  else
    let (handle, a') := d.core.anchors.get_new_handle
    let d' : Document := { d with core := { d.core with anchors := a' } }
    match applyTracked d' (.AnchorInsert handle anchor) with
    | none => none
    | some d'' => some (d'', .ok handle)

/-- `Document::set_cursor`.  The `unwrap` of the cursor anchor is modelled by
`none` (unreachable on valid documents). -/
def Document.set_cursor (d : Document) (position : Position) :
    Option (Document × Except Oops Unit) :=
  match d.core.anchors.get Anchors.CURSOR with
  | none => none
  | some _ => d.set_anchor Anchors.CURSOR ⟨position⟩

/-- `Document::set_mark`. -/
def Document.set_mark (d : Document) (position : Position) :
    Option (Document × Except Oops Unit) :=
  match d.core.anchors.get Anchors.MARK with
  | none => none
  | some _ => d.set_anchor Anchors.MARK ⟨position⟩

/-- `Document::set_cursor_and_mark`: `set_cursor(p)?; set_mark(p)?`. -/
def Document.set_cursor_and_mark (d : Document) (position : Position) :
    Option (Document × Except Oops Unit) :=
  match d.set_cursor position with
  | none => none
  | some (d1, .error e) => some (d1, .error e)
  | some (d1, .ok ()) => d1.set_mark position

/-- `Document::set_selection`: mark to the beginning, cursor to the ending. -/
def Document.set_selection (d : Document) (r : Range) :
    Option (Document × Except Oops Unit) :=
  if !(rangeValid d.core r) then
    some (d, .error (.InvalidRange r "set_selection"))
  else
    match d.set_mark r.beginning with
    | none => none
    | some (d1, .error e) => some (d1, .error e)
    | some (d1, .ok ()) => d1.set_cursor r.ending

/-- `Document::remove_anchor`: `NonexistentAnchor` for an absent handle;
otherwise delegate to `remove_anchor_untracked` - which *panics* (modelled by
`none`) when `Anchors::remove` refuses the reserved cursor/mark handles. -/
def Document.remove_anchor (d : Document) (handle : AnchorHandle) :
    Option (Document × Except Oops Unit) :=
  if (d.core.anchors.get handle).isNone then
    some (d, .error (.NonexistentAnchor handle))
  else
    match applyTracked d (.AnchorRemove handle) with
    | none => none
    | some d' => some (d', .ok ())

/-- `Document::set_indentation`. -/
def Document.set_indentation (d : Document) (indentation : Indentation) :
    Option (Document × Except Oops Unit) :=
  match applyTracked d (.IndentationChange indentation) with
  | none => none
  | some d' => some (d', .ok ())

/-- `Document::set_language`. -/
def Document.set_language (d : Document) (language : List Char) :
    Option (Document × Except Oops Unit) :=
  match applyTracked d (.LanguageChange language) with
  | none => none
  | some d' => some (d', .ok ())

/-- Apply a list of changes to the core in order, collecting the inverse of
each applied change in application order (the loop bodies of
`Document::undo_once` / `Document::redo_once` before reversal). -/
def applyChanges (c : Core) (chs : List Change) :
    Option (Core × List Change) :=
  match chs with
  | [] => some (c, [])
  | ch :: rest =>
    match applyChange ch c with
    | none => none
    | some (c1, inv) =>
      match applyChanges c1 rest with
      | none => none
      | some (c2, invs) => some (c2, inv :: invs)

/-- `Document::undo_once`: pop the top undo packet, apply its changes in
reverse order, push the collected inverses as one packet onto the redo
stack. -/
def Document.undo_once (d : Document) : Option (Document × Except Oops Unit) :=
  match d.undo_redo.undo_stack with
  | [] => some (d, .error (.NoMoreUndos 0))
  | packet :: rest =>
    match applyChanges d.core packet.changes.reverse with
    | none => none
    | some (c', redoChanges) =>
      some (⟨c', ⟨rest, ⟨redoChanges⟩ :: d.undo_redo.redo_stack,
        d.undo_redo.checkpoint_requested⟩⟩, .ok ())

/-- `Document::redo_once`: pop the top redo packet, apply its changes in
reverse order, push the collected inverses as one packet onto the undo
stack. -/
def Document.redo_once (d : Document) : Option (Document × Except Oops Unit) :=
  match d.undo_redo.redo_stack with
  | [] => some (d, .error (.NoMoreRedos 0))
  | packet :: rest =>
    match applyChanges d.core packet.changes.reverse with
    | none => none
    | some (c', undoChanges) =>
      some (⟨c', ⟨⟨undoChanges⟩ :: d.undo_redo.undo_stack, rest,
        d.undo_redo.checkpoint_requested⟩⟩, .ok ())

/-- The loop of `Document::undo`: `done` packets undone so far, `remaining`
iterations left; an `undo_once` failure reports `NoMoreUndos(done)`. -/
def Document.undoGo (d : Document) (done remaining : Nat) :
    Option (Document × Except Oops Nat) :=
  match remaining with
  | 0 => some (d, .ok done)
  | rem + 1 =>
    match d.undo_once with
    | none => none
    | some (d1, .ok ()) => d1.undoGo (done + 1) rem
    | some (_, .error _) => some (d, .error (.NoMoreUndos done))

/-- `Document::undo`: undo `quantity` packets, reporting how many were undone
on exhaustion. -/
def Document.undo (d : Document) (quantity : Nat) :
    Option (Document × Except Oops Nat) :=
  d.undoGo 0 quantity

/-- The loop of `Document::redo`. -/
def Document.redoGo (d : Document) (done remaining : Nat) :
    Option (Document × Except Oops Nat) :=
  match remaining with
  | 0 => some (d, .ok done)
  | rem + 1 =>
    match d.redo_once with
    | none => none
    | some (d1, .ok ()) => d1.redoGo (done + 1) rem
    | some (_, .error _) => some (d, .error (.NoMoreRedos done))

/-- `Document::redo`: redo `quantity` packets, reporting how many were redone
on exhaustion. -/
def Document.redo (d : Document) (quantity : Nat) :
    Option (Document × Except Oops Nat) :=
  d.redoGo 0 quantity

/-- `Document::checkpoint`. -/
def Document.checkpoint (d : Document) : Document :=
  { d with undo_redo := d.undo_redo.checkpoint }

/-- `Document::forget_undo_redo`. -/
def Document.forget_undo_redo (d : Document) :
    Document × Except Oops Unit :=
  ({ d with undo_redo := d.undo_redo.forget_everything }, .ok ())

/-- `Document::text`: the lines joined by `'\n'`. -/
def Document.text (d : Document) : List Char :=
  joinLines (d.core.lines.map (fun l => l.content))

/-- `Indentation::spaces` (panics on 0, modelled by `none`). -/
def Indentation.spaces (count : Nat) : Option Indentation :=
  if count = 0 then none else some ⟨true, count⟩

/-- `Indentation::tabs` (panics on 0, modelled by `none`). -/
def Indentation.tabs (spaces_per_tab : Nat) : Option Indentation :=
  if spaces_per_tab = 0 then none else some ⟨false, spaces_per_tab⟩

/-- The scanning loop of `Indentation::measure`: `spaces` accumulated so far.
Returns `(logical spaces, margin cutoff)`.  In the Rust code the cutoff is a
byte offset; the margin consists solely of `' '` and `'\t'` characters (one
byte each in UTF-8), so it equals the number of leading margin characters,
which is how the model indexes. -/
def measureGo (spt : Nat) (spaces seen : Nat) (rest : List Char) : Nat × Nat :=
  match rest with
  | [] => (spaces, seen)
  | ch :: rest' =>
    if ch = ' ' then measureGo spt (spaces + 1) (seen + 1) rest'
    else if ch = '\t' then measureGo spt (spaces + spt) (seen + 1) rest'
    else (spaces, seen)

/-- `Indentation::measure`: `(logical spaces in the left margin, margin
cutoff)`; spaces count 1, tabs count `spaces_per_tab`. -/
def Indentation.measure (ind : Indentation) (line : List Char) : Nat × Nat :=
  measureGo ind.spaces_per_tab 0 0 line

/-- `Indentation::produce`: render `spaces` logical spaces as all-spaces or
tabs-then-spaces per policy. -/
def Indentation.produce (ind : Indentation) (spaces : Nat) : List Char :=
  if ind.use_spaces then List.replicate spaces ' '
  else List.replicate (spaces / ind.spaces_per_tab) '\t' ++
    List.replicate (spaces % ind.spaces_per_tab) ' '

/-- `Indentation::indent`: shift the measured margin by `indent_delta` tab
stops (clamping at zero), re-render it, and append the content after the
margin exactly when `include_content` is set. -/
def Indentation.indent (ind : Indentation) (line : List Char)
    (indent_delta : Int) (include_content : Bool) : List Char :=
  let m := ind.measure line
  let requested_spaces : Int := (m.1 : Int) + indent_delta * (ind.spaces_per_tab : Int)
  let actual_spaces : Nat := if requested_spaces < 0 then 0 else requested_spaces.toNat
  let result := ind.produce actual_spaces
  if include_content then result ++ line.drop m.2 else result

/-! ## Validity predicates

`structOK` is the structural part of the document invariant (non-empty line
list, correct length caches, canonical sorted anchor store containing the
cursor and mark, allocator counter ahead of every live handle).  It is
preserved by every single applicable change.  `posValidAll` (every anchor
position valid) holds at rest, between public calls, but not necessarily at
intermediate states inside a change packet.  `changeOKb` is the applicability
precondition of one change: panic-freedom of the untracked primitives plus
freshness of the handle for `AnchorInsert` (the conditions under which the
public API ever applies a change). -/

/-- The store is strictly sorted by handle (canonical map representation). -/
def storeSorted : List (AnchorHandle × Anchor) → Bool
  | [] => true
  | [_] => true
  | e1 :: e2 :: rest => Nat.blt e1.1 e2.1 && storeSorted (e2 :: rest)

/-- Non-empty line list with correct codepoint-count caches. -/
def linesOK (ls : List Line) : Bool :=
  !ls.isEmpty && ls.all (fun l => l.length == l.content.length)

/-- Structural validity of the anchor container. -/
def anchorsOK (a : Anchors) : Bool :=
  storeSorted a.store && (a.get Anchors.CURSOR).isSome &&
    (a.get Anchors.MARK).isSome &&
    a.store.all (fun e => Nat.blt e.1 a.next_id)

/-- Structural validity of the core. -/
def structOK (c : Core) : Bool :=
  linesOK c.lines && anchorsOK c.anchors

/-- Every anchor's position is valid in the current line store. -/
def posValidAll (c : Core) : Bool :=
  c.anchors.store.all (fun e => positionValid c e.2.position)

/-- Applicability of one change on a core: the precondition under which the
untracked primitive neither panics nor overwrites a live anchor. -/
def changeOKb (ch : Change) (c : Core) : Bool :=
  match ch with
  | .Insert text position => !text.isEmpty && positionValid c position
  | .Remove range => rangeValid c range
  | .AnchorSet handle _ => (c.anchors.get handle).isSome
  | .AnchorInsert handle _ =>
    (c.anchors.get handle).isNone && Nat.blt handle c.anchors.next_id
  | .AnchorRemove handle =>
    !(handle == Anchors.CURSOR) && !(handle == Anchors.MARK) &&
      (c.anchors.get handle).isSome
  | .IndentationChange _ => true
  | .LanguageChange _ => true

/-- Apply a list of changes in order, requiring applicability of each change
at its state; collect the inverses in application order. -/
def applyChangesOK (c : Core) (chs : List Change) :
    Option (Core × List Change) :=
  match chs with
  | [] => some (c, [])
  | ch :: rest =>
    if changeOKb ch c then
      match applyChange ch c with
      | none => none
      | some (c1, inv) =>
        match applyChangesOK c1 rest with
        | none => none
        | some (c2, invs) => some (c2, inv :: invs)
    else none

/-- Coherence of a packet stack against the current core: the packets can be
applied in order (each one change-by-change in reverse record order), every
change is applicable where it is applied, and each packet boundary is a rest
state (all anchor positions valid). -/
def stackOK (c : Core) : List ChangePacket → Bool
  | [] => true
  | p :: rest =>
    match applyChangesOK c p.changes.reverse with
    | none => false
    | some (c1, _) => posValidAll c1 && stackOK c1 rest

/-- The full document invariant: structural validity, anchor-position
validity, and coherence of both history stacks. -/
def DocInv (d : Document) : Prop :=
  structOK d.core = true ∧ posValidAll d.core = true ∧
    stackOK d.core d.undo_redo.undo_stack = true ∧
    stackOK d.core d.undo_redo.redo_stack = true

instance : DecidablePred DocInv := fun d => by
  unfold DocInv
  infer_instance

/-- The documents reachable from the constructors through the public API
(each step records a successful call, so panics - `none` results - are
unreachable by construction). -/
inductive Reachable : Document → Prop
  | new : Reachable Document.new
  | fromText (t : List Char) : Reachable (Document.fromText t)
  | from_with_language (t l : List Char) :
      Reachable (Document.from_with_language t l)
  | insert {d d' : Document} {res : Except Oops Unit} {t : List Char}
      {o : InsertOptions} : Reachable d → d.insert t o = some (d', res) →
      Reachable d'
  | remove {d d' : Document} {res : Except Oops Unit} {o : RemoveOptions} :
      Reachable d → d.remove o = some (d', res) → Reachable d'
  | set_anchor {d d' : Document} {res : Except Oops Unit} {h : AnchorHandle}
      {v : Anchor} : Reachable d → d.set_anchor h v = some (d', res) →
      Reachable d'
  | create_anchor {d d' : Document} {res : Except Oops AnchorHandle}
      {a : Anchor} : Reachable d → d.create_anchor a = some (d', res) →
      Reachable d'
  | remove_anchor {d d' : Document} {res : Except Oops Unit}
      {h : AnchorHandle} : Reachable d → d.remove_anchor h = some (d', res) →
      Reachable d'
  | set_cursor {d d' : Document} {res : Except Oops Unit} {p : Position} :
      Reachable d → d.set_cursor p = some (d', res) → Reachable d'
  | set_mark {d d' : Document} {res : Except Oops Unit} {p : Position} :
      Reachable d → d.set_mark p = some (d', res) → Reachable d'
  | set_cursor_and_mark {d d' : Document} {res : Except Oops Unit}
      {p : Position} : Reachable d → d.set_cursor_and_mark p = some (d', res) →
      Reachable d'
  | set_selection {d d' : Document} {res : Except Oops Unit} {r : Range} :
      Reachable d → d.set_selection r = some (d', res) → Reachable d'
  | set_indentation {d d' : Document} {res : Except Oops Unit}
      {i : Indentation} : Reachable d → d.set_indentation i = some (d', res) →
      Reachable d'
  | set_language {d d' : Document} {res : Except Oops Unit} {l : List Char} :
      Reachable d → d.set_language l = some (d', res) → Reachable d'
  | undo {d d' : Document} {res : Except Oops Nat} {n : Nat} :
      Reachable d → d.undo n = some (d', res) → Reachable d'
  | redo {d d' : Document} {res : Except Oops Nat} {n : Nat} :
      Reachable d → d.redo n = some (d', res) → Reachable d'
  | checkpoint {d : Document} : Reachable d → Reachable d.checkpoint
  | forget {d : Document} : Reachable d → Reachable d.forget_undo_redo.1

/-- The net effect of one successful mutating public operation on the
history: the document stays coherent, the redo stack is cleared, the
checkpoint flag is consumed, and the inverses of the operation are pushed
onto the undo history - as a fresh packet when the undo stack was empty or a
checkpoint was pending, merged into the top packet otherwise - and replay
back to the starting core. -/
def OpRun (d d' : Document) : Prop :=
  DocInv d' ∧ d'.undo_redo.redo_stack = [] ∧
    d'.undo_redo.checkpoint_requested = false ∧
    ∃ invs chs, applyChangesOK d'.core invs.reverse =
        some (d.core, chs) ∧
      (((d.undo_redo.undo_stack.isEmpty ||
            d.undo_redo.checkpoint_requested) = true ∧
          d'.undo_redo.undo_stack = ⟨invs⟩ :: d.undo_redo.undo_stack) ∨
        (∃ top rest', d.undo_redo.undo_stack = top :: rest' ∧
          d.undo_redo.checkpoint_requested = false ∧
          d'.undo_redo.undo_stack = ⟨top.changes ++ invs⟩ :: rest'))

/-- Decidable equality of call results (needed to evaluate concrete runs). -/
instance {e a : Type} [DecidableEq e] [DecidableEq a] :
    DecidableEq (Except e a) := fun x y =>
  match x, y with
  | .ok u, .ok v =>
    if h : u = v then isTrue (by rw [h]) else isFalse (by
      intro hc
      injection hc with h1
      exact h h1)
  | .error u, .error v =>
    if h : u = v then isTrue (by rw [h]) else isFalse (by
      intro hc
      injection hc with h1
      exact h h1)
  | .ok u, .error v => isFalse (by intro hc; injection hc)
  | .error u, .ok v => isFalse (by intro hc; injection hc)

/-- Concrete test state: `Document::new` followed by `set_language("r")`. -/
def docLangR : Document :=
  ⟨⟨[⟨[], 0⟩], ⟨[(0, ⟨⟨0, 0⟩⟩), (1, ⟨⟨0, 0⟩⟩)], 2⟩, ⟨true, 4⟩, ['r']⟩,
    ⟨[⟨[Change.LanguageChange []]⟩], [], false⟩⟩

/-- Concrete test state: `Document::new` followed by inserting `"B"` at the
origin. -/
def docB : Document :=
  ⟨⟨[⟨['B'], 1⟩], ⟨[(0, ⟨⟨0, 1⟩⟩), (1, ⟨⟨0, 1⟩⟩)], 2⟩, ⟨true, 4⟩, []⟩,
    ⟨[⟨[Change.Remove ⟨⟨0, 0⟩, ⟨0, 1⟩⟩, Change.AnchorSet 0 ⟨⟨0, 0⟩⟩,
      Change.AnchorSet 1 ⟨⟨0, 0⟩⟩]⟩], [], false⟩⟩

/-- Concrete test state: `docB`, a checkpoint, then inserting `"C"` at
(0,1): two undo packets. -/
def docBC2 : Document :=
  ⟨⟨[⟨['B', 'C'], 2⟩], ⟨[(0, ⟨⟨0, 2⟩⟩), (1, ⟨⟨0, 2⟩⟩)], 2⟩, ⟨true, 4⟩, []⟩,
    ⟨[⟨[Change.Remove ⟨⟨0, 1⟩, ⟨0, 2⟩⟩, Change.AnchorSet 0 ⟨⟨0, 1⟩⟩,
      Change.AnchorSet 1 ⟨⟨0, 1⟩⟩]⟩,
      ⟨[Change.Remove ⟨⟨0, 0⟩, ⟨0, 1⟩⟩, Change.AnchorSet 0 ⟨⟨0, 0⟩⟩,
      Change.AnchorSet 1 ⟨⟨0, 0⟩⟩]⟩], [], false⟩⟩

/-- Concrete test state: `docB` then inserting `"C"` at (0,1) with no
checkpoint: one merged undo packet. -/
def docBC1 : Document :=
  ⟨⟨[⟨['B', 'C'], 2⟩], ⟨[(0, ⟨⟨0, 2⟩⟩), (1, ⟨⟨0, 2⟩⟩)], 2⟩, ⟨true, 4⟩, []⟩,
    ⟨[⟨[Change.Remove ⟨⟨0, 0⟩, ⟨0, 1⟩⟩, Change.AnchorSet 0 ⟨⟨0, 0⟩⟩,
      Change.AnchorSet 1 ⟨⟨0, 0⟩⟩,
      Change.Remove ⟨⟨0, 1⟩, ⟨0, 2⟩⟩, Change.AnchorSet 0 ⟨⟨0, 1⟩⟩,
      Change.AnchorSet 1 ⟨⟨0, 1⟩⟩]⟩], [], false⟩⟩

/-- Concrete test state: `Document::from("AAA\nBBB")` with an extra anchor
created at (1,2). -/
def docAnchored : Document :=
  ⟨⟨[⟨['A', 'A', 'A'], 3⟩, ⟨['B', 'B', 'B'], 3⟩],
    ⟨[(0, ⟨⟨0, 0⟩⟩), (1, ⟨⟨0, 0⟩⟩), (2, ⟨⟨1, 2⟩⟩)], 3⟩, ⟨true, 4⟩, []⟩,
    ⟨[⟨[Change.AnchorRemove 2]⟩], [], false⟩⟩

/-! ## Basic bridges from the executable predicates to propositions -/

theorem posLe_iff {p q : Position} :
    posLe p q = true ↔ p.row < q.row ∨ (p.row = q.row ∧ p.column ≤ q.column) := by
  simp [posLe, Nat.blt_eq, Nat.ble_eq]

theorem posLt_iff {p q : Position} :
    posLt p q = true ↔ p.row < q.row ∨ (p.row = q.row ∧ p.column < q.column) := by
  simp [posLt, Nat.blt_eq]

theorem positionValid_iff {c : Core} {p : Position} :
    positionValid c p = true ↔
      p.row < c.lines.length ∧
        p.column ≤ (c.lines.getD p.row (Line.fromContent [])).length := by
  simp [positionValid, Nat.blt_eq, Nat.ble_eq]

theorem rangeValid_iff {c : Core} {r : Range} :
    rangeValid c r = true ↔
      positionValid c r.beginning = true ∧ positionValid c r.ending = true ∧
        posLe r.beginning r.ending = true := by
  simp [rangeValid]
  tauto

theorem linesOK_iff {ls : List Line} :
    linesOK ls = true ↔ ls ≠ [] ∧ ∀ l ∈ ls, l.length = l.content.length := by
  simp [linesOK, List.isEmpty_iff, List.all_eq_true]

theorem getD_eq_getElem {α : Type} (l : List α) (i : Nat) (d : α)
    (h : i < l.length) : l.getD i d = l[i] := by
  simp [List.getD, List.getElem?_eq_getElem h]

/-! ## Anchor store lemmas -/

theorem storeSorted_iff_pairwise {s : List (AnchorHandle × Anchor)} :
    storeSorted s = true ↔ s.Pairwise (fun e f => e.1 < f.1) := by
  induction s with
  | nil => simp [storeSorted]
  | cons e rest ih =>
    cases rest with
    | nil => simp [storeSorted]
    | cons f rest' =>
      simp only [storeSorted, Bool.and_eq_true, Nat.blt_eq, ih,
        List.pairwise_cons] at *
      constructor
      · rintro ⟨hef, hall, hpw⟩
        refine ⟨?_, hall, hpw⟩
        intro g hg
        rcases List.mem_cons.mp hg with hgf | hg'
        · rw [hgf]; exact hef
        · exact Nat.lt_trans hef (hall g hg')
      · rintro ⟨hall1, hall2, hpw⟩
        exact ⟨hall1 f (List.mem_cons_self f rest'), hall2, hpw⟩

theorem storeSorted_cons {e : AnchorHandle × Anchor}
    {s : List (AnchorHandle × Anchor)} :
    storeSorted (e :: s) = true ↔
      (∀ f ∈ s, e.1 < f.1) ∧ storeSorted s = true := by
  simp [storeSorted_iff_pairwise, List.pairwise_cons]

/-- Membership view of `storeGet` on a sorted store. -/
theorem storeGet_eq_some_iff {s : List (AnchorHandle × Anchor)}
    {h : AnchorHandle} {v : Anchor} (hs : storeSorted s = true) :
    (storeGet s h = some v) ↔ (h, v) ∈ s := by
  induction s with
  | nil => simp [storeGet]
  | cons e rest ih =>
    rw [storeSorted_cons] at hs
    rcases e with ⟨k, a⟩
    by_cases he : k = h
    · subst he
      have hfind : List.find? (fun e => e.1 == k) ((k, a) :: rest) =
          some (k, a) :=
        List.find?_cons_of_pos _ (by simp)
      simp only [storeGet, hfind, Option.map_some', Option.some_inj,
        List.mem_cons]
      constructor
      · intro hv
        exact Or.inl (by rw [← hv])
      · rintro (heq | hmem)
        · injection heq with h1 h2
          rw [h2]
        · exact absurd (hs.1 (k, v) hmem) (lt_irrefl k)
    · have hfind : List.find? (fun e => e.1 == h) ((k, a) :: rest) =
          List.find? (fun e => e.1 == h) rest :=
        List.find?_cons_of_neg _ (by simp [he])
      simp only [storeGet, hfind, List.mem_cons]
      simp only [storeGet] at ih
      rw [ih hs.2]
      constructor
      · exact Or.inr
      · rintro (heq | hm)
        · exact absurd (congrArg Prod.fst heq).symm he
        · exact hm

theorem anchorsGet_def (a : Anchors) (h : AnchorHandle) :
    a.get h = storeGet a.store h := rfl

theorem storeGet_cons (e : AnchorHandle × Anchor)
    (rest : List (AnchorHandle × Anchor)) (h : AnchorHandle) :
    storeGet (e :: rest) h =
      if e.1 == h then some e.2 else storeGet rest h := by
  by_cases hk : (e.1 == h) = true
  · simp [storeGet, List.find?, hk]
  · have hk' : (e.1 == h) = false := by
      revert hk
      cases e.1 == h <;> simp
    simp [storeGet, List.find?, hk']

theorem storeSet_cons (e : AnchorHandle × Anchor)
    (rest : List (AnchorHandle × Anchor)) (h : AnchorHandle) (v : Anchor) :
    storeSet (e :: rest) h v =
      (if e.1 == h then (e.1, v) else e) :: storeSet rest h v := rfl

/-- `storeGet` after `storeSet` at the same key. -/
theorem storeGet_storeSet_self (s : List (AnchorHandle × Anchor))
    (h : AnchorHandle) (v : Anchor) :
    storeGet (storeSet s h v) h = (storeGet s h).map (fun _ => v) := by
  induction s with
  | nil => rfl
  | cons e rest ih =>
    rw [storeSet_cons]
    by_cases he : (e.1 == h) = true
    · rw [if_pos he, storeGet_cons, storeGet_cons, if_pos he]
      simp [he]
    · rw [if_neg he, storeGet_cons, storeGet_cons, if_neg he, if_neg he, ih]

/-- `storeGet` after `storeSet` at a different key. -/
theorem storeGet_storeSet_other (s : List (AnchorHandle × Anchor))
    (h h' : AnchorHandle) (v : Anchor) (hne : h' ≠ h) :
    storeGet (storeSet s h v) h' = storeGet s h' := by
  induction s with
  | nil => rfl
  | cons e rest ih =>
    rw [storeSet_cons]
    by_cases he : (e.1 == h) = true
    · have he' : (e.1 == h') = false := by
        rw [beq_iff_eq.mp he]
        exact beq_eq_false_iff_ne.mpr (Ne.symm hne)
      rw [if_pos he, storeGet_cons, storeGet_cons, ih]
      simp [he']
    · rw [if_neg he, storeGet_cons, storeGet_cons, ih]

/-- Keys are unchanged by `storeSet`. -/
theorem storeKeys_storeSet (s : List (AnchorHandle × Anchor))
    (h : AnchorHandle) (v : Anchor) :
    (storeSet s h v).map Prod.fst = s.map Prod.fst := by
  induction s with
  | nil => rfl
  | cons e rest ih =>
    rw [storeSet_cons, List.map_cons, List.map_cons, ih]
    by_cases he : (e.1 == h) = true
    · rw [if_pos he]
    · rw [if_neg he]

/-- Sortedness is determined by the key list. -/
theorem storeSorted_iff_keys {s : List (AnchorHandle × Anchor)} :
    storeSorted s = true ↔ (s.map Prod.fst).Pairwise (fun a b => a < b) := by
  rw [storeSorted_iff_pairwise, List.pairwise_map]

/-- Sortedness is unchanged by `storeSet`. -/
theorem storeSorted_storeSet {s : List (AnchorHandle × Anchor)}
    {h : AnchorHandle} {v : Anchor} (hs : storeSorted s = true) :
    storeSorted (storeSet s h v) = true := by
  rw [storeSorted_iff_keys] at *
  rw [storeKeys_storeSet]
  exact hs

/-- `storeSet` at an absent key is the identity. -/
theorem storeSet_not_mem {s : List (AnchorHandle × Anchor)}
    {h : AnchorHandle} (hnm : h ∉ s.map Prod.fst) (v : Anchor) :
    storeSet s h v = s := by
  induction s with
  | nil => rfl
  | cons e rest ih =>
    rw [List.map_cons, List.mem_cons] at hnm
    push_neg at hnm
    rw [storeSet_cons, if_neg (by simp [Ne.symm hnm.1]), ih hnm.2]

/-- Setting a key back to the value it had is the identity (sorted store). -/
theorem storeSet_cancel {s : List (AnchorHandle × Anchor)}
    {h : AnchorHandle} {old : Anchor} (hs : storeSorted s = true)
    (hget : storeGet s h = some old)
    (v : Anchor) : storeSet (storeSet s h v) h old = s := by
  induction s with
  | nil => rfl
  | cons e rest ih =>
    rw [storeSorted_cons] at hs
    rw [storeGet_cons] at hget
    rw [storeSet_cons, storeSet_cons]
    by_cases he : (e.1 == h) = true
    · rw [if_pos he] at hget ⊢
      have heq : e.1 = h := beq_iff_eq.mp he
      have hnm : h ∉ rest.map Prod.fst := by
        intro hmem
        rcases List.mem_map.mp hmem with ⟨f, hf, hf1⟩
        have := hs.1 f hf
        rw [heq, hf1] at this
        exact lt_irrefl h this
      rw [if_pos (by simp [he] : (((e.1, v)).1 == h) = true)]
      have he2 : e.2 = old := by
        injection hget
      rw [storeSet_not_mem hnm v, storeSet_not_mem hnm old, ← he2]
    · rw [if_neg he] at hget ⊢
      rw [if_neg he, ih hs.2 hget]

theorem storeErase_cons (e : AnchorHandle × Anchor)
    (rest : List (AnchorHandle × Anchor)) (h : AnchorHandle) :
    storeErase (e :: rest) h =
      if e.1 == h then storeErase rest h else e :: storeErase rest h := by
  by_cases he : (e.1 == h) = true
  · rw [if_pos he]
    simp [storeErase, List.filter, he]
  · rw [if_neg he]
    have he' : (e.1 == h) = false := by
      revert he
      cases e.1 == h <;> simp
    simp [storeErase, List.filter, he']

theorem storeGet_eq_some_mem {s : List (AnchorHandle × Anchor)}
    {h : AnchorHandle} {v : Anchor} (hget : storeGet s h = some v) :
    (h, v) ∈ s := by
  rcases Option.map_eq_some'.mp hget with ⟨e, hfind, hev⟩
  have hmem := List.mem_of_find?_eq_some hfind
  have hp := List.find?_some hfind
  have h1 : e.1 = h := beq_iff_eq.mp hp
  have : e = (h, v) := by
    rcases e with ⟨k, a⟩
    simp only at h1 hev
    rw [h1, hev]
  rw [← this]
  exact hmem

theorem mem_keys_of_storeGet {s : List (AnchorHandle × Anchor)}
    {h : AnchorHandle} {v : Anchor} (hget : storeGet s h = some v) :
    h ∈ s.map Prod.fst :=
  List.mem_map.mpr ⟨(h, v), storeGet_eq_some_mem hget, rfl⟩

theorem storeGet_not_mem {s : List (AnchorHandle × Anchor)}
    {h : AnchorHandle} (hnm : h ∉ s.map Prod.fst) :
    storeGet s h = none := by
  cases hg : storeGet s h with
  | none => rfl
  | some v => exact absurd (mem_keys_of_storeGet hg) hnm

theorem storeGet_storeErase_self (s : List (AnchorHandle × Anchor))
    (h : AnchorHandle) : storeGet (storeErase s h) h = none := by
  induction s with
  | nil => rfl
  | cons e rest ih =>
    rw [storeErase_cons]
    by_cases he : (e.1 == h) = true
    · rw [if_pos he]
      exact ih
    · rw [if_neg he, storeGet_cons, if_neg he]
      exact ih

theorem storeGet_storeErase_other (s : List (AnchorHandle × Anchor))
    (h h' : AnchorHandle) (hne : h' ≠ h) :
    storeGet (storeErase s h) h' = storeGet s h' := by
  induction s with
  | nil => rfl
  | cons e rest ih =>
    rw [storeErase_cons]
    by_cases he : (e.1 == h) = true
    · have he' : (e.1 == h') = false := by
        rw [beq_iff_eq.mp he]
        exact beq_eq_false_iff_ne.mpr (Ne.symm hne)
      rw [if_pos he, ih, storeGet_cons]
      simp [he']
    · rw [if_neg he, storeGet_cons, storeGet_cons, ih]

theorem storeSorted_storeErase {s : List (AnchorHandle × Anchor)}
    {h : AnchorHandle} (hs : storeSorted s = true) :
    storeSorted (storeErase s h) = true := by
  rw [storeSorted_iff_pairwise] at *
  exact List.Pairwise.sublist (List.filter_sublist s) hs

theorem storeErase_not_mem {s : List (AnchorHandle × Anchor)}
    {h : AnchorHandle} (hnm : h ∉ s.map Prod.fst) :
    storeErase s h = s := by
  induction s with
  | nil => rfl
  | cons e rest ih =>
    rw [List.map_cons, List.mem_cons] at hnm
    push_neg at hnm
    rw [storeErase_cons, if_neg (by simp [Ne.symm hnm.1]), ih hnm.2]

theorem mem_keys_storeInsert {s : List (AnchorHandle × Anchor)}
    {h k : AnchorHandle} {v : Anchor} :
    k ∈ (storeInsert s h v).map Prod.fst ↔ k = h ∨ k ∈ s.map Prod.fst := by
  induction s with
  | nil => simp [storeInsert]
  | cons e rest ih =>
    rw [storeInsert]
    by_cases h1 : h < e.1
    · rw [if_pos h1]
      simp
    · rw [if_neg h1]
      by_cases h2 : (h == e.1) = true
      · rw [if_pos h2, beq_iff_eq.mp h2]
        simp only [List.map_cons, List.mem_cons]
        tauto
      · rw [if_neg h2, List.map_cons, List.mem_cons, ih, List.map_cons,
          List.mem_cons]
        tauto

theorem storeSorted_storeInsert {s : List (AnchorHandle × Anchor)}
    {h : AnchorHandle} {v : Anchor} (hs : storeSorted s = true) :
    storeSorted (storeInsert s h v) = true := by
  induction s with
  | nil => simp [storeInsert, storeSorted]
  | cons e rest ih =>
    rw [storeSorted_cons] at hs
    rw [storeInsert]
    by_cases h1 : h < e.1
    · rw [if_pos h1, storeSorted_cons]
      refine ⟨?_, storeSorted_cons.mpr hs⟩
      intro f hf
      rcases List.mem_cons.mp hf with rfl | hf'
      · exact h1
      · exact Nat.lt_trans h1 (hs.1 f hf')
    · rw [if_neg h1]
      by_cases h2 : (h == e.1) = true
      · rw [if_pos h2, storeSorted_cons]
        refine ⟨?_, hs.2⟩
        intro f hf
        rw [beq_iff_eq.mp h2]
        exact hs.1 f hf
      · rw [if_neg h2, storeSorted_cons]
        refine ⟨?_, ih hs.2⟩
        intro f hf
        have hfk : f.1 ∈ (storeInsert rest h v).map Prod.fst :=
          List.mem_map.mpr ⟨f, hf, rfl⟩
        rw [mem_keys_storeInsert] at hfk
        rcases hfk with rfl | hfk'
        · rcases Nat.lt_trichotomy f.1 e.1 with hlt | heq | hgt
          · exact absurd hlt (by simpa using h1)
          · exact absurd (beq_iff_eq.mpr heq) (by simpa using h2)
          · exact hgt
        · rcases List.mem_map.mp hfk' with ⟨g, hg, hgf⟩
          rw [← hgf]
          exact hs.1 g hg

theorem storeInsert_head {s : List (AnchorHandle × Anchor)}
    {h : AnchorHandle} (hlt : ∀ f ∈ s, h < f.1) (v : Anchor) :
    storeInsert s h v = (h, v) :: s := by
  cases s with
  | nil => rfl
  | cons e rest =>
    rw [storeInsert, if_pos (hlt e (List.mem_cons_self e rest))]

theorem storeGet_storeInsert_self (s : List (AnchorHandle × Anchor))
    (h : AnchorHandle) (v : Anchor) :
    storeGet (storeInsert s h v) h = some v := by
  induction s with
  | nil => simp [storeInsert, storeGet_cons]
  | cons e rest ih =>
    rw [storeInsert]
    by_cases h1 : h < e.1
    · rw [if_pos h1, storeGet_cons, if_pos (by simp)]
    · rw [if_neg h1]
      by_cases h2 : (h == e.1) = true
      · rw [if_pos h2, storeGet_cons, if_pos (by simp)]
      · rw [if_neg h2, storeGet_cons, if_neg ?hne]
        case hne =>
          intro hc
          exact absurd (beq_iff_eq.mpr (beq_iff_eq.mp hc).symm) h2
        exact ih

theorem storeGet_storeInsert_other (s : List (AnchorHandle × Anchor))
    (h h' : AnchorHandle) (v : Anchor) (hne : h' ≠ h) :
    storeGet (storeInsert s h v) h' = storeGet s h' := by
  induction s with
  | nil => simp [storeInsert, storeGet_cons, beq_eq_false_iff_ne.mpr
      (fun x => hne x.symm)]
  | cons e rest ih =>
    rw [storeInsert]
    by_cases h1 : h < e.1
    · rw [if_pos h1, storeGet_cons, if_neg ?hne1]
      case hne1 =>
        simp only [beq_iff_eq]
        exact Ne.symm hne
    · rw [if_neg h1]
      by_cases h2 : (h == e.1) = true
      · have heq : h = e.1 := beq_iff_eq.mp h2
        rw [if_pos h2, storeGet_cons, storeGet_cons]
        have hx : (e.1 == h') = false := by
          rw [← heq]
          exact beq_eq_false_iff_ne.mpr (Ne.symm hne)
        have hy : (h == h') = false := beq_eq_false_iff_ne.mpr (Ne.symm hne)
        simp [hx, hy]
      · rw [if_neg h2, storeGet_cons, storeGet_cons, ih]

theorem storeErase_storeInsert {s : List (AnchorHandle × Anchor)}
    {h : AnchorHandle} (hnm : h ∉ s.map Prod.fst) (v : Anchor) :
    storeErase (storeInsert s h v) h = s := by
  induction s with
  | nil => simp [storeInsert, storeErase_cons, storeErase]
  | cons e rest ih =>
    rw [List.map_cons, List.mem_cons] at hnm
    push_neg at hnm
    rw [storeInsert]
    by_cases h1 : h < e.1
    · rw [if_pos h1, storeErase_cons, if_pos (by simp)]
      exact storeErase_not_mem (by
        rw [List.map_cons, List.mem_cons]
        push_neg
        exact hnm)
    · rw [if_neg h1]
      by_cases h2 : (h == e.1) = true
      · exact absurd (beq_iff_eq.mp h2) hnm.1
      · rw [if_neg h2, storeErase_cons,
          if_neg (by simp [Ne.symm hnm.1]), ih hnm.2]

theorem storeInsert_storeErase {s : List (AnchorHandle × Anchor)}
    {h : AnchorHandle} {v : Anchor} (hs : storeSorted s = true)
    (hget : storeGet s h = some v) :
    storeInsert (storeErase s h) h v = s := by
  induction s with
  | nil => simp [storeGet] at hget
  | cons e rest ih =>
    rw [storeSorted_cons] at hs
    rw [storeGet_cons] at hget
    rw [storeErase_cons]
    by_cases he : (e.1 == h) = true
    · rw [if_pos he] at hget ⊢
      have heq : e.1 = h := beq_iff_eq.mp he
      have hnm : h ∉ rest.map Prod.fst := by
        intro hmem
        rcases List.mem_map.mp hmem with ⟨f, hf, hf1⟩
        have := hs.1 f hf
        rw [heq, hf1] at this
        exact lt_irrefl h this
      rw [storeErase_not_mem hnm, storeInsert_head]
      · have he2 : e.2 = v := by injection hget
        rw [← heq, ← he2]
      · intro f hf
        rw [← heq]
        exact hs.1 f hf
    · rw [if_neg he] at hget ⊢
      have hmem := mem_keys_of_storeGet hget
      have helt : e.1 < h := by
        rcases List.mem_map.mp hmem with ⟨f, hf, hf1⟩
        rw [← hf1]
        exact hs.1 f hf
      rw [storeInsert, if_neg ?h1b, if_neg ?h2b, ih hs.2 hget]
      case h1b => exact fun hc => absurd (Nat.lt_trans hc helt) (lt_irrefl h)
      case h2b =>
        intro hc
        have hhe := beq_iff_eq.mp hc
        rw [hhe] at helt
        exact absurd helt (lt_irrefl e.1)

/-! ## List helper lemmas for the line store -/

theorem set_self_getElem {α : Type} (l : List α) (i : Nat) (h : i < l.length) :
    l.set i l[i] = l := by
  induction l generalizing i with
  | nil => rfl
  | cons x xs ih =>
    cases i with
    | zero => rfl
    | succ j =>
      have hj : j < xs.length := by simpa using h
      rw [List.set_cons_succ]
      rw [show (x :: xs)[j + 1] = xs[j] from by simp]
      rw [ih j hj]

theorem getD_append_self {α : Type} (T : List α) (x : α) (R : List α) (d : α) :
    (T ++ x :: R).getD T.length d = x := by
  have hlen : T.length < (T ++ x :: R).length := by simp
  rw [getD_eq_getElem _ _ _ hlen]
  rw [List.getElem_append_right (Nat.le_refl T.length)]
  simp

theorem getD_append_len {α : Type} (T : List α) (x : α) (R : List α) (d : α)
    (n : Nat) (hn : T.length = n) : (T ++ x :: R).getD n d = x := by
  rw [← hn]
  exact getD_append_self T x R d

theorem list_decomp {α : Type} (l : List α) (i : Nat) (h : i < l.length) :
    l = l.take i ++ l[i] :: l.drop (i + 1) := by
  conv_lhs => rw [← List.take_append_drop i l]
  rw [List.drop_eq_getElem_cons h]

theorem all_of_take {α : Type} {l : List α} {f : α → Bool}
    (hall : l.all f = true) (n : Nat) : (l.take n).all f = true := by
  rw [List.all_eq_true] at *
  exact fun x hx => hall x (List.mem_of_mem_take hx)

theorem all_of_drop {α : Type} {l : List α} {f : α → Bool}
    (hall : l.all f = true) (n : Nat) : (l.drop n).all f = true := by
  rw [List.all_eq_true] at *
  exact fun x hx => hall x (List.mem_of_mem_drop hx)

theorem lineCache_of_linesOK {ls : List Line} (hl : linesOK ls = true)
    {i : Nat} (h : i < ls.length) : ls[i].length = ls[i].content.length := by
  rw [linesOK_iff] at hl
  exact hl.2 ls[i] (List.getElem_mem h)

/-- Unfolding of `applyInsertUntracked` for a one-line text. -/
theorem applyInsertUntracked_eq_single {c : Core} {t0 : List Char}
    {p : Position} (hp : positionValid c p = true) :
    applyInsertUntracked [t0] p c = some
      ({ c with lines := c.lines.set p.row (Line.fromContent
          ((c.lines.getD p.row (Line.fromContent [])).content.take p.column ++
            t0 ++
            (c.lines.getD p.row (Line.fromContent [])).content.drop p.column)) },
        .Remove ⟨p, ⟨p.row,
          ((c.lines.getD p.row (Line.fromContent [])).content.take p.column ++
            t0).length⟩⟩) := by
  rw [applyInsertUntracked, if_neg (by simp), if_neg (by rw [hp]; simp)]

/-- Unfolding of `applyInsertUntracked` for a multi-line text. -/
theorem applyInsertUntracked_eq_multi {c : Core} {t0 t1 : List Char}
    {ts : List (List Char)} {p : Position} (hp : positionValid c p = true) :
    applyInsertUntracked (t0 :: t1 :: ts) p c = some
      ({ c with lines := (
          c.lines.take p.row ++
            Line.fromContent
              ((c.lines.getD p.row (Line.fromContent [])).content.take p.column
                ++ t0) ::
            (t1 :: ts).dropLast.map Line.fromContent ++
            (⟨(t1 :: ts).getLastD [] ++
                (c.lines.getD p.row (Line.fromContent [])).content.drop
                  p.column,
              ((t1 :: ts).getLastD []).length +
                ((c.lines.getD p.row (Line.fromContent [])).content.drop
                  p.column).length⟩ : Line) ::
            c.lines.drop (p.row + 1)) },
        .Remove ⟨p, ⟨p.row + (t0 :: t1 :: ts).length - 1,
          ((t1 :: ts).getLastD []).length⟩⟩) := by
  rw [applyInsertUntracked, if_neg (by simp), if_neg (by rw [hp]; simp)]

/-- Unfolding of `applyRemoveUntracked` for a single-row range. -/
theorem applyRemoveUntracked_eq_single {c : Core} {r : Range}
    (hv : rangeValid c r = true) (heq : r.beginning.row = r.ending.row) :
    applyRemoveUntracked r c = some
      ({ c with lines := c.lines.set r.beginning.row (Line.fromContent
          ((c.lines.getD r.beginning.row (Line.fromContent
            [])).content.take r.beginning.column ++
           (c.lines.getD r.beginning.row (Line.fromContent
            [])).content.drop r.ending.column)) },
        .Insert [((c.lines.getD r.beginning.row (Line.fromContent
            [])).content.drop r.beginning.column).take
            (r.ending.column - r.beginning.column)] r.beginning) := by
  rw [applyRemoveUntracked, if_neg (by rw [hv]; simp), if_pos heq]

/-- Unfolding of `applyRemoveUntracked` for a multi-row range. -/
theorem applyRemoveUntracked_eq_multi {c : Core} {r : Range}
    (hv : rangeValid c r = true) (hne : ¬(r.beginning.row = r.ending.row)) :
    applyRemoveUntracked r c = some
      ({ c with lines := (
          c.lines.take r.beginning.row ++
            Line.fromContent
              ((c.lines.getD r.beginning.row (Line.fromContent
                [])).content.take r.beginning.column ++
               (c.lines.getD r.ending.row (Line.fromContent
                [])).content.drop r.ending.column) ::
            c.lines.drop (r.ending.row + 1)) },
        .Insert
          ((c.lines.getD r.beginning.row (Line.fromContent
              [])).content.drop r.beginning.column ::
            ((c.lines.drop (r.beginning.row + 1)).take
              (r.ending.row - r.beginning.row - 1)).map (fun l => l.content) ++
            [(c.lines.getD r.ending.row (Line.fromContent
              [])).content.take r.ending.column])
          r.beginning) := by
  rw [applyRemoveUntracked, if_neg (by rw [hv]; simp), if_neg hne]

theorem dropLast_append_getLastD {α : Type} (x : α) (xs : List α) (d : α) :
    (x :: xs).dropLast ++ [(x :: xs).getLastD d] = x :: xs := by
  have h1 : (x :: xs).getLastD d =
      (x :: xs).getLast (fun h => List.noConfusion h) := rfl
  rw [h1, List.dropLast_concat_getLast]

theorem map_fromContent_content (ls : List (List Char)) :
    (ls.map Line.fromContent).map (fun l => l.content) = ls := by
  rw [List.map_map]
  have : ((fun l => l.content) ∘ Line.fromContent) = id := by
    funext l
    rfl
  rw [this, List.map_id]

/-- The primitive insertion succeeds on applicable input and the returned
`Remove` change undoes it exactly, re-producing the original `Insert`. -/
theorem applyInsertUntracked_invol {c : Core} {text : List (List Char)}
    {p : Position} (hl : linesOK c.lines = true) (ht : text ≠ [])
    (hp : positionValid c p = true) :
    ∃ c' r, applyInsertUntracked text p c = some (c', .Remove r) ∧
      linesOK c'.lines = true ∧ c'.anchors = c.anchors ∧
      c'.indentation = c.indentation ∧ c'.language = c.language ∧
      r.beginning = p ∧ rangeValid c' r = true ∧
      applyRemoveUntracked r c' = some (c, .Insert text p) := by
  have hrow : p.row < c.lines.length := (positionValid_iff.mp hp).1
  have hgetD : c.lines.getD p.row (Line.fromContent []) = c.lines[p.row] :=
    getD_eq_getElem _ _ _ hrow
  have hcache : c.lines[p.row].length = c.lines[p.row].content.length :=
    lineCache_of_linesOK hl hrow
  have hcol : p.column ≤ c.lines[p.row].content.length := by
    have := (positionValid_iff.mp hp).2
    rw [hgetD, hcache] at this
    exact this
  have hLline : Line.fromContent (c.lines[p.row].content) = c.lines[p.row] := by
    rw [Line.fromContent, ← hcache]
  have hB : (c.lines[p.row].content.take p.column).length = p.column :=
    List.length_take_of_le hcol
  have hBA : c.lines[p.row].content.take p.column ++
      c.lines[p.row].content.drop p.column = c.lines[p.row].content :=
    List.take_append_drop _ _
  match text with
  | [] => exact absurd rfl ht
  | [t0] =>
    have hrowOut : p.row < (c.lines.set p.row (Line.fromContent
        (c.lines[p.row].content.take p.column ++ t0 ++
          c.lines[p.row].content.drop p.column))).length := by
      rw [List.length_set]
      exact hrow
    have hgd : (c.lines.set p.row (Line.fromContent
        (c.lines[p.row].content.take p.column ++ t0 ++
          c.lines[p.row].content.drop p.column))).getD p.row
        (Line.fromContent []) = Line.fromContent
        (c.lines[p.row].content.take p.column ++ t0 ++
          c.lines[p.row].content.drop p.column) := by
      rw [getD_eq_getElem _ _ _ hrowOut]
      exact List.getElem_set_self hrowOut
    have hval : rangeValid { c with lines := (c.lines.set p.row
        (Line.fromContent (c.lines[p.row].content.take p.column ++ t0 ++
          c.lines[p.row].content.drop p.column))) }
        ⟨p, ⟨p.row, (c.lines[p.row].content.take p.column ++ t0).length⟩⟩ =
        true := by
      rw [rangeValid_iff]
      refine ⟨?_, ?_, ?_⟩
      · rw [positionValid_iff]
        refine ⟨hrowOut, ?_⟩
        rw [hgd]
        show p.column ≤ (c.lines[p.row].content.take p.column ++ t0 ++
          c.lines[p.row].content.drop p.column).length
        rw [List.length_append, List.length_append, hB]
        omega
      · rw [positionValid_iff]
        refine ⟨hrowOut, ?_⟩
        rw [hgd]
        show (c.lines[p.row].content.take p.column ++ t0).length ≤
          (c.lines[p.row].content.take p.column ++ t0 ++
            c.lines[p.row].content.drop p.column).length
        rw [List.length_append (c.lines[p.row].content.take p.column ++ t0)]
        omega
      · rw [posLe_iff]
        refine Or.inr ⟨rfl, ?_⟩
        show p.column ≤ (c.lines[p.row].content.take p.column ++ t0).length
        rw [List.length_append, hB]
        omega
    refine ⟨{ c with lines := c.lines.set p.row (Line.fromContent
        (c.lines[p.row].content.take p.column ++ t0 ++
          c.lines[p.row].content.drop p.column)) },
      ⟨p, ⟨p.row, (c.lines[p.row].content.take p.column ++ t0).length⟩⟩,
      ?_, ?_, rfl, rfl, rfl, rfl, hval, ?_⟩
    · rw [applyInsertUntracked_eq_single hp, hgetD]
    · rw [linesOK_iff]
      constructor
      · intro hcon
        have hlen := congrArg List.length hcon
        rw [List.length_set] at hlen
        simp at hlen
        rw [hlen] at hrow
        exact Nat.not_lt_zero _ hrow
      · intro l hli
        rcases List.mem_or_eq_of_mem_set hli with hmem | hleq
        · exact (linesOK_iff.mp hl).2 l hmem
        · rw [hleq]
          rfl
    · rw [applyRemoveUntracked_eq_single hval rfl]
      dsimp only
      rw [hgd]
      have hcnt : (Line.fromContent
          (c.lines[p.row].content.take p.column ++ t0 ++
            c.lines[p.row].content.drop p.column)).content =
          c.lines[p.row].content.take p.column ++
            (t0 ++ c.lines[p.row].content.drop p.column) := by
        rw [Line.fromContent, List.append_assoc]
      rw [hcnt]
      rw [List.length_append, hB]
      rw [List.drop_left' hB]
      rw [Nat.add_sub_cancel_left]
      rw [List.take_left]
      rw [List.take_left' hB]
      have hdrop2 : (c.lines[p.row].content.take p.column ++
          (t0 ++ c.lines[p.row].content.drop p.column)).drop
            (p.column + t0.length) =
          c.lines[p.row].content.drop p.column := by
        rw [← List.append_assoc]
        refine List.drop_left' ?_
        rw [List.length_append, hB]
      rw [hdrop2, hBA, hLline, List.set_set, set_self_getElem _ _ hrow]
  | t0 :: t1 :: ts =>
    have hT : (c.lines.take p.row).length = p.row :=
      List.length_take_of_le (Nat.le_of_lt hrow)
    have hM : ((t1 :: ts).dropLast.map Line.fromContent).length = ts.length := by
      rw [List.length_map, List.length_dropLast]
      rfl
    have her : p.row + (t0 :: t1 :: ts).length - 1 = p.row + (ts.length + 1) := by
      rw [List.length_cons, List.length_cons]
      omega
    have hregroup1 : c.lines.take p.row ++
        Line.fromContent (c.lines[p.row].content.take p.column ++ t0) ::
        (t1 :: ts).dropLast.map Line.fromContent ++
        (⟨(t1 :: ts).getLastD [] ++ c.lines[p.row].content.drop p.column,
          ((t1 :: ts).getLastD []).length +
            (c.lines[p.row].content.drop p.column).length⟩ : Line) ::
        c.lines.drop (p.row + 1) =
        c.lines.take p.row ++
          (Line.fromContent (c.lines[p.row].content.take p.column ++ t0) ::
            ((t1 :: ts).dropLast.map Line.fromContent ++
              (⟨(t1 :: ts).getLastD [] ++ c.lines[p.row].content.drop p.column,
                ((t1 :: ts).getLastD []).length +
                  (c.lines[p.row].content.drop p.column).length⟩ : Line) ::
              c.lines.drop (p.row + 1))) := by
      rw [List.append_assoc]
      rfl
    have hTFM : (c.lines.take p.row ++
        Line.fromContent (c.lines[p.row].content.take p.column ++ t0) ::
        (t1 :: ts).dropLast.map Line.fromContent).length =
        p.row + (ts.length + 1) := by
      rw [List.length_append, hT, List.length_cons, hM]
    have hlenOut : (c.lines.take p.row ++
        Line.fromContent (c.lines[p.row].content.take p.column ++ t0) ::
        (t1 :: ts).dropLast.map Line.fromContent ++
        (⟨(t1 :: ts).getLastD [] ++ c.lines[p.row].content.drop p.column,
          ((t1 :: ts).getLastD []).length +
            (c.lines[p.row].content.drop p.column).length⟩ : Line) ::
        c.lines.drop (p.row + 1)).length =
        (p.row + (ts.length + 1)) + (1 + (c.lines.drop (p.row + 1)).length) := by
      rw [List.length_append, hTFM, List.length_cons]
      omega
    have hgdF : (c.lines.take p.row ++
        Line.fromContent (c.lines[p.row].content.take p.column ++ t0) ::
        (t1 :: ts).dropLast.map Line.fromContent ++
        (⟨(t1 :: ts).getLastD [] ++ c.lines[p.row].content.drop p.column,
          ((t1 :: ts).getLastD []).length +
            (c.lines[p.row].content.drop p.column).length⟩ : Line) ::
        c.lines.drop (p.row + 1)).getD p.row (Line.fromContent []) =
        Line.fromContent (c.lines[p.row].content.take p.column ++ t0) := by
      rw [hregroup1]
      exact getD_append_len _ _ _ _ _ hT
    have hgdZ : (c.lines.take p.row ++
        Line.fromContent (c.lines[p.row].content.take p.column ++ t0) ::
        (t1 :: ts).dropLast.map Line.fromContent ++
        (⟨(t1 :: ts).getLastD [] ++ c.lines[p.row].content.drop p.column,
          ((t1 :: ts).getLastD []).length +
            (c.lines[p.row].content.drop p.column).length⟩ : Line) ::
        c.lines.drop (p.row + 1)).getD (p.row + (t0 :: t1 :: ts).length - 1)
          (Line.fromContent []) =
        (⟨(t1 :: ts).getLastD [] ++ c.lines[p.row].content.drop p.column,
          ((t1 :: ts).getLastD []).length +
            (c.lines[p.row].content.drop p.column).length⟩ : Line) := by
      rw [her]
      exact getD_append_len _ _ _ _ _ hTFM
    have hlOK : linesOK (c.lines.take p.row ++
        Line.fromContent (c.lines[p.row].content.take p.column ++ t0) ::
        (t1 :: ts).dropLast.map Line.fromContent ++
        (⟨(t1 :: ts).getLastD [] ++ c.lines[p.row].content.drop p.column,
          ((t1 :: ts).getLastD []).length +
            (c.lines[p.row].content.drop p.column).length⟩ : Line) ::
        c.lines.drop (p.row + 1)) = true := by
      rw [linesOK_iff]
      constructor
      · intro hcon
        have hlen := congrArg List.length hcon
        rw [hlenOut] at hlen
        simp at hlen
      · intro l hli
        rw [hregroup1] at hli
        rcases List.mem_append.mp hli with hmem | hmem
        · exact (linesOK_iff.mp hl).2 l (List.mem_of_mem_take hmem)
        · rcases List.mem_cons.mp hmem with rfl | hmem2
          · rfl
          · rcases List.mem_append.mp hmem2 with hmem3 | hmem4
            · rcases List.mem_map.mp hmem3 with ⟨t, _, rfl⟩
              rfl
            · rcases List.mem_cons.mp hmem4 with rfl | hmem5
              · show ((t1 :: ts).getLastD []).length +
                  (c.lines[p.row].content.drop p.column).length = _
                rw [List.length_append]
              · exact (linesOK_iff.mp hl).2 l (List.mem_of_mem_drop hmem5)
    have hval : rangeValid { c with lines := (c.lines.take p.row ++
        Line.fromContent (c.lines[p.row].content.take p.column ++ t0) ::
        (t1 :: ts).dropLast.map Line.fromContent ++
        (⟨(t1 :: ts).getLastD [] ++ c.lines[p.row].content.drop p.column,
          ((t1 :: ts).getLastD []).length +
            (c.lines[p.row].content.drop p.column).length⟩ : Line) ::
        c.lines.drop (p.row + 1)) }
        ⟨p, ⟨p.row + (t0 :: t1 :: ts).length - 1,
          ((t1 :: ts).getLastD []).length⟩⟩ = true := by
      rw [rangeValid_iff]
      refine ⟨?_, ?_, ?_⟩
      · rw [positionValid_iff]
        constructor
        · show p.row < _
          rw [hlenOut]
          omega
        · show p.column ≤ _
          rw [hgdF]
          show p.column ≤ (c.lines[p.row].content.take p.column ++ t0).length
          rw [List.length_append, hB]
          omega
      · rw [positionValid_iff]
        constructor
        · show p.row + (t0 :: t1 :: ts).length - 1 < _
          rw [hlenOut, her]
          omega
        · show ((t1 :: ts).getLastD []).length ≤ _
          rw [hgdZ]
          show ((t1 :: ts).getLastD []).length ≤
            ((t1 :: ts).getLastD []).length +
              (c.lines[p.row].content.drop p.column).length
          omega
      · rw [posLe_iff]
        refine Or.inl ?_
        show p.row < p.row + (t0 :: t1 :: ts).length - 1
        rw [her]
        omega
    have hner : ¬(p.row = p.row + (t0 :: t1 :: ts).length - 1) := by
      rw [her]
      omega
    refine ⟨{ c with lines := (c.lines.take p.row ++
        Line.fromContent (c.lines[p.row].content.take p.column ++ t0) ::
        (t1 :: ts).dropLast.map Line.fromContent ++
        (⟨(t1 :: ts).getLastD [] ++ c.lines[p.row].content.drop p.column,
          ((t1 :: ts).getLastD []).length +
            (c.lines[p.row].content.drop p.column).length⟩ : Line) ::
        c.lines.drop (p.row + 1)) },
      ⟨p, ⟨p.row + (t0 :: t1 :: ts).length - 1,
        ((t1 :: ts).getLastD []).length⟩⟩,
      ?_, hlOK, rfl, rfl, rfl, rfl, hval, ?_⟩
    · rw [applyInsertUntracked_eq_multi hp, hgetD]
    · rw [applyRemoveUntracked_eq_multi hval hner]
      dsimp only
      rw [hgdF, hgdZ]
      have htake : (c.lines.take p.row ++
          Line.fromContent (c.lines[p.row].content.take p.column ++ t0) ::
          (t1 :: ts).dropLast.map Line.fromContent ++
          (⟨(t1 :: ts).getLastD [] ++ c.lines[p.row].content.drop p.column,
            ((t1 :: ts).getLastD []).length +
              (c.lines[p.row].content.drop p.column).length⟩ : Line) ::
          c.lines.drop (p.row + 1)).take p.row = c.lines.take p.row := by
        rw [hregroup1]
        exact List.take_left' hT
      have hdropEr : (c.lines.take p.row ++
          Line.fromContent (c.lines[p.row].content.take p.column ++ t0) ::
          (t1 :: ts).dropLast.map Line.fromContent ++
          (⟨(t1 :: ts).getLastD [] ++ c.lines[p.row].content.drop p.column,
            ((t1 :: ts).getLastD []).length +
              (c.lines[p.row].content.drop p.column).length⟩ : Line) ::
          c.lines.drop (p.row + 1)).drop
            (p.row + (t0 :: t1 :: ts).length - 1 + 1) =
          c.lines.drop (p.row + 1) := by
        have hshape : c.lines.take p.row ++
            Line.fromContent (c.lines[p.row].content.take p.column ++ t0) ::
            (t1 :: ts).dropLast.map Line.fromContent ++
            (⟨(t1 :: ts).getLastD [] ++ c.lines[p.row].content.drop p.column,
              ((t1 :: ts).getLastD []).length +
                (c.lines[p.row].content.drop p.column).length⟩ : Line) ::
            c.lines.drop (p.row + 1) =
            ((c.lines.take p.row ++
              Line.fromContent (c.lines[p.row].content.take p.column ++ t0) ::
              (t1 :: ts).dropLast.map Line.fromContent) ++
              [(⟨(t1 :: ts).getLastD [] ++
                  c.lines[p.row].content.drop p.column,
                ((t1 :: ts).getLastD []).length +
                  (c.lines[p.row].content.drop p.column).length⟩ : Line)]) ++
              c.lines.drop (p.row + 1) := by
          simp
        rw [hshape]
        refine List.drop_left' ?_
        rw [List.length_append, hTFM, her]
        simp
      have hdropRow : (c.lines.take p.row ++
          Line.fromContent (c.lines[p.row].content.take p.column ++ t0) ::
          (t1 :: ts).dropLast.map Line.fromContent ++
          (⟨(t1 :: ts).getLastD [] ++ c.lines[p.row].content.drop p.column,
            ((t1 :: ts).getLastD []).length +
              (c.lines[p.row].content.drop p.column).length⟩ : Line) ::
          c.lines.drop (p.row + 1)).drop (p.row + 1) =
          (t1 :: ts).dropLast.map Line.fromContent ++
          (⟨(t1 :: ts).getLastD [] ++ c.lines[p.row].content.drop p.column,
            ((t1 :: ts).getLastD []).length +
              (c.lines[p.row].content.drop p.column).length⟩ : Line) ::
          c.lines.drop (p.row + 1) := by
        have hshape : c.lines.take p.row ++
            Line.fromContent (c.lines[p.row].content.take p.column ++ t0) ::
            (t1 :: ts).dropLast.map Line.fromContent ++
            (⟨(t1 :: ts).getLastD [] ++ c.lines[p.row].content.drop p.column,
              ((t1 :: ts).getLastD []).length +
                (c.lines[p.row].content.drop p.column).length⟩ : Line) ::
            c.lines.drop (p.row + 1) =
            (c.lines.take p.row ++
              [Line.fromContent (c.lines[p.row].content.take p.column ++ t0)]) ++
              ((t1 :: ts).dropLast.map Line.fromContent ++
              (⟨(t1 :: ts).getLastD [] ++
                  c.lines[p.row].content.drop p.column,
                ((t1 :: ts).getLastD []).length +
                  (c.lines[p.row].content.drop p.column).length⟩ : Line) ::
              c.lines.drop (p.row + 1)) := by
          simp
        rw [hshape]
        refine List.drop_left' ?_
        rw [List.length_append, hT]
        rfl
      rw [htake, hdropEr, hdropRow]
      have hermin : p.row + (t0 :: t1 :: ts).length - 1 - p.row - 1 =
          ts.length := by
        rw [her]
        omega
      rw [hermin]
      rw [← hM, List.take_left]
      rw [map_fromContent_content]
      have hFtake : (Line.fromContent
          (c.lines[p.row].content.take p.column ++ t0)).content.take p.column =
          c.lines[p.row].content.take p.column := List.take_left' hB
      have hFdrop : (Line.fromContent
          (c.lines[p.row].content.take p.column ++ t0)).content.drop p.column =
          t0 := List.drop_left' hB
      have hZdrop : ((⟨(t1 :: ts).getLastD [] ++
          c.lines[p.row].content.drop p.column,
          ((t1 :: ts).getLastD []).length +
            (c.lines[p.row].content.drop p.column).length⟩ :
            Line).content).drop (((t1 :: ts).getLastD []).length) =
          c.lines[p.row].content.drop p.column := List.drop_left _ _
      have hZtake : ((⟨(t1 :: ts).getLastD [] ++
          c.lines[p.row].content.drop p.column,
          ((t1 :: ts).getLastD []).length +
            (c.lines[p.row].content.drop p.column).length⟩ :
            Line).content).take (((t1 :: ts).getLastD []).length) =
          (t1 :: ts).getLastD [] := List.take_left _ _
      rw [hFtake, hFdrop, hZdrop, hZtake, hBA, hLline]
      rw [List.cons_append, dropLast_append_getLastD]
      rw [← list_decomp c.lines p.row hrow]


/-- `applyInsertUntracked_eq_multi` restated for any non-empty tail. -/
theorem applyInsertUntracked_eq_multi' {c : Core} {t0 : List Char}
    {rest : List (List Char)} {p : Position} (hp : positionValid c p = true)
    (hr : rest ≠ []) :
    applyInsertUntracked (t0 :: rest) p c = some
      ({ c with lines := (
          c.lines.take p.row ++
            Line.fromContent
              ((c.lines.getD p.row (Line.fromContent [])).content.take p.column
                ++ t0) ::
            rest.dropLast.map Line.fromContent ++
            (⟨rest.getLastD [] ++
                (c.lines.getD p.row (Line.fromContent [])).content.drop
                  p.column,
              (rest.getLastD []).length +
                ((c.lines.getD p.row (Line.fromContent [])).content.drop
                  p.column).length⟩ : Line) ::
            c.lines.drop (p.row + 1)) },
        .Remove ⟨p, ⟨p.row + (t0 :: rest).length - 1,
          (rest.getLastD []).length⟩⟩) := by
  match rest with
  | [] => exact absurd rfl hr
  | t1 :: ts => exact applyInsertUntracked_eq_multi hp

/-- The primitive removal succeeds on a valid range and the returned `Insert`
change undoes it exactly, re-producing the original `Remove`. -/
theorem applyRemoveUntracked_invol {c : Core} {r : Range}
    (hl : linesOK c.lines = true) (hv : rangeValid c r = true) :
    ∃ c' text, applyRemoveUntracked r c = some (c', .Insert text r.beginning) ∧
      linesOK c'.lines = true ∧ c'.anchors = c.anchors ∧
      c'.indentation = c.indentation ∧ c'.language = c.language ∧
      text ≠ [] ∧ positionValid c' r.beginning = true ∧
      applyInsertUntracked text r.beginning c' = some (c, .Remove r) := by
  have hvb : positionValid c r.beginning = true := (rangeValid_iff.mp hv).1
  have hve : positionValid c r.ending = true := (rangeValid_iff.mp hv).2.1
  have hle : posLe r.beginning r.ending = true := (rangeValid_iff.mp hv).2.2
  have hbrow : r.beginning.row < c.lines.length := (positionValid_iff.mp hvb).1
  have herow : r.ending.row < c.lines.length := (positionValid_iff.mp hve).1
  have hgdB : c.lines.getD r.beginning.row (Line.fromContent []) =
      c.lines[r.beginning.row] := getD_eq_getElem _ _ _ hbrow
  have hgdE : c.lines.getD r.ending.row (Line.fromContent []) =
      c.lines[r.ending.row] := getD_eq_getElem _ _ _ herow
  have hcacheB : c.lines[r.beginning.row].length =
      c.lines[r.beginning.row].content.length :=
    lineCache_of_linesOK hl hbrow
  have hcacheE : c.lines[r.ending.row].length =
      c.lines[r.ending.row].content.length :=
    lineCache_of_linesOK hl herow
  have hbc : r.beginning.column ≤ c.lines[r.beginning.row].content.length := by
    have := (positionValid_iff.mp hvb).2
    rw [hgdB, hcacheB] at this
    exact this
  have hec : r.ending.column ≤ c.lines[r.ending.row].content.length := by
    have := (positionValid_iff.mp hve).2
    rw [hgdE, hcacheE] at this
    exact this
  have hLbline : Line.fromContent (c.lines[r.beginning.row].content) =
      c.lines[r.beginning.row] := by
    rw [Line.fromContent, ← hcacheB]
  have hBlen : (c.lines[r.beginning.row].content.take r.beginning.column).length
      = r.beginning.column := List.length_take_of_le hbc
  by_cases heq : r.beginning.row = r.ending.row
  · -- single-row removal
    have hbcec : r.beginning.column ≤ r.ending.column := by
      rcases posLe_iff.mp hle with hlt | ⟨_, hc⟩
      · rw [heq] at hlt
        exact absurd hlt (lt_irrefl _)
      · exact hc
    have hgeq : c.lines[r.beginning.row] = c.lines[r.ending.row] := by
      rw [← hgdB, ← hgdE, heq]
    have hecb : r.ending.column ≤ c.lines[r.beginning.row].content.length := by
      rw [hgeq]
      exact hec
    have hrowOut : r.beginning.row < (c.lines.set r.beginning.row
        (Line.fromContent
          (c.lines[r.beginning.row].content.take r.beginning.column ++
            c.lines[r.beginning.row].content.drop r.ending.column))).length := by
      rw [List.length_set]
      exact hbrow
    have hgd2 : (c.lines.set r.beginning.row (Line.fromContent
        (c.lines[r.beginning.row].content.take r.beginning.column ++
          c.lines[r.beginning.row].content.drop r.ending.column))).getD
        r.beginning.row (Line.fromContent []) = Line.fromContent
        (c.lines[r.beginning.row].content.take r.beginning.column ++
          c.lines[r.beginning.row].content.drop r.ending.column) := by
      rw [getD_eq_getElem _ _ _ hrowOut]
      exact List.getElem_set_self hrowOut
    have hvalB : positionValid { c with lines := (c.lines.set r.beginning.row
        (Line.fromContent
          (c.lines[r.beginning.row].content.take r.beginning.column ++
            c.lines[r.beginning.row].content.drop r.ending.column))) }
        r.beginning = true := by
      rw [positionValid_iff]
      refine ⟨hrowOut, ?_⟩
      rw [hgd2]
      show r.beginning.column ≤
        (c.lines[r.beginning.row].content.take r.beginning.column ++
          c.lines[r.beginning.row].content.drop r.ending.column).length
      rw [List.length_append, hBlen]
      omega
    refine ⟨{ c with lines := (c.lines.set r.beginning.row (Line.fromContent
        (c.lines[r.beginning.row].content.take r.beginning.column ++
          c.lines[r.beginning.row].content.drop r.ending.column))) },
      [(c.lines[r.beginning.row].content.drop r.beginning.column).take
        (r.ending.column - r.beginning.column)],
      ?_, ?_, rfl, rfl, rfl, (by simp), hvalB, ?_⟩
    · rw [applyRemoveUntracked_eq_single hv heq, hgdB]
    · rw [linesOK_iff]
      constructor
      · intro hcon
        have hlen := congrArg List.length hcon
        rw [List.length_set] at hlen
        simp at hlen
        rw [hlen] at hbrow
        exact Nat.not_lt_zero _ hbrow
      · intro l hli
        rcases List.mem_or_eq_of_mem_set hli with hmem | hleq
        · exact (linesOK_iff.mp hl).2 l hmem
        · rw [hleq]
          rfl
    · rw [applyInsertUntracked_eq_single hvalB]
      rw [hgd2]
      have hcnt : (Line.fromContent
          (c.lines[r.beginning.row].content.take r.beginning.column ++
            c.lines[r.beginning.row].content.drop r.ending.column)).content =
          c.lines[r.beginning.row].content.take r.beginning.column ++
            c.lines[r.beginning.row].content.drop r.ending.column := rfl
      rw [hcnt]
      rw [List.take_left' hBlen, List.drop_left' hBlen]
      have hjoin : (c.lines[r.beginning.row].content.drop
          r.beginning.column).take (r.ending.column - r.beginning.column) ++
          c.lines[r.beginning.row].content.drop r.ending.column =
          c.lines[r.beginning.row].content.drop r.beginning.column := by
        have hdd : c.lines[r.beginning.row].content.drop r.ending.column =
            (c.lines[r.beginning.row].content.drop r.beginning.column).drop
              (r.ending.column - r.beginning.column) := by
          rw [List.drop_drop]
          rw [Nat.add_sub_cancel' hbcec]
        rw [hdd, List.take_append_drop]
      rw [List.append_assoc, hjoin, List.take_append_drop, hLbline,
        List.set_set, set_self_getElem _ _ hbrow]
      have hxlen : ((c.lines[r.beginning.row].content.drop
          r.beginning.column).take (r.ending.column - r.beginning.column)).length
          = r.ending.column - r.beginning.column := by
        rw [List.length_take, List.length_drop]
        omega
      have hcol2 : (c.lines[r.beginning.row].content.take r.beginning.column ++
          (c.lines[r.beginning.row].content.drop r.beginning.column).take
            (r.ending.column - r.beginning.column)).length =
          r.ending.column := by
        rw [List.length_append, hBlen, hxlen]
        omega
      rw [hcol2]
      have hrange : (⟨r.beginning, ⟨r.beginning.row, r.ending.column⟩⟩ : Range)
          = r := by
        rcases r with ⟨b, e⟩
        rcases e with ⟨erow, ecol⟩
        simp only at heq
        rw [heq]
      rw [hrange]
  · -- multi-row removal
    have hlt : r.beginning.row < r.ending.row := by
      rcases posLe_iff.mp hle with hlt | ⟨hr2, _⟩
      · exact hlt
      · exact absurd hr2 heq
    have hT : (c.lines.take r.beginning.row).length = r.beginning.row :=
      List.length_take_of_le (Nat.le_of_lt hbrow)
    have hElen : (c.lines[r.ending.row].content.take r.ending.column).length =
        r.ending.column := List.length_take_of_le hec
    have hLeline : Line.fromContent (c.lines[r.ending.row].content) =
        c.lines[r.ending.row] := by
      rw [Line.fromContent, ← hcacheE]
    have hmidlen : ((c.lines.drop (r.beginning.row + 1)).take
        (r.ending.row - r.beginning.row - 1)).length =
        r.ending.row - r.beginning.row - 1 := by
      rw [List.length_take, List.length_drop]
      omega
    have hdecomp : c.lines = c.lines.take r.beginning.row ++
        c.lines[r.beginning.row] ::
        ((c.lines.drop (r.beginning.row + 1)).take
          (r.ending.row - r.beginning.row - 1) ++
          c.lines[r.ending.row] :: c.lines.drop (r.ending.row + 1)) := by
      have h1 := list_decomp c.lines r.beginning.row hbrow
      have h2 : c.lines.drop (r.beginning.row + 1) =
          (c.lines.drop (r.beginning.row + 1)).take
            (r.ending.row - r.beginning.row - 1) ++
            c.lines[r.ending.row] :: c.lines.drop (r.ending.row + 1) := by
        conv_lhs => rw [← List.take_append_drop
          (r.ending.row - r.beginning.row - 1)
          (c.lines.drop (r.beginning.row + 1))]
        rw [List.drop_drop]
        rw [show r.beginning.row + 1 + (r.ending.row - r.beginning.row - 1) =
          r.ending.row from by omega]
        rw [List.drop_eq_getElem_cons herow]
      rw [← h2]
      exact h1
    have hlenNR : (Line.fromContent
        (c.lines[r.beginning.row].content.take r.beginning.column ++
          c.lines[r.ending.row].content.drop r.ending.column)).length =
        r.beginning.column +
          (c.lines[r.ending.row].content.length - r.ending.column) := by
      show (c.lines[r.beginning.row].content.take r.beginning.column ++
        c.lines[r.ending.row].content.drop r.ending.column).length = _
      rw [List.length_append, hBlen, List.length_drop]
    have hgd2 : (c.lines.take r.beginning.row ++
        Line.fromContent
          (c.lines[r.beginning.row].content.take r.beginning.column ++
            c.lines[r.ending.row].content.drop r.ending.column) ::
        c.lines.drop (r.ending.row + 1)).getD r.beginning.row
        (Line.fromContent []) = Line.fromContent
          (c.lines[r.beginning.row].content.take r.beginning.column ++
            c.lines[r.ending.row].content.drop r.ending.column) :=
      getD_append_len _ _ _ _ _ hT
    have hvalB2 : positionValid { c with lines := (c.lines.take r.beginning.row
        ++ Line.fromContent
          (c.lines[r.beginning.row].content.take r.beginning.column ++
            c.lines[r.ending.row].content.drop r.ending.column) ::
        c.lines.drop (r.ending.row + 1)) } r.beginning = true := by
      rw [positionValid_iff]
      constructor
      · show r.beginning.row < _
        rw [List.length_append, hT, List.length_cons]
        omega
      · show r.beginning.column ≤ _
        rw [hgd2, hlenNR]
        omega
    have hlOK2 : linesOK (c.lines.take r.beginning.row ++
        Line.fromContent
          (c.lines[r.beginning.row].content.take r.beginning.column ++
            c.lines[r.ending.row].content.drop r.ending.column) ::
        c.lines.drop (r.ending.row + 1)) = true := by
      rw [linesOK_iff]
      constructor
      · intro hcon
        have hlen := congrArg List.length hcon
        rw [List.length_append, hT, List.length_cons] at hlen
        simp at hlen
      · intro l hli
        rcases List.mem_append.mp hli with hmem | hmem
        · exact (linesOK_iff.mp hl).2 l (List.mem_of_mem_take hmem)
        · rcases List.mem_cons.mp hmem with rfl | hmem2
          · rfl
          · exact (linesOK_iff.mp hl).2 l (List.mem_of_mem_drop hmem2)
    refine ⟨{ c with lines := (c.lines.take r.beginning.row ++
        Line.fromContent
          (c.lines[r.beginning.row].content.take r.beginning.column ++
            c.lines[r.ending.row].content.drop r.ending.column) ::
        c.lines.drop (r.ending.row + 1)) },
      c.lines[r.beginning.row].content.drop r.beginning.column ::
        ((c.lines.drop (r.beginning.row + 1)).take
          (r.ending.row - r.beginning.row - 1)).map (fun l => l.content) ++
        [c.lines[r.ending.row].content.take r.ending.column],
      ?_, hlOK2, rfl, rfl, rfl, (by simp), hvalB2, ?_⟩
    · rw [applyRemoveUntracked_eq_multi hv heq, hgdB, hgdE]
    · rw [List.cons_append]
      rw [applyInsertUntracked_eq_multi' hvalB2 (by simp), hgd2]
      have htake2 : (c.lines.take r.beginning.row ++
          Line.fromContent
            (c.lines[r.beginning.row].content.take r.beginning.column ++
              c.lines[r.ending.row].content.drop r.ending.column) ::
          c.lines.drop (r.ending.row + 1)).take r.beginning.row =
          c.lines.take r.beginning.row := List.take_left' hT
      have hdrop2 : (c.lines.take r.beginning.row ++
          Line.fromContent
            (c.lines[r.beginning.row].content.take r.beginning.column ++
              c.lines[r.ending.row].content.drop r.ending.column) ::
          c.lines.drop (r.ending.row + 1)).drop (r.beginning.row + 1) =
          c.lines.drop (r.ending.row + 1) := by
        have hshape : c.lines.take r.beginning.row ++
            Line.fromContent
              (c.lines[r.beginning.row].content.take r.beginning.column ++
                c.lines[r.ending.row].content.drop r.ending.column) ::
            c.lines.drop (r.ending.row + 1) =
            (c.lines.take r.beginning.row ++
              [Line.fromContent
                (c.lines[r.beginning.row].content.take r.beginning.column ++
                  c.lines[r.ending.row].content.drop r.ending.column)]) ++
              c.lines.drop (r.ending.row + 1) := by
          simp
        rw [hshape]
        refine List.drop_left' ?_
        rw [List.length_append, hT]
        rfl
      rw [htake2, hdrop2]
      have hNtake : (Line.fromContent
          (c.lines[r.beginning.row].content.take r.beginning.column ++
            c.lines[r.ending.row].content.drop r.ending.column)).content.take
          r.beginning.column =
          c.lines[r.beginning.row].content.take r.beginning.column :=
        List.take_left' hBlen
      have hNdrop : (Line.fromContent
          (c.lines[r.beginning.row].content.take r.beginning.column ++
            c.lines[r.ending.row].content.drop r.ending.column)).content.drop
          r.beginning.column =
          c.lines[r.ending.row].content.drop r.ending.column :=
        List.drop_left' hBlen
      rw [hNtake, hNdrop]
      have hBA2 : c.lines[r.beginning.row].content.take r.beginning.column ++
          c.lines[r.beginning.row].content.drop r.beginning.column =
          c.lines[r.beginning.row].content := List.take_append_drop _ _
      rw [hBA2, hLbline]
      have hdl : (((c.lines.drop (r.beginning.row + 1)).take
          (r.ending.row - r.beginning.row - 1)).map (fun l => l.content) ++
          [c.lines[r.ending.row].content.take r.ending.column]).dropLast =
          ((c.lines.drop (r.beginning.row + 1)).take
            (r.ending.row - r.beginning.row - 1)).map (fun l => l.content) :=
        List.dropLast_concat
      have hgl : (((c.lines.drop (r.beginning.row + 1)).take
          (r.ending.row - r.beginning.row - 1)).map (fun l => l.content) ++
          [c.lines[r.ending.row].content.take r.ending.column]).getLastD [] =
          c.lines[r.ending.row].content.take r.ending.column :=
        List.getLastD_concat _ _ _
      rw [hdl, hgl]
      have hmapmap : (((c.lines.drop (r.beginning.row + 1)).take
          (r.ending.row - r.beginning.row - 1)).map
            (fun l => l.content)).map Line.fromContent =
          (c.lines.drop (r.beginning.row + 1)).take
            (r.ending.row - r.beginning.row - 1) := by
        rw [List.map_map]
        have hid : ∀ l ∈ (c.lines.drop (r.beginning.row + 1)).take
            (r.ending.row - r.beginning.row - 1),
            (Line.fromContent ∘ fun l => l.content) l = l := by
          intro l hml
          have hcl : l.length = l.content.length :=
            (linesOK_iff.mp hl).2 l
              (List.mem_of_mem_drop (List.mem_of_mem_take hml))
          show Line.fromContent l.content = l
          rw [Line.fromContent, ← hcl]
        rw [List.map_congr_left hid, List.map_id']
      rw [hmapmap]
      have hlast2 : (⟨c.lines[r.ending.row].content.take r.ending.column ++
          c.lines[r.ending.row].content.drop r.ending.column,
          (c.lines[r.ending.row].content.take r.ending.column).length +
            (c.lines[r.ending.row].content.drop r.ending.column).length⟩ :
          Line) = c.lines[r.ending.row] := by
        rw [← hLeline, Line.fromContent]
        have hc2 : c.lines[r.ending.row].content.take r.ending.column ++
            c.lines[r.ending.row].content.drop r.ending.column =
            c.lines[r.ending.row].content := List.take_append_drop _ _
        have hc3 : (c.lines[r.ending.row].content.take r.ending.column).length +
            (c.lines[r.ending.row].content.drop r.ending.column).length =
            c.lines[r.ending.row].content.length := by
          rw [← List.length_append, hc2]
        rw [show (⟨c.lines[r.ending.row].content.take r.ending.column ++
            c.lines[r.ending.row].content.drop r.ending.column,
            (c.lines[r.ending.row].content.take r.ending.column).length +
              (c.lines[r.ending.row].content.drop r.ending.column).length⟩ :
            Line) = ⟨c.lines[r.ending.row].content,
              c.lines[r.ending.row].content.length⟩ from by rw [hc2, hc3]]
      rw [hlast2]
      have hlines_eq : c.lines.take r.beginning.row ++
          c.lines[r.beginning.row] ::
          (c.lines.drop (r.beginning.row + 1)).take
            (r.ending.row - r.beginning.row - 1) ++
          c.lines[r.ending.row] :: c.lines.drop (r.ending.row + 1) =
          c.lines := by
        conv_rhs => rw [hdecomp]
        simp
      rw [hlines_eq]
      have hlen3 : (c.lines[r.beginning.row].content.drop r.beginning.column ::
          (((c.lines.drop (r.beginning.row + 1)).take
            (r.ending.row - r.beginning.row - 1)).map (fun l => l.content) ++
          [c.lines[r.ending.row].content.take r.ending.column])).length =
          r.ending.row - r.beginning.row + 1 := by
        rw [List.length_cons, List.length_append, List.length_map, hmidlen]
        simp
        omega
      rw [hlen3, hElen]
      have hrange2 : (⟨r.beginning, ⟨r.beginning.row +
          (r.ending.row - r.beginning.row + 1) - 1, r.ending.column⟩⟩ : Range)
          = r := by
        rcases r with ⟨b, e⟩
        rcases e with ⟨erow, ecol⟩
        simp only at hlt ⊢
        rw [show b.row + (erow - b.row + 1) - 1 = erow from by omega]
      rw [hrange2]

theorem anchorsOK_iff {a : Anchors} :
    anchorsOK a = true ↔ storeSorted a.store = true ∧
      (a.get Anchors.CURSOR).isSome = true ∧ (a.get Anchors.MARK).isSome = true ∧
      ∀ e ∈ a.store, e.1 < a.next_id := by
  simp [anchorsOK, List.all_eq_true, Nat.blt_eq]
  tauto

theorem structOK_iff {c : Core} :
    structOK c = true ↔ linesOK c.lines = true ∧ anchorsOK c.anchors = true := by
  simp [structOK]

theorem storeGet_isSome_mem {s : List (AnchorHandle × Anchor)}
    {h : AnchorHandle} (hs : storeSorted s = true)
    (hmem : h ∈ s.map Prod.fst) : (storeGet s h).isSome = true := by
  rcases List.mem_map.mp hmem with ⟨e, he, hef⟩
  rw [show (storeGet s h) = some e.2 from (storeGet_eq_some_iff hs).mpr
    (by rw [← hef]; exact he)]
  rfl

theorem storeGet_storeSet_isSome (s : List (AnchorHandle × Anchor))
    (h : AnchorHandle) (v : Anchor) (k : AnchorHandle) :
    (storeGet (storeSet s h v) k).isSome = (storeGet s k).isSome := by
  by_cases hk : k = h
  · subst hk
    rw [storeGet_storeSet_self]
    cases storeGet s k <;> rfl
  · rw [storeGet_storeSet_other _ _ _ _ hk]

/-- One applicable change on a structurally valid core succeeds, preserves
structural validity, and its returned inverse is itself applicable and
restores the exact original core while re-producing the original change. -/
theorem applyChange_invol {c : Core} {ch : Change}
    (hs : structOK c = true) (hok : changeOKb ch c = true) :
    ∃ c' inv, applyChange ch c = some (c', inv) ∧ structOK c' = true ∧
      changeOKb inv c' = true ∧ applyChange inv c' = some (c, ch) := by
  have hl : linesOK c.lines = true := (structOK_iff.mp hs).1
  have ha : anchorsOK c.anchors = true := (structOK_iff.mp hs).2
  rcases anchorsOK_iff.mp ha with ⟨hsort, hcur, hmark, hkeys⟩
  match ch with
  | .Insert text position =>
    have ht : text ≠ [] := by
      rcases Bool.and_eq_true_iff.mp hok with ⟨h1, _⟩
      simp [List.isEmpty_iff] at h1
      exact h1
    have hp : positionValid c position = true :=
      (Bool.and_eq_true_iff.mp hok).2
    rcases applyInsertUntracked_invol hl ht hp with
      ⟨c', r, happly, hlOK, hanch, hind, hlang, hbeg, hrv, hback⟩
    refine ⟨c', .Remove r, happly, ?_, hrv, ?_⟩
    · rw [structOK_iff]
      exact ⟨hlOK, by rw [hanch]; exact ha⟩
    · show applyRemoveUntracked r c' = _
      rw [hback]
  | .Remove range =>
    have hv : rangeValid c range = true := hok
    rcases applyRemoveUntracked_invol hl hv with
      ⟨c', text, happly, hlOK, hanch, hind, hlang, ht, hpv, hback⟩
    refine ⟨c', .Insert text range.beginning, happly, ?_, ?_, ?_⟩
    · rw [structOK_iff]
      exact ⟨hlOK, by rw [hanch]; exact ha⟩
    · show (!text.isEmpty && positionValid c' range.beginning) = true
      rw [hpv]
      simp [List.isEmpty_iff, ht]
    · show applyInsertUntracked text range.beginning c' = _
      rw [hback]
  | .AnchorSet handle value =>
    have hsome : (c.anchors.get handle).isSome = true := hok
    rcases Option.isSome_iff_exists.mp hsome with ⟨old, hold⟩
    have hget2 : Anchors.get ⟨storeSet c.anchors.store handle value,
        c.anchors.next_id⟩ handle = some value := by
      show storeGet (storeSet c.anchors.store handle value) handle = some value
      rw [storeGet_storeSet_self,
        show storeGet c.anchors.store handle = some old from hold]
      rfl
    have happ : applyChange (.AnchorSet handle value) c =
        some ({ c with anchors := ⟨storeSet c.anchors.store handle value,
          c.anchors.next_id⟩ }, .AnchorSet handle old) := by
      show (match c.anchors.set handle value with
        | .error _ => none
        | .ok (o, a') =>
          some ({ c with anchors := a' }, Change.AnchorSet handle o)) = _
      rw [Anchors.set, hold]
    have hset2 : Anchors.set ⟨storeSet c.anchors.store handle value,
        c.anchors.next_id⟩ handle old =
        .ok (value, ⟨c.anchors.store, c.anchors.next_id⟩) := by
      rw [Anchors.set, hget2, storeSet_cancel hsort hold value]
    refine ⟨{ c with anchors := ⟨storeSet c.anchors.store handle value,
        c.anchors.next_id⟩ }, .AnchorSet handle old, happ, ?_, ?_, ?_⟩
    · rw [structOK_iff]
      refine ⟨hl, ?_⟩
      rw [anchorsOK_iff]
      refine ⟨storeSorted_storeSet hsort, ?_, ?_, ?_⟩
      · show (storeGet (storeSet c.anchors.store handle value)
          Anchors.CURSOR).isSome = true
        rw [storeGet_storeSet_isSome]
        exact hcur
      · show (storeGet (storeSet c.anchors.store handle value)
          Anchors.MARK).isSome = true
        rw [storeGet_storeSet_isSome]
        exact hmark
      · intro e he
        have hmem : e.1 ∈ (storeSet c.anchors.store handle value).map
            Prod.fst := List.mem_map.mpr ⟨e, he, rfl⟩
        rw [storeKeys_storeSet] at hmem
        rcases List.mem_map.mp hmem with ⟨f, hf, hff⟩
        rw [← hff]
        exact hkeys f hf
    · show (Anchors.get ⟨storeSet c.anchors.store handle value,
        c.anchors.next_id⟩ handle).isSome = true
      rw [hget2]
      rfl
    · show (match Anchors.set ⟨storeSet c.anchors.store handle value,
        c.anchors.next_id⟩ handle old with
        | .error _ => none
        | .ok (o, a') =>
          some ({ { c with anchors := ⟨storeSet c.anchors.store handle value,
            c.anchors.next_id⟩ } with anchors := a' },
            Change.AnchorSet handle o)) = _
      rw [hset2]
  | .AnchorInsert handle value =>
    have hnone : (c.anchors.get handle).isNone = true :=
      (Bool.and_eq_true_iff.mp hok).1
    have hnone2 : storeGet c.anchors.store handle = none := by
      have hx := hnone
      rw [anchorsGet_def] at hx
      exact Option.isNone_iff_eq_none.mp hx
    have hnid : handle < c.anchors.next_id := by
      have hx := (Bool.and_eq_true_iff.mp hok).2
      exact Nat.blt_eq.mp hx
    have hnotmem : handle ∉ c.anchors.store.map Prod.fst := by
      intro hmem
      have hx := storeGet_isSome_mem hsort hmem
      rw [hnone2] at hx
      exact Bool.false_ne_true (by simpa using hx)
    have h0 : handle ≠ Anchors.CURSOR := by
      intro hc
      have hx := hcur
      rw [anchorsGet_def, ← hc, hnone2] at hx
      exact Bool.false_ne_true (by simpa using hx)
    have h1 : handle ≠ Anchors.MARK := by
      intro hc
      have hx := hmark
      rw [anchorsGet_def, ← hc, hnone2] at hx
      exact Bool.false_ne_true (by simpa using hx)
    have hgeti : Anchors.get ⟨storeInsert c.anchors.store handle value,
        c.anchors.next_id⟩ handle = some value :=
      storeGet_storeInsert_self _ _ _
    have hrem : Anchors.remove ⟨storeInsert c.anchors.store handle value,
        c.anchors.next_id⟩ handle =
        .ok (value, ⟨c.anchors.store, c.anchors.next_id⟩) := by
      rw [Anchors.remove, if_neg (by simp [h0, h1]), anchorsGet_def] at *
      rw [show storeGet (storeInsert c.anchors.store handle value) handle =
        some value from hgeti]
      rw [storeErase_storeInsert hnotmem]
    refine ⟨{ c with anchors := ⟨storeInsert c.anchors.store handle value,
        c.anchors.next_id⟩ }, .AnchorRemove handle, rfl, ?_, ?_, ?_⟩
    · rw [structOK_iff]
      refine ⟨hl, ?_⟩
      rw [anchorsOK_iff]
      refine ⟨storeSorted_storeInsert hsort, ?_, ?_, ?_⟩
      · show (storeGet (storeInsert c.anchors.store handle value)
          Anchors.CURSOR).isSome = true
        rw [storeGet_storeInsert_other _ _ _ _ (fun x => h0 x.symm)]
        exact hcur
      · show (storeGet (storeInsert c.anchors.store handle value)
          Anchors.MARK).isSome = true
        rw [storeGet_storeInsert_other _ _ _ _ (fun x => h1 x.symm)]
        exact hmark
      · intro e he
        have hmem : e.1 ∈ (storeInsert c.anchors.store handle value).map
            Prod.fst := List.mem_map.mpr ⟨e, he, rfl⟩
        rw [mem_keys_storeInsert] at hmem
        rcases hmem with heq1 | hmem2
        · rw [heq1]
          exact hnid
        · rcases List.mem_map.mp hmem2 with ⟨f, hf, hff⟩
          rw [← hff]
          exact hkeys f hf
    · show (!(handle == Anchors.CURSOR) && !(handle == Anchors.MARK) &&
        (Anchors.get ⟨storeInsert c.anchors.store handle value,
          c.anchors.next_id⟩ handle).isSome) = true
      rw [hgeti]
      simp [h0, h1]
    · show (match Anchors.remove ⟨storeInsert c.anchors.store handle value,
        c.anchors.next_id⟩ handle with
        | .error _ => none
        | .ok (o, a') =>
          some ({ { c with anchors := ⟨storeInsert c.anchors.store handle
            value, c.anchors.next_id⟩ } with anchors := a' },
            Change.AnchorInsert handle o)) = _
      rw [hrem]
  | .AnchorRemove handle =>
    have h0 : (handle == Anchors.CURSOR) = false := by
      have hx := (Bool.and_eq_true_iff.mp (Bool.and_eq_true_iff.mp hok).1).1
      revert hx
      cases handle == Anchors.CURSOR <;> simp
    have h1 : (handle == Anchors.MARK) = false := by
      have hx := (Bool.and_eq_true_iff.mp (Bool.and_eq_true_iff.mp hok).1).2
      revert hx
      cases handle == Anchors.MARK <;> simp
    have hsome : (c.anchors.get handle).isSome = true :=
      (Bool.and_eq_true_iff.mp hok).2
    rcases Option.isSome_iff_exists.mp hsome with ⟨old, hold⟩
    have hold2 : storeGet c.anchors.store handle = some old := hold
    have hrem : Anchors.remove c.anchors handle =
        .ok (old, ⟨storeErase c.anchors.store handle, c.anchors.next_id⟩) := by
      rw [Anchors.remove, if_neg (by simp [h0, h1]), anchorsGet_def, hold2]
    have happ : applyChange (.AnchorRemove handle) c =
        some ({ c with anchors := ⟨storeErase c.anchors.store handle,
          c.anchors.next_id⟩ }, .AnchorInsert handle old) := by
      show (match Anchors.remove c.anchors handle with
        | .error _ => none
        | .ok (o, a') =>
          some ({ c with anchors := a' }, Change.AnchorInsert handle o)) = _
      rw [hrem]
    have hnid : handle < c.anchors.next_id := by
      have hmem := (storeGet_eq_some_iff hsort).mp hold2
      exact hkeys (handle, old) hmem
    have hne0 : Anchors.CURSOR ≠ handle := by
      intro hx
      rw [← hx] at h0
      simp at h0
    have hne1 : Anchors.MARK ≠ handle := by
      intro hx
      rw [← hx] at h1
      simp at h1
    refine ⟨{ c with anchors := ⟨storeErase c.anchors.store handle,
        c.anchors.next_id⟩ }, .AnchorInsert handle old, happ, ?_, ?_, ?_⟩
    · rw [structOK_iff]
      refine ⟨hl, ?_⟩
      rw [anchorsOK_iff]
      refine ⟨storeSorted_storeErase hsort, ?_, ?_, ?_⟩
      · show (storeGet (storeErase c.anchors.store handle)
          Anchors.CURSOR).isSome = true
        rw [storeGet_storeErase_other _ _ _ hne0]
        exact hcur
      · show (storeGet (storeErase c.anchors.store handle)
          Anchors.MARK).isSome = true
        rw [storeGet_storeErase_other _ _ _ hne1]
        exact hmark
      · intro e he
        have hein : e ∈ c.anchors.store := List.mem_of_mem_filter he
        exact hkeys e hein
    · show ((Anchors.get ⟨storeErase c.anchors.store handle,
        c.anchors.next_id⟩ handle).isNone &&
        Nat.blt handle c.anchors.next_id) = true
      have hge : Anchors.get ⟨storeErase c.anchors.store handle,
          c.anchors.next_id⟩ handle = none := storeGet_storeErase_self _ _
      rw [hge]
      simp [Nat.blt_eq, hnid]
    · have happ2 : applyChange (.AnchorInsert handle old)
          { c with anchors := ⟨storeErase c.anchors.store handle,
            c.anchors.next_id⟩ } =
          some ({ c with anchors :=
            ⟨storeInsert (storeErase c.anchors.store handle) handle old,
              c.anchors.next_id⟩ }, .AnchorRemove handle) := rfl
      rw [happ2, storeInsert_storeErase hsort hold2]
  | .IndentationChange value =>
    refine ⟨{ c with indentation := value },
      .IndentationChange c.indentation, rfl, ?_, rfl, rfl⟩
    rw [structOK_iff]
    exact ⟨hl, ha⟩
  | .LanguageChange value =>
    refine ⟨{ c with language := value },
      .LanguageChange c.language, rfl, ?_, rfl, rfl⟩
    rw [structOK_iff]
    exact ⟨hl, ha⟩

theorem applyChangesOK_append (c : Core) (xs ys : List Change) :
    applyChangesOK c (xs ++ ys) =
      match applyChangesOK c xs with
      | none => none
      | some (c1, i1) =>
        match applyChangesOK c1 ys with
        | none => none
        | some (c2, i2) => some (c2, i1 ++ i2) := by
  induction xs generalizing c with
  | nil =>
    rw [List.nil_append]
    show applyChangesOK c ys =
      match applyChangesOK c ys with
      | none => none
      | some (c2, i2) => some (c2, [] ++ i2)
    cases h : applyChangesOK c ys with
    | none => rfl
    | some r =>
      rcases r with ⟨c2, i2⟩
      rfl
  | cons x rest ih =>
    show (if changeOKb x c then _ else none) = _
    by_cases hok : changeOKb x c = true
    · rw [if_pos hok]
      show (match applyChange x c with
        | none => none
        | some (c1, inv) =>
          match applyChangesOK c1 (rest ++ ys) with
          | none => none
          | some (c2, invs) => some (c2, inv :: invs)) = _
      cases ha : applyChange x c with
      | none =>
        show none = _
        rw [show applyChangesOK c (x :: rest) = none from by
          rw [applyChangesOK, if_pos hok, ha]]
      | some r =>
        rcases r with ⟨cm, inv⟩
        show (match applyChangesOK cm (rest ++ ys) with
          | none => none
          | some (c2, invs) => some (c2, inv :: invs)) = _
        rw [ih cm]
        rw [show applyChangesOK c (x :: rest) =
          (match applyChangesOK cm rest with
            | none => none
            | some (c2, invs) => some (c2, inv :: invs)) from by
          rw [applyChangesOK, if_pos hok, ha]]
        cases hrest : applyChangesOK cm rest with
        | none => rfl
        | some r2 =>
          rcases r2 with ⟨c2, i2⟩
          show (match (match applyChangesOK c2 ys with
              | none => none
              | some (c3, i3) => some (c3, i2 ++ i3)) with
            | none => none
            | some (c3, i3) => some (c3, inv :: i3)) =
            match applyChangesOK c2 ys with
            | none => none
            | some (c3, i3) => some (c3, (inv :: i2) ++ i3)
          cases hys : applyChangesOK c2 ys with
          | none => rfl
          | some r3 =>
            rcases r3 with ⟨c3, i3⟩
            rfl
    · rw [if_neg hok]
      rw [show applyChangesOK c (x :: rest) = none from by
        rw [applyChangesOK, if_neg hok]]

/-- Chain involution: a checked run of changes can be undone exactly by the
checked run of the collected inverses in reverse order, which re-collects the
original changes (reversed). -/
theorem applyChangesOK_invol {chs : List Change} :
    ∀ {c c1 : Core} {invs : List Change}, structOK c = true →
      applyChangesOK c chs = some (c1, invs) →
      structOK c1 = true ∧
        applyChangesOK c1 invs.reverse = some (c, chs.reverse) := by
  induction chs with
  | nil =>
    intro c c1 invs hs h
    rw [show applyChangesOK c [] = some (c, []) from rfl] at h
    injection h with h1
    injection h1 with h2 h3
    rw [← h2, ← h3]
    exact ⟨hs, rfl⟩
  | cons x rest ih =>
    intro c c1 invs hs h
    rw [applyChangesOK] at h
    by_cases hok : changeOKb x c = true
    · rw [if_pos hok] at h
      rcases applyChange_invol hs hok with ⟨cm, inv, ha, hsm, hoki, hback⟩
      rw [ha] at h
      change (match applyChangesOK cm rest with
        | none => none
        | some (c2, i2) => some (c2, inv :: i2)) = some (c1, invs) at h
      cases hrest : applyChangesOK cm rest with
      | none =>
        rw [hrest] at h
        exact absurd h (by simp)
      | some r2 =>
        rcases r2 with ⟨c2, i2⟩
        rw [hrest] at h
        injection h with h1
        injection h1 with h2 h3
        subst h2
        subst h3
        rcases ih hsm hrest with ⟨hs2, hinv2⟩
        refine ⟨hs2, ?_⟩
        have hone : applyChangesOK cm [inv] = some (c, [x]) := by
          rw [applyChangesOK, if_pos hoki, hback]
          rfl
        rw [List.reverse_cons, List.reverse_cons, applyChangesOK_append,
          hinv2]
        change (match applyChangesOK cm [inv] with
          | none => none
          | some (c3, i3) => some (c3, rest.reverse ++ i3)) =
          some (c, rest.reverse ++ [x])
        rw [hone]
    · rw [if_neg hok] at h
      exact absurd h (by simp)

/-! ## Undo/redo machinery -/

theorem stackOK_cons {c : Core} {p : ChangePacket} {rest : List ChangePacket} :
    stackOK c (p :: rest) = true ↔
      ∃ c1 invs, applyChangesOK c p.changes.reverse = some (c1, invs) ∧
        posValidAll c1 = true ∧ stackOK c1 rest = true := by
  rw [stackOK]
  cases h : applyChangesOK c p.changes.reverse with
  | none => simp [h]
  | some r =>
    rcases r with ⟨c1, invs⟩
    simp [h, Bool.and_eq_true_iff]

theorem applyChanges_of_OK : ∀ {chs : List Change} {c : Core}
    {r : Core × List Change},
    applyChangesOK c chs = some r → applyChanges c chs = some r := by
  intro chs
  induction chs with
  | nil =>
    intro c r h
    exact h
  | cons x rest ih =>
    intro c r h
    rw [applyChangesOK] at h
    by_cases hok : changeOKb x c = true
    · rw [if_pos hok] at h
      rw [applyChanges]
      cases ha : applyChange x c with
      | none =>
        rw [ha] at h
        exact absurd h (by simp)
      | some rr =>
        rcases rr with ⟨c1, inv⟩
        rw [ha] at h
        change (match applyChangesOK c1 rest with
          | none => none
          | some (c2, invs) => some (c2, inv :: invs)) = some r at h
        cases hrest : applyChangesOK c1 rest with
        | none =>
          rw [hrest] at h
          exact absurd h (by simp)
        | some r2 =>
          rcases r2 with ⟨c2, invs⟩
          rw [hrest] at h
          change (match applyChanges c1 rest with
            | none => none
            | some (c2, invs) => some (c2, inv :: invs)) = some r
          rw [ih hrest]
          exact h
    · rw [if_neg hok] at h
      exact absurd h (by simp)

theorem undo_once_nil {d : Document} (h : d.undo_redo.undo_stack = []) :
    d.undo_once = some (d, Except.error (Oops.NoMoreUndos 0)) := by
  obtain ⟨core, ⟨ustk, rstk, flag⟩⟩ := d
  change ustk = [] at h
  subst h
  rfl

theorem redo_once_nil {d : Document} (h : d.undo_redo.redo_stack = []) :
    d.redo_once = some (d, Except.error (Oops.NoMoreRedos 0)) := by
  obtain ⟨core, ⟨ustk, rstk, flag⟩⟩ := d
  change rstk = [] at h
  subst h
  rfl

theorem undo_once_cons {d : Document} {p : ChangePacket}
    {rest : List ChangePacket} {c' : Core} {invs : List Change}
    (h : d.undo_redo.undo_stack = p :: rest)
    (hap : applyChanges d.core p.changes.reverse = some (c', invs)) :
    d.undo_once = some (⟨c', ⟨rest, ⟨invs⟩ :: d.undo_redo.redo_stack,
      d.undo_redo.checkpoint_requested⟩⟩, Except.ok ()) := by
  obtain ⟨core, ⟨ustk, rstk, flag⟩⟩ := d
  change ustk = p :: rest at h
  subst h
  change applyChanges core p.changes.reverse = some (c', invs) at hap
  simp only [Document.undo_once, hap]

theorem redo_once_cons {d : Document} {p : ChangePacket}
    {rest : List ChangePacket} {c' : Core} {invs : List Change}
    (h : d.undo_redo.redo_stack = p :: rest)
    (hap : applyChanges d.core p.changes.reverse = some (c', invs)) :
    d.redo_once = some (⟨c', ⟨⟨invs⟩ :: d.undo_redo.undo_stack, rest,
      d.undo_redo.checkpoint_requested⟩⟩, Except.ok ()) := by
  obtain ⟨core, ⟨ustk, rstk, flag⟩⟩ := d
  change rstk = p :: rest at h
  subst h
  change applyChanges core p.changes.reverse = some (c', invs) at hap
  simp only [Document.redo_once, hap]

/-- One `undo_once` on a coherent document with a non-empty undo stack
succeeds, preserves the invariant, and is exactly reversed by `redo_once`. -/
theorem undo_once_invol {d : Document} {p : ChangePacket}
    {rest : List ChangePacket} (hinv : DocInv d)
    (hstk : d.undo_redo.undo_stack = p :: rest) :
    ∃ d1, d.undo_once = some (d1, Except.ok ()) ∧ DocInv d1 ∧
      d1.undo_redo.undo_stack = rest ∧
      d1.undo_redo.redo_stack.length = d.undo_redo.redo_stack.length + 1 ∧
      d1.undo_redo.checkpoint_requested = d.undo_redo.checkpoint_requested ∧
      d1.redo_once = some (d, Except.ok ()) := by
  rcases hinv with ⟨hs, hpv, hu, hr⟩
  rw [hstk] at hu
  rcases stackOK_cons.mp hu with ⟨c1, invs, hap, hpv1, hok1⟩
  rcases applyChangesOK_invol hs hap with ⟨hs1, hback⟩
  rw [List.reverse_reverse] at hback
  refine ⟨⟨c1, ⟨rest, ⟨invs⟩ :: d.undo_redo.redo_stack,
    d.undo_redo.checkpoint_requested⟩⟩, ?_, ?_, rfl, rfl, rfl, ?_⟩
  · exact undo_once_cons hstk (applyChanges_of_OK hap)
  · refine ⟨hs1, hpv1, hok1, ?_⟩
    exact stackOK_cons.mpr ⟨d.core, p.changes, hback, hpv, hr⟩
  · have h2 := redo_once_cons (d := ⟨c1, ⟨rest, ⟨invs⟩ :: d.undo_redo.redo_stack,
      d.undo_redo.checkpoint_requested⟩⟩) rfl (applyChanges_of_OK hback)
    rw [h2]
    have h3 : (⟨p.changes⟩ : ChangePacket) = p := rfl
    rw [h3, ← hstk]

/-- One `redo_once` on a coherent document with a non-empty redo stack
succeeds, preserves the invariant, and is exactly reversed by `undo_once`. -/
theorem redo_once_invol {d : Document} {p : ChangePacket}
    {rest : List ChangePacket} (hinv : DocInv d)
    (hstk : d.undo_redo.redo_stack = p :: rest) :
    ∃ d1, d.redo_once = some (d1, Except.ok ()) ∧ DocInv d1 ∧
      d1.undo_redo.redo_stack = rest ∧
      d1.undo_redo.undo_stack.length = d.undo_redo.undo_stack.length + 1 ∧
      d1.undo_redo.checkpoint_requested = d.undo_redo.checkpoint_requested ∧
      d1.undo_once = some (d, Except.ok ()) := by
  rcases hinv with ⟨hs, hpv, hu, hr⟩
  rw [hstk] at hr
  rcases stackOK_cons.mp hr with ⟨c1, invs, hap, hpv1, hok1⟩
  rcases applyChangesOK_invol hs hap with ⟨hs1, hback⟩
  rw [List.reverse_reverse] at hback
  refine ⟨⟨c1, ⟨⟨invs⟩ :: d.undo_redo.undo_stack, rest,
    d.undo_redo.checkpoint_requested⟩⟩, ?_, ?_, rfl, rfl, rfl, ?_⟩
  · exact redo_once_cons hstk (applyChanges_of_OK hap)
  · refine ⟨hs1, hpv1, ?_, hok1⟩
    exact stackOK_cons.mpr ⟨d.core, p.changes, hback, hpv, hu⟩
  · have h2 := undo_once_cons (d := ⟨c1, ⟨⟨invs⟩ :: d.undo_redo.undo_stack, rest,
      d.undo_redo.checkpoint_requested⟩⟩) rfl (applyChanges_of_OK hback)
    rw [h2]
    have h3 : (⟨p.changes⟩ : ChangePacket) = p := rfl
    rw [h3, ← hstk]

theorem redoGo_snoc : ∀ (n : Nat) {d d1 d2 : Document} {k m : Nat},
    d.redoGo k n = some (d1, Except.ok m) →
    d1.redo_once = some (d2, Except.ok ()) →
    d.redoGo k (n + 1) = some (d2, Except.ok (m + 1)) := by
  intro n
  induction n with
  | zero =>
    intro d d1 d2 k m h h2
    rw [Document.redoGo] at h
    injection h with h1
    injection h1 with ha hb
    subst ha
    injection hb with hc
    subst hc
    rw [Document.redoGo, h2]
    change d2.redoGo (k + 1) 0 = _
    rw [Document.redoGo]
  | succ n ih =>
    intro d d1 d2 k m h h2
    rw [Document.redoGo] at h
    rw [Document.redoGo]
    cases ho : d.redo_once with
    | none =>
      rw [ho] at h
      exact absurd h (by simp)
    | some rr =>
      rcases rr with ⟨dm, e⟩
      rw [ho] at h
      cases e with
      | ok u =>
        cases u
        change dm.redoGo (k + 1) n = some (d1, Except.ok m) at h
        change dm.redoGo (k + 1) (n + 1) = _
        exact ih h h2
      | error err =>
        change some (d, Except.error (Oops.NoMoreRedos k)) =
          some (d1, Except.ok m) at h
        injection h with h1
        injection h1 with ha hb
        exact Except.noConfusion hb

theorem undoGo_snoc : ∀ (n : Nat) {d d1 d2 : Document} {k m : Nat},
    d.undoGo k n = some (d1, Except.ok m) →
    d1.undo_once = some (d2, Except.ok ()) →
    d.undoGo k (n + 1) = some (d2, Except.ok (m + 1)) := by
  intro n
  induction n with
  | zero =>
    intro d d1 d2 k m h h2
    rw [Document.undoGo] at h
    injection h with h1
    injection h1 with ha hb
    subst ha
    injection hb with hc
    subst hc
    rw [Document.undoGo, h2]
    change d2.undoGo (k + 1) 0 = _
    rw [Document.undoGo]
  | succ n ih =>
    intro d d1 d2 k m h h2
    rw [Document.undoGo] at h
    rw [Document.undoGo]
    cases ho : d.undo_once with
    | none =>
      rw [ho] at h
      exact absurd h (by simp)
    | some rr =>
      rcases rr with ⟨dm, e⟩
      rw [ho] at h
      cases e with
      | ok u =>
        cases u
        change dm.undoGo (k + 1) n = some (d1, Except.ok m) at h
        change dm.undoGo (k + 1) (n + 1) = _
        exact ih h h2
      | error err =>
        change some (d, Except.error (Oops.NoMoreUndos k)) =
          some (d1, Except.ok m) at h
        injection h with h1
        injection h1 with ha hb
        exact Except.noConfusion hb

/-- Undoing `n` packets within the available depth of a coherent document
succeeds, preserves the invariant, and is exactly reversed by redoing `n`. -/
theorem undo_redo_iter : ∀ (n : Nat) {d : Document}, DocInv d →
    n ≤ d.undo_redo.undo_stack.length →
    ∃ d1, (∀ k, d.undoGo k n = some (d1, Except.ok (k + n))) ∧ DocInv d1 ∧
      (∀ k, d1.redoGo k n = some (d, Except.ok (k + n))) := by
  intro n
  induction n with
  | zero =>
    intro d hinv _
    exact ⟨d, fun k => rfl, hinv, fun k => rfl⟩
  | succ n ih =>
    intro d hinv hlen
    cases hstk : d.undo_redo.undo_stack with
    | nil =>
      rw [hstk] at hlen
      exact absurd hlen (by simp)
    | cons p rest =>
      rcases undo_once_invol hinv hstk with ⟨dm, ho, hinvm, hust, _, _, hback⟩
      have hlen2 : n ≤ dm.undo_redo.undo_stack.length := by
        rw [hust]
        rw [hstk] at hlen
        exact Nat.le_of_succ_le_succ hlen
      rcases ih hinvm hlen2 with ⟨d1, hundo, hinv1, hredo⟩
      refine ⟨d1, ?_, hinv1, ?_⟩
      · intro k
        rw [Document.undoGo, ho]
        change dm.undoGo (k + 1) n = _
        have := hundo (k + 1)
        rw [show k + 1 + n = k + (n + 1) from by omega] at this
        exact this
      · intro k
        exact redoGo_snoc n (hredo k) hback

/-- Redoing `n` packets within the available depth of a coherent document
succeeds, preserves the invariant, and is exactly reversed by undoing `n`. -/
theorem redo_undo_iter : ∀ (n : Nat) {d : Document}, DocInv d →
    n ≤ d.undo_redo.redo_stack.length →
    ∃ d1, (∀ k, d.redoGo k n = some (d1, Except.ok (k + n))) ∧ DocInv d1 ∧
      (∀ k, d1.undoGo k n = some (d, Except.ok (k + n))) := by
  intro n
  induction n with
  | zero =>
    intro d hinv _
    exact ⟨d, fun k => rfl, hinv, fun k => rfl⟩
  | succ n ih =>
    intro d hinv hlen
    cases hstk : d.undo_redo.redo_stack with
    | nil =>
      rw [hstk] at hlen
      exact absurd hlen (by simp)
    | cons p rest =>
      rcases redo_once_invol hinv hstk with ⟨dm, ho, hinvm, hrst, _, _, hback⟩
      have hlen2 : n ≤ dm.undo_redo.redo_stack.length := by
        rw [hrst]
        rw [hstk] at hlen
        exact Nat.le_of_succ_le_succ hlen
      rcases ih hinvm hlen2 with ⟨d1, hredo, hinv1, hundo⟩
      refine ⟨d1, ?_, hinv1, ?_⟩
      · intro k
        rw [Document.redoGo, ho]
        change dm.redoGo (k + 1) n = _
        have := hredo (k + 1)
        rw [show k + 1 + n = k + (n + 1) from by omega] at this
        exact this
      · intro k
        exact undoGo_snoc n (hundo k) hback

/-- Undoing past the available depth of a coherent document undoes everything
and reports `NoMoreUndos` with the number of packets actually undone. -/
theorem undoGo_exhaust : ∀ (L : Nat) {d : Document} {k n : Nat}, DocInv d →
    d.undo_redo.undo_stack.length = L → L < n →
    ∃ d1, d.undoGo k n = some (d1, Except.error (Oops.NoMoreUndos (k + L))) ∧
      DocInv d1 ∧ d1.undo_redo.undo_stack = [] := by
  intro L
  induction L with
  | zero =>
    intro d k n hinv hlen hlt
    have hstk : d.undo_redo.undo_stack = [] := List.length_eq_zero.mp hlen
    cases n with
    | zero => exact absurd hlt (by simp)
    | succ n =>
      refine ⟨d, ?_, hinv, hstk⟩
      rw [Document.undoGo, undo_once_nil hstk]
      rfl
  | succ L ih =>
    intro d k n hinv hlen hlt
    cases hstk : d.undo_redo.undo_stack with
    | nil =>
      rw [hstk] at hlen
      exact absurd hlen (by simp)
    | cons p rest =>
      rcases undo_once_invol hinv hstk with ⟨dm, ho, hinvm, hust, _, _, _⟩
      cases n with
      | zero => exact absurd hlt (by simp)
      | succ n =>
        have hlenm : dm.undo_redo.undo_stack.length = L := by
          rw [hust]
          rw [hstk] at hlen
          exact Nat.succ_injective hlen
        have hltm : L < n := by omega
        rcases ih (k := k + 1) hinvm hlenm hltm with ⟨d1, hgo, hinv1, hemp⟩
        refine ⟨d1, ?_, hinv1, hemp⟩
        rw [Document.undoGo, ho]
        change dm.undoGo (k + 1) n = _
        rw [hgo, show k + 1 + L = k + (L + 1) from by omega]

/-- Redoing past the available depth of a coherent document redoes everything
and reports `NoMoreRedos` with the number of packets actually redone. -/
theorem redoGo_exhaust : ∀ (L : Nat) {d : Document} {k n : Nat}, DocInv d →
    d.undo_redo.redo_stack.length = L → L < n →
    ∃ d1, d.redoGo k n = some (d1, Except.error (Oops.NoMoreRedos (k + L))) ∧
      DocInv d1 ∧ d1.undo_redo.redo_stack = [] := by
  intro L
  induction L with
  | zero =>
    intro d k n hinv hlen hlt
    have hstk : d.undo_redo.redo_stack = [] := List.length_eq_zero.mp hlen
    cases n with
    | zero => exact absurd hlt (by simp)
    | succ n =>
      refine ⟨d, ?_, hinv, hstk⟩
      rw [Document.redoGo, redo_once_nil hstk]
      rfl
  | succ L ih =>
    intro d k n hinv hlen hlt
    cases hstk : d.undo_redo.redo_stack with
    | nil =>
      rw [hstk] at hlen
      exact absurd hlen (by simp)
    | cons p rest =>
      rcases redo_once_invol hinv hstk with ⟨dm, ho, hinvm, hrst, _, _, _⟩
      cases n with
      | zero => exact absurd hlt (by simp)
      | succ n =>
        have hlenm : dm.undo_redo.redo_stack.length = L := by
          rw [hrst]
          rw [hstk] at hlen
          exact Nat.succ_injective hlen
        have hltm : L < n := by omega
        rcases ih (k := k + 1) hinvm hlenm hltm with ⟨d1, hgo, hinv1, hemp⟩
        refine ⟨d1, ?_, hinv1, hemp⟩
        rw [Document.redoGo, ho]
        change dm.redoGo (k + 1) n = _
        rw [hgo, show k + 1 + L = k + (L + 1) from by omega]

/-! ## The anchor-rebasing loops -/

theorem applyChange_anchorSet {c : Core} {h : AnchorHandle} {v old : Anchor}
    (hget : c.anchors.get h = some old) :
    applyChange (.AnchorSet h v) c =
      some ({ c with anchors := ⟨storeSet c.anchors.store h v,
          c.anchors.next_id⟩ },
        .AnchorSet h old) := by
  rw [applyChange, Anchors.set, hget]

theorem storeSet_all_fst (s : List (AnchorHandle × Anchor)) (h : AnchorHandle)
    (v : Anchor) (p : AnchorHandle → Bool) :
    (storeSet s h v).all (fun e => p e.1) = s.all (fun e => p e.1) := by
  rw [storeSet, List.all_map]
  congr 1
  funext e
  by_cases he : e.1 == h
  · simp [Function.comp, he]
  · simp [Function.comp, he]

theorem structOK_storeSet {c : Core} {h : AnchorHandle} {v : Anchor}
    (hs : structOK c = true) :
    structOK { c with anchors := ⟨storeSet c.anchors.store h v,
      c.anchors.next_id⟩ } = true := by
  rcases structOK_iff.mp hs with ⟨hl, ha⟩
  rcases anchorsOK_iff.mp ha with ⟨hsort, hcur, hmark, hnid⟩
  refine structOK_iff.mpr ⟨hl, anchorsOK_iff.mpr ⟨?_, ?_, ?_, ?_⟩⟩
  · exact storeSorted_storeSet hsort
  · show (storeGet (storeSet c.anchors.store h v) Anchors.CURSOR).isSome = true
    rw [storeGet_storeSet_isSome]
    exact hcur
  · show (storeGet (storeSet c.anchors.store h v) Anchors.MARK).isSome = true
    rw [storeGet_storeSet_isSome]
    exact hmark
  · intro e he
    rw [storeSet] at he
    rcases List.mem_map.mp he with ⟨x, hx, hxe⟩
    by_cases hxh : x.1 == h
    · rw [if_pos hxh] at hxe
      rw [← hxe]
      exact hnid x hx
    · rw [if_neg hxh] at hxe
      rw [← hxe]
      exact hnid x hx

theorem keys_nodup_of_sorted {s : List (AnchorHandle × Anchor)}
    (hs : storeSorted s = true) : (s.map Prod.fst).Nodup := by
  have hp := storeSorted_iff_pairwise.mp hs
  have : (s.map Prod.fst).Pairwise (fun a b => a < b) :=
    List.pairwise_map.mpr hp
  exact List.Pairwise.imp Nat.ne_of_lt this

theorem find_self_of_nodup {s : List (AnchorHandle × Anchor)}
    (hn : (s.map Prod.fst).Nodup) {x : AnchorHandle × Anchor} (hx : x ∈ s) :
    s.find? (fun e => e.1 == x.1) = some x := by
  induction s with
  | nil => exact absurd hx (by simp)
  | cons e rest ih =>
    rcases List.mem_cons.mp hx with hx | hx
    · subst hx
      exact List.find?_cons_of_pos _ (by simp)
    · have hne : ¬(e.1 == x.1) = true := by
        simp only [beq_iff_eq]
        intro hcon
        have : x.1 ∈ rest.map Prod.fst := List.mem_map_of_mem Prod.fst hx
        rw [← hcon] at this
        exact (List.nodup_cons.mp hn).1 this
      have hstep : List.find? (fun e => e.1 == x.1) (e :: rest) =
          List.find? (fun e => e.1 == x.1) rest :=
        List.find?_cons_of_neg _ hne
      rw [hstep]
      exact ih (List.nodup_cons.mp hn).2 hx

theorem find_none_of_not_mem {s : List (AnchorHandle × Anchor)}
    {k : AnchorHandle} (hk : ¬k ∈ s.map Prod.fst) :
    s.find? (fun e => e.1 == k) = none := by
  rw [List.find?_eq_none]
  intro e he
  simp only [beq_iff_eq]
  intro hcon
  exact hk (by rw [← hcon]; exact List.mem_map_of_mem Prod.fst he)

/-- Running an `AnchorSet` rebasing loop built from an entry list `s₀` with
distinct, present keys: the checked chain succeeds and maps every store entry
through the rebase, leaving every other core field alone. -/
theorem applyChangesOK_anchorSets (q : AnchorHandle × Anchor → Bool)
    (f : AnchorHandle × Anchor → Anchor) :
    ∀ (s₀ : List (AnchorHandle × Anchor)) (c : Core), structOK c = true →
    (s₀.map Prod.fst).Nodup →
    (∀ e ∈ s₀, (storeGet c.anchors.store e.1).isSome = true) →
    ∃ invs, applyChangesOK c (s₀.filterMap (fun e =>
        if q e then some (Change.AnchorSet e.1 (f e)) else none)) =
      some ({ c with anchors := ⟨c.anchors.store.map (fun x =>
        match s₀.find? (fun e => e.1 == x.1) with
        | some e => if q e then (x.1, f e) else x
        | none => x), c.anchors.next_id⟩ }, invs) := by
  intro s₀
  induction s₀ with
  | nil =>
    intro c hs _ _
    refine ⟨[], ?_⟩
    have hfun : (fun (x : AnchorHandle × Anchor) =>
        match List.find? (fun e => e.1 == x.1) [] with
        | some e => if q e then (x.1, f e) else x
        | none => x) = fun x => x := rfl
    rw [hfun, List.map_id']
    rfl
  | cons e rest ih =>
    intro c hs hnd hmem
    have hse : (storeGet c.anchors.store e.1).isSome = true :=
      hmem e (List.mem_cons_self e rest)
    have hnd' : ((e :: rest).map Prod.fst).Nodup = (e.1 :: rest.map
      Prod.fst).Nodup := rfl
    have hndc := List.nodup_cons.mp (hnd' ▸ hnd)
    by_cases hq : q e = true
    · have hchain : (e :: rest).filterMap (fun e =>
          if q e then some (Change.AnchorSet e.1 (f e)) else none) =
          Change.AnchorSet e.1 (f e) :: rest.filterMap (fun e =>
            if q e then some (Change.AnchorSet e.1 (f e)) else none) := by
        rw [List.filterMap_cons, if_pos hq]
      rcases Option.isSome_iff_exists.mp hse with ⟨old, hold⟩
      have hs1 : structOK { c with anchors := ⟨storeSet c.anchors.store e.1
          (f e), c.anchors.next_id⟩ } = true := structOK_storeSet hs
      have hmem1 : ∀ x ∈ rest, (storeGet (storeSet c.anchors.store e.1
          (f e)) x.1).isSome = true := by
        intro x hx
        rw [storeGet_storeSet_isSome]
        exact hmem x (List.mem_cons_of_mem e hx)
      rcases ih { c with anchors := ⟨storeSet c.anchors.store e.1 (f e),
        c.anchors.next_id⟩ } hs1 hndc.2 hmem1 with ⟨invs', hrest⟩
      refine ⟨Change.AnchorSet e.1 old :: invs', ?_⟩
      rw [hchain, applyChangesOK, if_pos (show changeOKb
        (Change.AnchorSet e.1 (f e)) c = true from hse),
        applyChange_anchorSet hold]
      change (match applyChangesOK { c with anchors :=
          ⟨storeSet c.anchors.store e.1 (f e), c.anchors.next_id⟩ }
          (rest.filterMap (fun e =>
            if q e then some (Change.AnchorSet e.1 (f e)) else none)) with
        | none => none
        | some (c2, invs) => some (c2, Change.AnchorSet e.1 old :: invs)) = _
      rw [hrest]
      have hstores : (storeSet c.anchors.store e.1 (f e)).map (fun x =>
          match rest.find? (fun e => e.1 == x.1) with
          | some e => if q e then (x.1, f e) else x
          | none => x) =
          c.anchors.store.map (fun x =>
          match (e :: rest).find? (fun e => e.1 == x.1) with
          | some e => if q e then (x.1, f e) else x
          | none => x) := by
        rw [storeSet, List.map_map]
        have hfun2 : ((fun (x : AnchorHandle × Anchor) =>
            match rest.find? (fun e => e.1 == x.1) with
            | some e => if q e then (x.1, f e) else x
            | none => x) ∘ (fun x =>
              if x.1 == e.1 then (x.1, f e) else x)) =
            (fun (x : AnchorHandle × Anchor) =>
            match (e :: rest).find? (fun e => e.1 == x.1) with
            | some e => if q e then (x.1, f e) else x
            | none => x) := by
          funext x
          by_cases hx : x.1 = e.1
          · have h1 : (x.1 == e.1) = true := by simp [hx]
            have h2 : List.find? (fun e' => e'.1 == x.1) (e :: rest) =
                some e :=
              List.find?_cons_of_pos _ (by simp [hx])
            have h3 : List.find? (fun e' => e'.1 == x.1) rest = none := by
              apply find_none_of_not_mem
              rw [hx]
              exact hndc.1
            simp only [Function.comp, h1, if_true, h2, if_pos hq]
            rw [show List.find? (fun e' => e'.1 == (x.1, f e).1) rest =
              none from h3]
          · have h1 : (x.1 == e.1) = false := by simp [hx]
            have h2 : List.find? (fun e' => e'.1 == x.1) (e :: rest) =
                List.find? (fun e' => e'.1 == x.1) rest :=
              List.find?_cons_of_neg _ (by
                simp only [beq_iff_eq]
                exact fun h => hx h.symm)
            simp only [Function.comp, h1, Bool.false_eq_true, if_false, h2]
        rw [hfun2]
      rw [hstores]
    · have hq' : q e = false := by
        revert hq
        cases q e <;> simp
      have hchain : (e :: rest).filterMap (fun e =>
          if q e then some (Change.AnchorSet e.1 (f e)) else none) =
          rest.filterMap (fun e =>
            if q e then some (Change.AnchorSet e.1 (f e)) else none) := by
        rw [List.filterMap_cons, if_neg hq]
      have hmem1 : ∀ x ∈ rest, (storeGet c.anchors.store x.1).isSome =
          true := fun x hx => hmem x (List.mem_cons_of_mem e hx)
      rcases ih c hs hndc.2 hmem1 with ⟨invs', hrest⟩
      refine ⟨invs', ?_⟩
      rw [hchain, hrest]
      have hfun2 : (fun (x : AnchorHandle × Anchor) =>
          match rest.find? (fun e => e.1 == x.1) with
          | some e => if q e then (x.1, f e) else x
          | none => x) =
          (fun (x : AnchorHandle × Anchor) =>
          match (e :: rest).find? (fun e => e.1 == x.1) with
          | some e => if q e then (x.1, f e) else x
          | none => x) := by
        funext x
        by_cases hx : x.1 = e.1
        · have h2 : List.find? (fun e' => e'.1 == x.1) (e :: rest) =
              some e :=
            List.find?_cons_of_pos _ (by simp [hx])
          have h3 : List.find? (fun e' => e'.1 == x.1) rest = none := by
            apply find_none_of_not_mem
            rw [hx]
            exact hndc.1
          rw [h2, h3]
          simp [hq']
        · have h2 : List.find? (fun e' => e'.1 == x.1) (e :: rest) =
              List.find? (fun e' => e'.1 == x.1) rest :=
            List.find?_cons_of_neg _ (by
                simp only [beq_iff_eq]
                exact fun h => hx h.symm)
          rw [h2]
      rw [hfun2]

/-! ## Line-store index bookkeeping for the rebasing arithmetic -/

theorem getD_append_left {α : Type} (T R : List α) (d : α) {i : Nat}
    (h : i < T.length) : (T ++ R).getD i d = T.getD i d := by
  rw [List.getD_eq_getElem?_getD, List.getD_eq_getElem?_getD,
    List.getElem?_append, if_pos h]

theorem getD_append_right' {α : Type} (T R : List α) (d : α) (j : Nat) :
    (T ++ R).getD (T.length + j) d = R.getD j d := by
  rw [List.getD_eq_getElem?_getD, List.getD_eq_getElem?_getD,
    List.getElem?_append, if_neg (by omega), Nat.add_sub_cancel_left]

theorem getD_take {α : Type} (L : List α) (d : α) {i n : Nat} (h : i < n) :
    (L.take n).getD i d = L.getD i d := by
  rw [List.getD_eq_getElem?_getD, List.getD_eq_getElem?_getD,
    List.getElem?_take, if_pos h]

theorem getD_drop {α : Type} (L : List α) (d : α) (n j : Nat) :
    (L.drop n).getD j d = L.getD (n + j) d := by
  rw [List.getD_eq_getElem?_getD, List.getD_eq_getElem?_getD,
    List.getElem?_drop]

theorem getD_set_self {α : Type} (L : List α) (x d : α) {i : Nat}
    (h : i < L.length) : (L.set i x).getD i d = x := by
  rw [List.getD_eq_getElem?_getD, List.getElem?_set_self (by omega)]
  rfl

theorem getD_set_ne {α : Type} (L : List α) (x d : α) {i j : Nat}
    (h : i ≠ j) : (L.set i x).getD j d = L.getD j d := by
  rw [List.getD_eq_getElem?_getD, List.getD_eq_getElem?_getD,
    List.getElem?_set_ne h]

theorem getD_cons_succ {α : Type} (x : α) (L : List α) (d : α) (j : Nat) :
    (x :: L).getD (j + 1) d = L.getD j d := by
  rw [List.getD_eq_getElem?_getD, List.getD_eq_getElem?_getD,
    List.getElem?_cons_succ]

theorem getD_length_of_linesOK {ls : List Line} (hl : linesOK ls = true)
    {i : Nat} (h : i < ls.length) :
    (ls.getD i (Line.fromContent [])).length =
      (ls.getD i (Line.fromContent [])).content.length := by
  rw [getD_eq_getElem _ _ _ h]
  exact lineCache_of_linesOK hl h

theorem posLe_iff_not_posLt {p q : Position} :
    posLe p q = true ↔ ¬posLt q p = true := by
  rw [posLe_iff, posLt_iff]
  omega

/-- After a removal, the rebased position of every anchor is valid in the new
line store (`removeMovedAnchor` is the identity on anchors at or before the
range beginning, so this covers untouched anchors as well). -/
theorem remove_rebase_PV {c : Core} {r : Range} {c' : Core} {inv : Change}
    (hs : structOK c = true)
    (hrm : applyRemoveUntracked r c = some (c', inv))
    {a : Anchor} (hp : positionValid c a.position = true) :
    positionValid c' (removeMovedAnchor a r).position = true := by
  have hl : linesOK c.lines = true := (structOK_iff.mp hs).1
  by_cases hv : rangeValid c r = true
  swap
  · have hv' : rangeValid c r = false := by
      revert hv
      cases rangeValid c r <;> simp
    rw [applyRemoveUntracked, hv'] at hrm
    simp at hrm
  rcases rangeValid_iff.mp hv with ⟨hvb, hve, hble⟩
  rcases positionValid_iff.mp hvb with ⟨hbr, hbc⟩
  rcases positionValid_iff.mp hve with ⟨her, hec⟩
  rcases positionValid_iff.mp hp with ⟨hpr, hpc⟩
  have hble' := posLe_iff.mp hble
  rw [getD_length_of_linesOK hl hbr] at hbc
  rw [getD_length_of_linesOK hl her] at hec
  rw [getD_length_of_linesOK hl hpr] at hpc
  by_cases hrow : r.beginning.row = r.ending.row
  · rw [applyRemoveUntracked_eq_single hv hrow] at hrm
    injection hrm with h1
    injection h1 with h2 h3
    subst h2
    rw [← hrow] at hec
    rw [removeMovedAnchor]
    by_cases h1 : posLt r.ending a.position = true
    · rw [if_pos h1]
      rcases posLt_iff.mp h1 with he1 | ⟨he1, he2⟩
      · -- strictly below the (single) removed row: line untouched
        rw [positionValid_iff]
        dsimp only
        have hne : r.beginning.row ≠ a.position.row - (r.ending.row -
            r.beginning.row) := by omega
        rw [List.length_set, getD_set_ne _ _ _ hne]
        have hid : a.position.row - (r.ending.row - r.beginning.row) =
            a.position.row := by omega
        rw [hid]
        rw [if_neg (show ¬(a.position.row == r.ending.row) = true by
          simp only [beq_iff_eq]
          omega)]
        rw [getD_length_of_linesOK (by simpa using hl) (by simpa using hpr)]
        exact ⟨hpr, hpc⟩
      · -- on the removed row, past the removed span
        rw [positionValid_iff]
        dsimp only
        have hid : a.position.row - (r.ending.row - r.beginning.row) =
            r.beginning.row := by omega
        rw [hid]
        rw [if_pos (show (a.position.row == r.ending.row) = true by
          simp only [beq_iff_eq]
          omega)]
        rw [List.length_set, getD_set_self _ _ _ hbr]
        constructor
        · omega
        · show r.beginning.column + a.position.column - r.ending.column ≤
            (Line.fromContent _).length
          rw [show ∀ t : List Char, (Line.fromContent t).length = t.length
            from fun t => rfl]
          rw [List.length_append, List.length_take, List.length_drop]
          have hpb : a.position.row = r.beginning.row := by omega
          rw [hpb] at hpc
          omega
    · rw [if_neg h1]
      by_cases h2 : posLt r.beginning a.position = true
      · rw [if_pos h2]
        rw [positionValid_iff]
        dsimp only
        rw [List.length_set, getD_set_self _ _ _ hbr]
        refine ⟨hbr, ?_⟩
        show r.beginning.column ≤ (Line.fromContent _).length
        rw [show ∀ t : List Char, (Line.fromContent t).length = t.length
          from fun t => rfl]
        rw [List.length_append, List.length_take, List.length_drop]
        omega
      · rw [if_neg h2]
        have hle : posLe a.position r.beginning = true :=
          posLe_iff_not_posLt.mpr h2
        rcases posLe_iff.mp hle with hc1 | ⟨hc1, hc2⟩
        · rw [positionValid_iff]
          dsimp only
          have hne : r.beginning.row ≠ a.position.row := by omega
          rw [List.length_set, getD_set_ne _ _ _ hne]
          rw [getD_length_of_linesOK (by simpa using hl) (by simpa using hpr)]
          exact ⟨hpr, hpc⟩
        · rw [positionValid_iff]
          dsimp only
          rw [List.length_set, hc1, getD_set_self _ _ _ hbr]
          refine ⟨by omega, ?_⟩
          show a.position.column ≤ (Line.fromContent _).length
          rw [show ∀ t : List Char, (Line.fromContent t).length = t.length
            from fun t => rfl]
          rw [List.length_append, List.length_take, List.length_drop]
          omega
  · -- multi-row removal
    rw [applyRemoveUntracked_eq_multi hv hrow] at hrm
    injection hrm with h1
    injection h1 with h2 h3
    subst h2
    have hbe : r.beginning.row < r.ending.row := by
      rcases hble' with h | ⟨h, _⟩
      · exact h
      · exact absurd h hrow
    have hT : (c.lines.take r.beginning.row).length = r.beginning.row := by
      rw [List.length_take]
      omega
    have hlen' : (c.lines.take r.beginning.row ++ Line.fromContent
        ((c.lines.getD r.beginning.row (Line.fromContent
          [])).content.take r.beginning.column ++
         (c.lines.getD r.ending.row (Line.fromContent
          [])).content.drop r.ending.column) ::
        c.lines.drop (r.ending.row + 1)).length =
        r.beginning.row + 1 + (c.lines.length - (r.ending.row + 1)) := by
      rw [List.length_append, List.length_cons, List.length_drop, hT]
      omega
    rw [removeMovedAnchor]
    by_cases h1 : posLt r.ending a.position = true
    · rw [if_pos h1]
      rcases posLt_iff.mp h1 with he1 | ⟨he1, he2⟩
      · -- rows strictly after the removed block shift up
        rw [positionValid_iff]
        dsimp only
        rw [if_neg (show ¬(a.position.row == r.ending.row) = true by
          simp only [beq_iff_eq]
          omega)]
        have hidx : a.position.row - (r.ending.row - r.beginning.row) =
            (c.lines.take r.beginning.row).length +
              ((a.position.row - r.ending.row - 1) + 1) := by
          rw [hT]
          omega
        rw [hidx, getD_append_right', getD_cons_succ, getD_drop]
        have hidx2 : r.ending.row + 1 + (a.position.row - r.ending.row - 1) =
            a.position.row := by omega
        rw [hidx2]
        rw [getD_length_of_linesOK hl hpr]
        rw [hlen', hT]
        exact ⟨by omega, hpc⟩
      · -- on the ending row, past the removed span: lands on the fused row
        rw [positionValid_iff]
        dsimp only
        rw [if_pos (show (a.position.row == r.ending.row) = true by
          simp only [beq_iff_eq]
          omega)]
        rw [getD_append_len _ _ _ _ _ (show
          (c.lines.take r.beginning.row).length =
            a.position.row - (r.ending.row - r.beginning.row) from by
            rw [hT]
            omega)]
        rw [hlen']
        constructor
        · omega
        · show r.beginning.column + a.position.column - r.ending.column ≤
            (Line.fromContent _).length
          rw [show ∀ t : List Char, (Line.fromContent t).length = t.length
            from fun t => rfl]
          rw [List.length_append, List.length_take, List.length_drop]
          have hpe : a.position.row = r.ending.row := by omega
          rw [hpe] at hpc
          omega
    · rw [if_neg h1]
      by_cases h2 : posLt r.beginning a.position = true
      · rw [if_pos h2]
        rw [positionValid_iff]
        dsimp only
        rw [getD_append_len _ _ _ _ _ hT]
        rw [hlen']
        constructor
        · omega
        · show r.beginning.column ≤ (Line.fromContent _).length
          rw [show ∀ t : List Char, (Line.fromContent t).length = t.length
            from fun t => rfl]
          rw [List.length_append, List.length_take, List.length_drop]
          omega
      · rw [if_neg h2]
        have hle : posLe a.position r.beginning = true :=
          posLe_iff_not_posLt.mpr h2
        rcases posLe_iff.mp hle with hc1 | ⟨hc1, hc2⟩
        · rw [positionValid_iff]
          dsimp only
          rw [getD_append_left _ _ _ (by rw [hT]; omega),
            getD_take _ _ hc1]
          rw [getD_length_of_linesOK hl hpr]
          rw [hlen']
          exact ⟨by omega, hpc⟩
        · rw [positionValid_iff]
          dsimp only
          rw [getD_append_len _ _ _ _ _ (show
            (c.lines.take r.beginning.row).length = a.position.row from by
              rw [hT]
              omega)]
          rw [hlen']
          constructor
          · omega
          · show a.position.column ≤ (Line.fromContent _).length
            rw [show ∀ t : List Char, (Line.fromContent t).length = t.length
              from fun t => rfl]
            rw [List.length_append, List.length_take, List.length_drop]
            omega

/-- After an insertion, the rebased position of every anchor at or after the
insertion point - and the unchanged position of every anchor before it - is
valid in the new line store. -/
theorem insert_rebase_PV {c : Core} {text : List (List Char)} {p : Position}
    {c' : Core} {inv : Change} (hs : structOK c = true)
    (hins : applyInsertUntracked text p c = some (c', inv))
    {a : Anchor} (hp : positionValid c a.position = true) :
    positionValid c' (if posLe p a.position then
      (insertMovedAnchor a p text).position else a.position) = true := by
  have hl : linesOK c.lines = true := (structOK_iff.mp hs).1
  cases text with
  | nil => simp [applyInsertUntracked] at hins
  | cons t0 rest =>
  by_cases hpv : positionValid c p = true
  swap
  · have hpv' : positionValid c p = false := by
      revert hpv
      cases positionValid c p <;> simp
    simp [applyInsertUntracked, hpv'] at hins
  rcases positionValid_iff.mp hpv with ⟨hvr, hvc⟩
  rcases positionValid_iff.mp hp with ⟨hpr, hpc⟩
  rw [getD_length_of_linesOK hl hvr] at hvc
  rw [getD_length_of_linesOK hl hpr] at hpc
  cases rest with
  | nil =>
    rw [applyInsertUntracked_eq_single hpv] at hins
    injection hins with h1
    injection h1 with h2 h3
    subst h2
    by_cases hsel : posLe p a.position = true
    · rw [if_pos hsel]
      by_cases ha : (a.position.row == p.row) = true
      · have har : a.position.row = p.row := by
          simpa using ha
        have hmv : insertMovedAnchor a p [t0] =
            ⟨⟨a.position.row, a.position.column + t0.length⟩⟩ := by
          rw [insertMovedAnchor, if_pos ha,
            if_pos (show (([t0] : List (List Char)).length == 1) = true
              from rfl)]
          rfl
        rw [hmv]
        rw [positionValid_iff]
        dsimp only
        rw [List.length_set]
        rw [show a.position.row = p.row from har,
          getD_set_self _ _ _ hvr]
        refine ⟨by omega, ?_⟩
        show a.position.column + t0.length ≤ (Line.fromContent _).length
        rw [show ∀ t : List Char, (Line.fromContent t).length = t.length
          from fun t => rfl]
        rw [List.length_append, List.length_append, List.length_take,
          List.length_drop]
        rw [har] at hpc
        omega
      · have har : ¬a.position.row = p.row := by
          simpa using ha
        have hmv : insertMovedAnchor a p [t0] = ⟨a.position⟩ := by
          rw [insertMovedAnchor, if_neg ha]
          rfl
        rw [hmv]
        rw [positionValid_iff]
        dsimp only
        rw [List.length_set, getD_set_ne _ _ _ (Ne.symm har)]
        rw [getD_length_of_linesOK hl hpr]
        exact ⟨hpr, hpc⟩
    · rw [if_neg hsel]
      have hlt : posLt a.position p = true := by
        rw [posLt_iff]
        have hno : ¬(p.row < a.position.row ∨ p.row = a.position.row ∧
            p.column ≤ a.position.column) := fun hcon =>
          hsel (posLe_iff.mpr hcon)
        omega
      rcases posLt_iff.mp hlt with h | ⟨h, h2⟩
      · rw [positionValid_iff]
        dsimp only
        rw [List.length_set, getD_set_ne _ _ _ (show p.row ≠ a.position.row
          from by omega)]
        rw [getD_length_of_linesOK hl hpr]
        exact ⟨hpr, hpc⟩
      · rw [positionValid_iff]
        dsimp only
        rw [List.length_set, h, getD_set_self _ _ _ (h ▸ hvr)]
        refine ⟨by omega, ?_⟩
        show a.position.column ≤ (Line.fromContent _).length
        rw [show ∀ t : List Char, (Line.fromContent t).length = t.length
          from fun t => rfl]
        rw [List.length_append, List.length_append, List.length_take,
          List.length_drop]
        omega
  | cons t1 ts =>
    rw [applyInsertUntracked_eq_multi hpv] at hins
    injection hins with h1
    injection h1 with h2 h3
    subst h2
    have hT : (c.lines.take p.row).length = p.row := by
      rw [List.length_take]
      omega
    have hM : ((t1 :: ts).dropLast.map Line.fromContent).length =
        ts.length := by
      rw [List.length_map, List.length_dropLast]
      rfl
    have hlast : ((t0 :: t1 :: ts : List (List Char)).getLastD []).length =
        (((t1 :: ts) : List (List Char)).getLastD []).length := by
      simp [List.getLastD_cons]
    have hQ : (c.lines.take p.row ++ Line.fromContent
        ((c.lines.getD p.row (Line.fromContent [])).content.take p.column
          ++ t0) :: (t1 :: ts).dropLast.map Line.fromContent).length =
        p.row + 1 + ts.length := by
      rw [List.length_append, List.length_cons, hM, hT]
      omega
    have hlen' : (c.lines.take p.row ++ Line.fromContent
        ((c.lines.getD p.row (Line.fromContent [])).content.take p.column
          ++ t0) :: (t1 :: ts).dropLast.map Line.fromContent ++
        (⟨(t1 :: ts).getLastD [] ++
            (c.lines.getD p.row (Line.fromContent [])).content.drop p.column,
          ((t1 :: ts).getLastD []).length +
            ((c.lines.getD p.row (Line.fromContent [])).content.drop
              p.column).length⟩ : Line) ::
        c.lines.drop (p.row + 1)).length =
        c.lines.length + ts.length + 1 := by
      rw [List.length_append, hQ, List.length_cons, List.length_drop]
      omega
    by_cases hsel : posLe p a.position = true
    · rw [if_pos hsel]
      by_cases ha : (a.position.row == p.row) = true
      · have har : a.position.row = p.row := by
          simpa using ha
        have hmv : insertMovedAnchor a p (t0 :: t1 :: ts) =
            ⟨⟨a.position.row + (ts.length + 1),
              ((t0 :: t1 :: ts : List (List Char)).getLastD []).length +
                (if p.column < a.position.column then
                  a.position.column - p.column else 0)⟩⟩ := by
          rw [insertMovedAnchor, if_pos ha, if_neg (show
            ¬((t0 :: t1 :: ts : List (List Char)).length == 1) = true from by
              simp only [List.length_cons, beq_iff_eq]
              omega)]
          rfl
        rw [hmv]
        rw [positionValid_iff]
        dsimp only
        rw [hlen']
        refine ⟨by omega, ?_⟩
        rw [getD_append_len _ _ _ _ _ (show (c.lines.take p.row ++
          Line.fromContent ((c.lines.getD p.row (Line.fromContent
            [])).content.take p.column ++ t0) ::
          (t1 :: ts).dropLast.map Line.fromContent).length =
          a.position.row + (ts.length + 1) from by
            rw [hQ]
            omega)]
        show _ ≤ ((t1 :: ts : List (List Char)).getLastD []).length +
          ((c.lines.getD p.row (Line.fromContent [])).content.drop
            p.column).length
        rw [hlast, List.length_drop]
        rw [har] at hpc
        by_cases hpa : p.column < a.position.column
        · rw [if_pos hpa]
          omega
        · rw [if_neg hpa]
          omega
      · have har : ¬a.position.row = p.row := by
          simpa using ha
        have hgt : p.row < a.position.row := by
          rcases posLe_iff.mp hsel with h | ⟨h, _⟩
          · exact h
          · omega
        have hmv : insertMovedAnchor a p (t0 :: t1 :: ts) =
            ⟨⟨a.position.row + (ts.length + 1), a.position.column⟩⟩ := by
          rw [insertMovedAnchor, if_neg ha]
          rfl
        rw [hmv]
        rw [positionValid_iff]
        dsimp only
        rw [hlen']
        refine ⟨by omega, ?_⟩
        rw [show a.position.row + (ts.length + 1) =
          (c.lines.take p.row ++ Line.fromContent
            ((c.lines.getD p.row (Line.fromContent [])).content.take
              p.column ++ t0) :: (t1 :: ts).dropLast.map
              Line.fromContent).length +
            ((a.position.row - p.row - 1) + 1) from by
          rw [hQ]
          omega]
        rw [getD_append_right', getD_cons_succ, getD_drop]
        rw [show p.row + 1 + (a.position.row - p.row - 1) = a.position.row
          from by omega]
        rw [getD_length_of_linesOK hl hpr]
        exact hpc
    · rw [if_neg hsel]
      have hlt : posLt a.position p = true := by
        rw [posLt_iff]
        have hno : ¬(p.row < a.position.row ∨ p.row = a.position.row ∧
            p.column ≤ a.position.column) := fun hcon =>
          hsel (posLe_iff.mpr hcon)
        omega
      rw [positionValid_iff]
      dsimp only
      rw [hlen']
      rcases posLt_iff.mp hlt with h | ⟨h, h2⟩
      · refine ⟨by omega, ?_⟩
        rw [getD_append_left _ _ _ (show a.position.row < (c.lines.take
          p.row ++ Line.fromContent ((c.lines.getD p.row (Line.fromContent
            [])).content.take p.column ++ t0) ::
          (t1 :: ts).dropLast.map Line.fromContent).length from by
            rw [hQ]
            omega)]
        rw [getD_append_left _ _ _ (show a.position.row <
          (c.lines.take p.row).length from by rw [hT]; omega)]
        rw [getD_take _ _ (show a.position.row < p.row from by omega)]
        rw [getD_length_of_linesOK hl hpr]
        exact hpc
      · refine ⟨by omega, ?_⟩
        rw [getD_append_left _ _ _ (show a.position.row < (c.lines.take
          p.row ++ Line.fromContent ((c.lines.getD p.row (Line.fromContent
            [])).content.take p.column ++ t0) ::
          (t1 :: ts).dropLast.map Line.fromContent).length from by
            rw [hQ]
            omega)]
        rw [getD_append_len _ _ _ _ _ (show (c.lines.take p.row).length =
          a.position.row from by rw [hT]; omega)]
        show a.position.column ≤ (Line.fromContent _).length
        rw [show ∀ t : List Char, (Line.fromContent t).length = t.length
          from fun t => rfl]
        rw [List.length_append, List.length_take]
        omega

/-! ## Tracked application of change chains -/

theorem push_undo_top (top : ChangePacket) (rest' rstk : List ChangePacket)
    (inv : Change) :
    UndoRedoStacks.push_undo ⟨top :: rest', rstk, false⟩ inv =
      ⟨⟨top.changes ++ [inv]⟩ :: rest', [], false⟩ := rfl

theorem push_undo_new {s : UndoRedoStacks}
    (h : (s.undo_stack.isEmpty || s.checkpoint_requested) = true)
    (inv : Change) :
    s.push_undo inv = ⟨⟨[inv]⟩ :: s.undo_stack, [], false⟩ := by
  obtain ⟨u, r, f⟩ := s
  change (u.isEmpty || f) = true at h
  rw [UndoRedoStacks.push_undo, if_pos h]
  rfl

theorem applyTrackedList_coalesce : ∀ (chs : List Change) {c c' : Core}
    {invs : List Change} (top : ChangePacket) (rest' : List ChangePacket),
    structOK c = true → applyChangesOK c chs = some (c', invs) →
    applyTrackedList ⟨c, ⟨top :: rest', [], false⟩⟩ chs =
      some ⟨c', ⟨⟨top.changes ++ invs⟩ :: rest', [], false⟩⟩ := by
  intro chs
  induction chs with
  | nil =>
    intro c c' invs top rest' hs h
    rw [show applyChangesOK c [] = some (c, []) from rfl] at h
    injection h with h1
    injection h1 with h2 h3
    subst h2
    subst h3
    show some _ = _
    rw [show top.changes ++ ([] : List Change) = top.changes from
      List.append_nil _]
  | cons x rest ih =>
    intro c c' invs top rest' hs h
    rw [applyChangesOK] at h
    by_cases hok : changeOKb x c = true
    · rw [if_pos hok] at h
      rcases applyChange_invol hs hok with ⟨c1, inv, ha, hs1, _, _⟩
      rw [ha] at h
      change (match applyChangesOK c1 rest with
        | none => none
        | some (c2, invs2) => some (c2, inv :: invs2)) = some (c', invs) at h
      cases hrest : applyChangesOK c1 rest with
      | none =>
        rw [hrest] at h
        exact absurd h (by simp)
      | some r2 =>
        rcases r2 with ⟨c2, invs2⟩
        rw [hrest] at h
        injection h with h1
        injection h1 with h2 h3
        subst h2
        subst h3
        have htr : applyTracked ⟨c, ⟨top :: rest', [], false⟩⟩ x =
            some ⟨c1, ⟨⟨top.changes ++ [inv]⟩ :: rest', [], false⟩⟩ := by
          simp only [applyTracked, ha]
          rfl
        rw [applyTrackedList, htr]
        change applyTrackedList
          ⟨c1, ⟨⟨top.changes ++ [inv]⟩ :: rest', [], false⟩⟩ rest = _
        have hfin := ih ⟨top.changes ++ [inv]⟩ rest' hs1 hrest
        change applyTrackedList _ rest = some ⟨c2,
          ⟨⟨(top.changes ++ [inv]) ++ invs2⟩ :: rest', [], false⟩⟩ at hfin
        rw [List.append_assoc] at hfin
        change applyTrackedList _ rest = some ⟨c2,
          ⟨⟨top.changes ++ inv :: invs2⟩ :: rest', [], false⟩⟩ at hfin
        exact hfin
    · rw [if_neg hok] at h
      exact absurd h (by simp)

theorem applyTrackedList_fresh {ch : Change} {chs : List Change}
    {c c' : Core} {invs : List Change} (s : UndoRedoStacks)
    (hflag : (s.undo_stack.isEmpty || s.checkpoint_requested) = true)
    (hs : structOK c = true)
    (h : applyChangesOK c (ch :: chs) = some (c', invs)) :
    applyTrackedList ⟨c, s⟩ (ch :: chs) =
      some ⟨c', ⟨⟨invs⟩ :: s.undo_stack, [], false⟩⟩ := by
  rw [applyChangesOK] at h
  by_cases hok : changeOKb ch c = true
  · rw [if_pos hok] at h
    rcases applyChange_invol hs hok with ⟨c1, inv, ha, hs1, _, _⟩
    rw [ha] at h
    change (match applyChangesOK c1 chs with
      | none => none
      | some (c2, invs2) => some (c2, inv :: invs2)) = some (c', invs) at h
    cases hrest : applyChangesOK c1 chs with
    | none =>
      rw [hrest] at h
      exact absurd h (by simp)
    | some r2 =>
      rcases r2 with ⟨c2, invs2⟩
      rw [hrest] at h
      injection h with h1
      injection h1 with h2 h3
      subst h2
      subst h3
      have htr : applyTracked ⟨c, s⟩ ch =
          some ⟨c1, ⟨⟨[inv]⟩ :: s.undo_stack, [], false⟩⟩ := by
        simp only [applyTracked, ha]
        rw [push_undo_new hflag]
      rw [applyTrackedList, htr]
      change applyTrackedList ⟨c1, ⟨⟨[inv]⟩ :: s.undo_stack, [], false⟩⟩
        chs = _
      have hfin := applyTrackedList_coalesce chs ⟨[inv]⟩ s.undo_stack hs1
        hrest
      change applyTrackedList _ chs = some ⟨c2,
        ⟨⟨inv :: invs2⟩ :: s.undo_stack, [], false⟩⟩ at hfin
      exact hfin
  · rw [if_neg hok] at h
    exact absurd h (by simp)

theorem applyTrackedList_push {ch : Change} {chs : List Change}
    {c c' : Core} {invs : List Change} (top : ChangePacket)
    (rest' rstk : List ChangePacket) (hs : structOK c = true)
    (h : applyChangesOK c (ch :: chs) = some (c', invs)) :
    applyTrackedList ⟨c, ⟨top :: rest', rstk, false⟩⟩ (ch :: chs) =
      some ⟨c', ⟨⟨top.changes ++ invs⟩ :: rest', [], false⟩⟩ := by
  rw [applyChangesOK] at h
  by_cases hok : changeOKb ch c = true
  · rw [if_pos hok] at h
    rcases applyChange_invol hs hok with ⟨c1, inv, ha, hs1, _, _⟩
    rw [ha] at h
    change (match applyChangesOK c1 chs with
      | none => none
      | some (c2, invs2) => some (c2, inv :: invs2)) = some (c', invs) at h
    cases hrest : applyChangesOK c1 chs with
    | none =>
      rw [hrest] at h
      exact absurd h (by simp)
    | some r2 =>
      rcases r2 with ⟨c2, invs2⟩
      rw [hrest] at h
      injection h with h1
      injection h1 with h2 h3
      subst h2
      subst h3
      have htr : applyTracked ⟨c, ⟨top :: rest', rstk, false⟩⟩ ch =
          some ⟨c1, ⟨⟨top.changes ++ [inv]⟩ :: rest', [], false⟩⟩ := by
        simp only [applyTracked, ha]
        rw [push_undo_top]
      rw [applyTrackedList, htr]
      change applyTrackedList
        ⟨c1, ⟨⟨top.changes ++ [inv]⟩ :: rest', [], false⟩⟩ chs = _
      have hfin := applyTrackedList_coalesce chs ⟨top.changes ++ [inv]⟩
        rest' hs1 hrest
      change applyTrackedList _ chs = some ⟨c2,
        ⟨⟨(top.changes ++ [inv]) ++ invs2⟩ :: rest', [], false⟩⟩ at hfin
      rw [List.append_assoc] at hfin
      change applyTrackedList _ chs = some ⟨c2,
        ⟨⟨top.changes ++ inv :: invs2⟩ :: rest', [], false⟩⟩ at hfin
      exact hfin
  · rw [if_neg hok] at h
    exact absurd h (by simp)

/-! ## Invariance of change application under a `next_id` bump
(`Anchors::get_new_handle` increments `next_id` before the tracked
`AnchorInsert` is applied, leaving the history stacks untouched). -/

theorem changeOKb_bump {ch : Change} {c : Core} {n : Nat}
    (hn : c.anchors.next_id ≤ n) (h : changeOKb ch c = true) :
    changeOKb ch { c with anchors := ⟨c.anchors.store, n⟩ } = true := by
  cases ch with
  | Insert text position => exact h
  | Remove range => exact h
  | AnchorSet handle value => exact h
  | AnchorInsert handle value =>
    rw [changeOKb] at h
    rw [changeOKb]
    rcases Bool.and_eq_true_iff.mp h with ⟨h1, h2⟩
    refine Bool.and_eq_true_iff.mpr ⟨h1, ?_⟩
    rw [Nat.blt_eq] at h2
    rw [Nat.blt_eq]
    exact Nat.lt_of_lt_of_le h2 hn
  | AnchorRemove handle => exact h
  | IndentationChange value => exact h
  | LanguageChange value => exact h

theorem applyChange_bump {ch : Change} {c c1 : Core} {inv : Change} {n : Nat}
    (h : applyChange ch c = some (c1, inv)) :
    applyChange ch { c with anchors := ⟨c.anchors.store, n⟩ } =
      some ({ c1 with anchors := ⟨c1.anchors.store, n⟩ }, inv) ∧
      c1.anchors.next_id = c.anchors.next_id := by
  cases ch with
  | Insert text position =>
    rw [applyChange] at h
    rw [applyChange]
    cases text with
    | nil => simp [applyInsertUntracked] at h
    | cons t0 rest =>
      by_cases hpv : positionValid c position = true
      swap
      · have hpv' : positionValid c position = false := by
          revert hpv
          cases positionValid c position <;> simp
        simp [applyInsertUntracked, hpv'] at h
      cases rest with
      | nil =>
        rw [applyInsertUntracked_eq_single hpv] at h
        rw [applyInsertUntracked_eq_single (show positionValid
          { c with anchors := ⟨c.anchors.store, n⟩ } position = true
          from hpv)]
        injection h with h1
        injection h1 with h2 h3
        constructor
        · rw [← h2, ← h3]
        · rw [← h2]
      | cons t1 ts =>
        rw [applyInsertUntracked_eq_multi hpv] at h
        rw [applyInsertUntracked_eq_multi (show positionValid
          { c with anchors := ⟨c.anchors.store, n⟩ } position = true
          from hpv)]
        injection h with h1
        injection h1 with h2 h3
        constructor
        · rw [← h2, ← h3]
        · rw [← h2]
  | Remove range =>
    rw [applyChange] at h
    rw [applyChange]
    by_cases hv : rangeValid c range = true
    swap
    · have hv' : rangeValid c range = false := by
        revert hv
        cases rangeValid c range <;> simp
      rw [applyRemoveUntracked, hv'] at h
      simp at h
    by_cases hbe : range.beginning.row = range.ending.row
    · rw [applyRemoveUntracked_eq_single hv hbe] at h
      rw [applyRemoveUntracked_eq_single (show rangeValid
        { c with anchors := ⟨c.anchors.store, n⟩ } range = true from hv) hbe]
      injection h with h1
      injection h1 with h2 h3
      constructor
      · rw [← h2, ← h3]
      · rw [← h2]
    · rw [applyRemoveUntracked_eq_multi hv hbe] at h
      rw [applyRemoveUntracked_eq_multi (show rangeValid
        { c with anchors := ⟨c.anchors.store, n⟩ } range = true from hv) hbe]
      injection h with h1
      injection h1 with h2 h3
      constructor
      · rw [← h2, ← h3]
      · rw [← h2]
  | AnchorSet handle value =>
    rw [applyChange] at h
    rw [applyChange]
    cases hget : storeGet c.anchors.store handle with
    | none =>
      rw [show c.anchors.set handle value = .error
        (.NonexistentAnchor handle) from by
          rw [Anchors.set]
          show (match storeGet c.anchors.store handle with
            | none => (.error (.NonexistentAnchor handle) :
                Except Oops (Anchor × Anchors))
            | some old => .ok (old, ⟨storeSet c.anchors.store handle value,
                c.anchors.next_id⟩)) = _
          rw [hget]] at h
      simp at h
    | some old =>
      rw [show c.anchors.set handle value = .ok (old,
        ⟨storeSet c.anchors.store handle value, c.anchors.next_id⟩) from by
          rw [Anchors.set]
          show (match storeGet c.anchors.store handle with
            | none => (.error (.NonexistentAnchor handle) :
                Except Oops (Anchor × Anchors))
            | some old => .ok (old, ⟨storeSet c.anchors.store handle value,
                c.anchors.next_id⟩)) = _
          rw [hget]] at h
      rw [show Anchors.set ⟨c.anchors.store, n⟩ handle value = .ok (old,
        ⟨storeSet c.anchors.store handle value, n⟩) from by
          rw [Anchors.set]
          show (match storeGet c.anchors.store handle with
            | none => (.error (.NonexistentAnchor handle) :
                Except Oops (Anchor × Anchors))
            | some old => .ok (old, ⟨storeSet c.anchors.store handle value,
                n⟩)) = _
          rw [hget]]
      injection h with h1
      injection h1 with h2 h3
      constructor
      · rw [← h2, ← h3]
      · rw [← h2]
  | AnchorInsert handle value =>
    rw [applyChange] at h
    rw [applyChange]
    injection h with h1
    injection h1 with h2 h3
    constructor
    · rw [← h2, ← h3]
      rfl
    · rw [← h2]
  | AnchorRemove handle =>
    rw [applyChange] at h
    rw [applyChange]
    by_cases hres : (handle == Anchors.CURSOR || handle == Anchors.MARK) =
        true
    · rw [show c.anchors.remove handle = .error
        (.CannotRemoveAnchor handle) from by
          rw [Anchors.remove, if_pos hres]] at h
      simp at h
    · cases hget : storeGet c.anchors.store handle with
      | none =>
        rw [show c.anchors.remove handle = .error
          (.NonexistentAnchor handle) from by
            rw [Anchors.remove, if_neg hres]
            show (match storeGet c.anchors.store handle with
              | none => (.error (.NonexistentAnchor handle) :
                  Except Oops (Anchor × Anchors))
              | some old => .ok (old, ⟨storeErase c.anchors.store handle,
                  c.anchors.next_id⟩)) = _
            rw [hget]] at h
        simp at h
      | some old =>
        rw [show c.anchors.remove handle = .ok (old,
          ⟨storeErase c.anchors.store handle, c.anchors.next_id⟩) from by
            rw [Anchors.remove, if_neg hres]
            show (match storeGet c.anchors.store handle with
              | none => (.error (.NonexistentAnchor handle) :
                  Except Oops (Anchor × Anchors))
              | some old => .ok (old, ⟨storeErase c.anchors.store handle,
                  c.anchors.next_id⟩)) = _
            rw [hget]] at h
        rw [show Anchors.remove ⟨c.anchors.store, n⟩ handle = .ok (old,
          ⟨storeErase c.anchors.store handle, n⟩) from by
            rw [Anchors.remove, if_neg hres]
            show (match storeGet c.anchors.store handle with
              | none => (.error (.NonexistentAnchor handle) :
                  Except Oops (Anchor × Anchors))
              | some old => .ok (old, ⟨storeErase c.anchors.store handle,
                  n⟩)) = _
            rw [hget]]
        injection h with h1
        injection h1 with h2 h3
        constructor
        · rw [← h2, ← h3]
        · rw [← h2]
  | IndentationChange value =>
    rw [applyChange] at h
    rw [applyChange]
    injection h with h1
    injection h1 with h2 h3
    constructor
    · rw [← h2, ← h3]
    · rw [← h2]
  | LanguageChange value =>
    rw [applyChange] at h
    rw [applyChange]
    injection h with h1
    injection h1 with h2 h3
    constructor
    · rw [← h2, ← h3]
    · rw [← h2]

theorem applyChangesOK_bump : ∀ (chs : List Change) {c c2 : Core}
    {invs : List Change} {n : Nat}, c.anchors.next_id ≤ n →
    applyChangesOK c chs = some (c2, invs) →
    applyChangesOK { c with anchors := ⟨c.anchors.store, n⟩ } chs =
      some ({ c2 with anchors := ⟨c2.anchors.store, n⟩ }, invs) ∧
      c2.anchors.next_id = c.anchors.next_id := by
  intro chs
  induction chs with
  | nil =>
    intro c c2 invs n hn h
    rw [show applyChangesOK c [] = some (c, []) from rfl] at h
    injection h with h1
    injection h1 with h2 h3
    subst h2
    subst h3
    exact ⟨rfl, rfl⟩
  | cons x rest ih =>
    intro c c2 invs n hn h
    rw [applyChangesOK] at h
    by_cases hok : changeOKb x c = true
    · rw [if_pos hok] at h
      cases ha : applyChange x c with
      | none =>
        rw [ha] at h
        exact absurd h (by simp)
      | some r1 =>
        rcases r1 with ⟨c1, inv⟩
        rw [ha] at h
        change (match applyChangesOK c1 rest with
          | none => none
          | some (cc, ii) => some (cc, inv :: ii)) = some (c2, invs) at h
        cases hrest : applyChangesOK c1 rest with
        | none =>
          rw [hrest] at h
          exact absurd h (by simp)
        | some r2 =>
          rcases r2 with ⟨c3, invs2⟩
          rw [hrest] at h
          injection h with h1
          injection h1 with h2 h3
          subst h2
          subst h3
          rcases applyChange_bump (n := n) ha with ⟨hab, hnid⟩
          have hn1 : c1.anchors.next_id ≤ n := by
            rw [hnid]
            exact hn
          rcases ih hn1 hrest with ⟨hcb, hnid2⟩
          refine ⟨?_, by rw [hnid2, hnid]⟩
          rw [applyChangesOK, if_pos (changeOKb_bump hn hok), hab]
          change (match applyChangesOK { c1 with anchors :=
              ⟨c1.anchors.store, n⟩ } rest with
            | none => none
            | some (cc, ii) => some (cc, inv :: ii)) = _
          rw [hcb]
    · rw [if_neg hok] at h
      exact absurd h (by simp)

theorem stackOK_bump : ∀ (stk : List ChangePacket) {c : Core} {n : Nat},
    c.anchors.next_id ≤ n → stackOK c stk = true →
    stackOK { c with anchors := ⟨c.anchors.store, n⟩ } stk = true := by
  intro stk
  induction stk with
  | nil =>
    intro c n _ _
    rfl
  | cons p rest ih =>
    intro c n hn h
    rcases stackOK_cons.mp h with ⟨c1, invs, hap, hpv, hrest⟩
    rcases applyChangesOK_bump p.changes.reverse hn hap with ⟨hab, hnid⟩
    refine stackOK_cons.mpr ⟨{ c1 with anchors := ⟨c1.anchors.store, n⟩ },
      invs, hab, ?_, ?_⟩
    · exact hpv
    · refine ih ?_ hrest
      rw [hnid]
      exact hn

theorem structOK_bump {c : Core} {n : Nat} (hn : c.anchors.next_id ≤ n)
    (hs : structOK c = true) :
    structOK { c with anchors := ⟨c.anchors.store, n⟩ } = true := by
  rcases structOK_iff.mp hs with ⟨hl, ha⟩
  rcases anchorsOK_iff.mp ha with ⟨h1, h2, h3, h4⟩
  exact structOK_iff.mpr ⟨hl, anchorsOK_iff.mpr ⟨h1, h2, h3,
    fun e he => Nat.lt_of_lt_of_le (h4 e he) hn⟩⟩

/-! ## Store-level validity preservation for the anchor operations -/

theorem posValidAll_storeSet {c : Core} {h : AnchorHandle} {v : Anchor}
    (hpv : posValidAll c = true) (hval : positionValid c v.position = true) :
    posValidAll { c with anchors := ⟨storeSet c.anchors.store h v,
      c.anchors.next_id⟩ } = true := by
  rw [posValidAll, List.all_eq_true]
  intro e he
  have he' : e ∈ c.anchors.store.map (fun x =>
      if x.1 == h then (x.1, v) else x) := he
  rcases List.mem_map.mp he' with ⟨x, hx, hxe⟩
  rw [posValidAll, List.all_eq_true] at hpv
  by_cases hxh : (x.1 == h) = true
  · rw [if_pos hxh] at hxe
    rw [← hxe]
    exact hval
  · rw [if_neg hxh] at hxe
    rw [← hxe]
    exact hpv x hx

theorem mem_storeInsert_elim : ∀ {s : List (AnchorHandle × Anchor)}
    {h : AnchorHandle} {v : Anchor} {e : AnchorHandle × Anchor},
    e ∈ storeInsert s h v → e = (h, v) ∨ e ∈ s := by
  intro s
  induction s with
  | nil =>
    intro h v e he
    rw [storeInsert] at he
    exact Or.inl (List.mem_singleton.mp he)
  | cons x rest ih =>
    intro h v e he
    rw [storeInsert] at he
    by_cases h1 : h < x.1
    · rw [if_pos h1] at he
      rcases List.mem_cons.mp he with h2 | h2
      · exact Or.inl h2
      · exact Or.inr h2
    · rw [if_neg h1] at he
      by_cases h2 : (h == x.1) = true
      · rw [if_pos h2] at he
        rcases List.mem_cons.mp he with h3 | h3
        · exact Or.inl h3
        · exact Or.inr (List.mem_cons_of_mem x h3)
      · rw [if_neg h2] at he
        rcases List.mem_cons.mp he with h3 | h3
        · exact Or.inr (by rw [h3]; exact List.mem_cons_self x rest)
        · rcases ih h3 with h4 | h4
          · exact Or.inl h4
          · exact Or.inr (List.mem_cons_of_mem x h4)

theorem applyChangesOK_one {c c1 : Core} {ch inv : Change}
    (hok : changeOKb ch c = true) (ha : applyChange ch c = some (c1, inv)) :
    applyChangesOK c [ch] = some (c1, [inv]) := by
  rw [applyChangesOK, if_pos hok, ha]
  rfl

theorem applyTracked_eq_of_list {d d' : Document} {ch : Change}
    (h : applyTrackedList d [ch] = some d') : applyTracked d ch = some d' := by
  rw [applyTrackedList] at h
  cases ht : applyTracked d ch with
  | none =>
    rw [ht] at h
    exact absurd h (by simp)
  | some dd =>
    rw [ht] at h
    change applyTrackedList dd [] = some d' at h
    rw [show applyTrackedList dd [] = some dd from rfl] at h
    exact h

/-- A tracked run of a checked, applicable, position-respecting change chain
from a coherent rest state yields a coherent rest state: the run pushes the
collected inverses into the undo history (a fresh packet exactly when the
undo stack was empty or a checkpoint was pending), clears the redo stack,
and the pushed inverses replay back to the starting core. -/
theorem tracked_run_DocInv {d : Document} {ch : Change} {chs : List Change}
    {c' : Core} {invs : List Change} (hinv : DocInv d)
    (happ : applyChangesOK d.core (ch :: chs) = some (c', invs))
    (hpv : posValidAll c' = true) :
    ∃ s', applyTrackedList d (ch :: chs) = some ⟨c', s'⟩ ∧
      DocInv ⟨c', s'⟩ ∧ s'.redo_stack = [] ∧
      s'.checkpoint_requested = false ∧
      applyChangesOK c' invs.reverse = some (d.core, (ch :: chs).reverse) ∧
      ((d.undo_redo.undo_stack.isEmpty ||
          d.undo_redo.checkpoint_requested) = true →
        s'.undo_stack = ⟨invs⟩ :: d.undo_redo.undo_stack) ∧
      (∀ top rest', d.undo_redo.undo_stack = top :: rest' →
        d.undo_redo.checkpoint_requested = false →
        s'.undo_stack = ⟨top.changes ++ invs⟩ :: rest') ∧
      s'.undo_stack.length = (if (d.undo_redo.undo_stack.isEmpty ||
          d.undo_redo.checkpoint_requested) = true then
        d.undo_redo.undo_stack.length + 1
      else d.undo_redo.undo_stack.length) := by
  rcases hinv with ⟨hs, hpv0, hu, hr⟩
  obtain ⟨c, ⟨ustk, rstk, flag⟩⟩ := d
  change structOK c = true at hs
  change posValidAll c = true at hpv0
  change stackOK c ustk = true at hu
  change stackOK c rstk = true at hr
  change applyChangesOK c (ch :: chs) = some (c', invs) at happ
  have hs' : structOK c' = true := (applyChangesOK_invol hs happ).1
  have hback : applyChangesOK c' invs.reverse =
      some (c, (ch :: chs).reverse) := (applyChangesOK_invol hs happ).2
  by_cases hflag : (ustk.isEmpty || flag) = true
  · refine ⟨⟨⟨invs⟩ :: ustk, [], false⟩, ?_, ?_, rfl, rfl, hback,
      fun _ => rfl, ?_, ?_⟩
    · exact applyTrackedList_fresh ⟨ustk, rstk, flag⟩ hflag hs happ
    · refine ⟨hs', hpv, ?_, rfl⟩
      show stackOK c' (⟨invs⟩ :: ustk) = true
      exact stackOK_cons.mpr ⟨c, (ch :: chs).reverse, hback, hpv0, hu⟩
    · intro top rest' hstk hfl
      change ustk = top :: rest' at hstk
      change flag = false at hfl
      subst hstk
      subst hfl
      simp at hflag
    · show ((⟨invs⟩ : ChangePacket) :: ustk).length = _
      rw [if_pos hflag]
      rfl
  · have hflag' : ustk.isEmpty = false ∧ flag = false := by
      revert hflag
      cases ustk.isEmpty <;> cases flag <;> simp
    cases ustk with
    | nil => simp at hflag'
    | cons top rest' =>
      rcases hflag' with ⟨_, hf⟩
      subst hf
      refine ⟨⟨⟨top.changes ++ invs⟩ :: rest', [], false⟩, ?_, ?_, rfl, rfl,
        hback, ?_, ?_, ?_⟩
      · exact applyTrackedList_push top rest' rstk hs happ
      · refine ⟨hs', hpv, ?_, rfl⟩
        show stackOK c' (⟨top.changes ++ invs⟩ :: rest') = true
        rcases stackOK_cons.mp hu with ⟨c1, invs1, hap1, hpv1, hrest1⟩
        refine stackOK_cons.mpr ⟨c1, (ch :: chs).reverse ++ invs1, ?_, hpv1,
          hrest1⟩
        show applyChangesOK c' (top.changes ++ invs).reverse = _
        rw [List.reverse_append, applyChangesOK_append, hback]
        change (match applyChangesOK c top.changes.reverse with
          | none => none
          | some (c2, i2) => some (c2, (ch :: chs).reverse ++ i2)) = _
        rw [hap1]
      · intro hcon
        exact absurd hcon hflag
      · intro top2 rest2 hstk _
        change top :: rest' = top2 :: rest2 at hstk
        injection hstk with hh ht
        subst hh
        subst ht
        rfl
      · show ((⟨top.changes ++ invs⟩ : ChangePacket) :: rest').length = _
        rw [if_neg hflag]
        rfl
theorem storeGet_map_keys : ∀ (s : List (AnchorHandle × Anchor))
    (g : AnchorHandle × Anchor → AnchorHandle × Anchor),
    (∀ x, (g x).1 = x.1) → ∀ (h : AnchorHandle),
    storeGet (s.map g) h =
      (s.find? (fun (e : AnchorHandle × Anchor) => e.1 == h)).map
        (fun e => (g e).2) := by
  intro s g hg h
  induction s with
  | nil => rfl
  | cons x rest ih =>
    rw [List.map_cons, storeGet_cons, hg x]
    by_cases hx : (x.1 == h) = true
    · have hfind : List.find? (fun (e : AnchorHandle × Anchor) =>
          e.1 == h) (x :: rest) = some x := List.find?_cons_of_pos _ hx
      rw [if_pos hx, hfind]
      rfl
    · have hfind : List.find? (fun (e : AnchorHandle × Anchor) =>
          e.1 == h) (x :: rest) = List.find? (fun (e : AnchorHandle ×
            Anchor) => e.1 == h) rest := List.find?_cons_of_neg _ hx
      rw [if_neg hx, hfind, ih]

/-- Pointwise reading of `applyChangesOK_anchorSets`: the final store holds
the images of the original entries, and lookup maps each present handle
through the rebase. -/
theorem anchorSets_pointwise (q : AnchorHandle × Anchor → Bool)
    (f : AnchorHandle × Anchor → Anchor) (s₀ : List (AnchorHandle × Anchor))
    (c : Core) (hs : structOK c = true) (hnd : (s₀.map Prod.fst).Nodup)
    (hmem : ∀ e ∈ s₀, (storeGet c.anchors.store e.1).isSome = true) :
    ∃ c' invs, applyChangesOK c (s₀.filterMap (fun e =>
        if q e then some (Change.AnchorSet e.1 (f e)) else none)) =
      some (c', invs) ∧
      c'.lines = c.lines ∧ c'.indentation = c.indentation ∧
      c'.language = c.language ∧ c'.anchors.next_id = c.anchors.next_id ∧
      structOK c' = true ∧
      (∀ e' ∈ c'.anchors.store, ∃ x, x ∈ c.anchors.store ∧
        e' = (match s₀.find? (fun (e : AnchorHandle × Anchor) =>
            e.1 == x.1) with
          | some e => if q e then (x.1, f e) else x
          | none => x)) ∧
      (∀ h v, storeGet c.anchors.store h = some v →
        storeGet c'.anchors.store h =
          some (match s₀.find? (fun (e : AnchorHandle × Anchor) =>
              e.1 == h) with
            | some e => if q e then f e else v
            | none => v)) := by
  rcases applyChangesOK_anchorSets q f s₀ c hs hnd hmem with ⟨invs, hchain⟩
  have hGkeys : ∀ x : AnchorHandle × Anchor,
      ((fun (x : AnchorHandle × Anchor) =>
        match s₀.find? (fun (e : AnchorHandle × Anchor) => e.1 == x.1) with
        | some e => if q e then (x.1, f e) else x
        | none => x) x).1 = x.1 := by
    intro x
    show (match s₀.find? (fun (e : AnchorHandle × Anchor) =>
        e.1 == x.1) with
      | some e => if q e then (x.1, f e) else x
      | none => x).1 = x.1
    cases hfind : s₀.find? (fun (e : AnchorHandle × Anchor) =>
        e.1 == x.1) with
    | none => rfl
    | some e =>
      show (if q e = true then (x.1, f e) else x).1 = x.1
      by_cases hq : q e = true
      · rw [if_pos hq]
      · rw [if_neg hq]
  refine ⟨_, invs, hchain, rfl, rfl, rfl, rfl, ?_, ?_, ?_⟩
  · exact (applyChangesOK_invol hs hchain).1
  · intro e' he'
    have he2 : e' ∈ c.anchors.store.map (fun x =>
        match s₀.find? (fun (e : AnchorHandle × Anchor) => e.1 == x.1) with
        | some e => if q e then (x.1, f e) else x
        | none => x) := he'
    rcases List.mem_map.mp he2 with ⟨x, hx, hxe⟩
    exact ⟨x, hx, hxe.symm⟩
  · intro h v hget
    show storeGet (c.anchors.store.map (fun x =>
        match s₀.find? (fun (e : AnchorHandle × Anchor) => e.1 == x.1) with
        | some e => if q e then (x.1, f e) else x
        | none => x)) h = _
    rw [storeGet_map_keys c.anchors.store _ hGkeys h]
    rw [storeGet] at hget
    cases hf : c.anchors.store.find? (fun (e : AnchorHandle × Anchor) =>
        e.1 == h) with
    | none =>
      rw [hf] at hget
      exact absurd hget (by simp)
    | some e =>
      rw [hf] at hget
      have hev : e.2 = v := by
        injection hget
      have heh : e.1 = h := by
        have := List.find?_some hf
        simpa using this
      rw [Option.map_some']
      show some (match s₀.find? (fun (e' : AnchorHandle × Anchor) =>
          e'.1 == e.1) with
        | some e2 => if q e2 then (e.1, f e2) else e
        | none => e).2 = _
      rw [heh]
      cases hf0 : s₀.find? (fun (e' : AnchorHandle × Anchor) =>
          e'.1 == h) with
      | none =>
        show some e.2 = some v
        rw [hev]
      | some e2 =>
        show some (if q e2 = true then (h, f e2) else e).2 =
          some (if q e2 = true then f e2 else v)
        by_cases hq : q e2 = true
        · rw [if_pos hq, if_pos hq]
        · rw [if_neg hq, if_neg hq, hev]

/-- The change chain built by `Document::remove` - the primitive removal
followed by one `AnchorSet` per anchor past the range beginning - applies
cleanly on a coherent core, keeps every anchor position valid, and maps every
anchor through `removeMovedAnchor`. -/
theorem remove_chain {c : Core} {r : Range} (hs : structOK c = true)
    (hpv : posValidAll c = true) (hv : rangeValid c r = true) :
    ∃ c' invs, applyChangesOK c (Change.Remove r ::
        removeAnchorChanges c.anchors.store r) = some (c', invs) ∧
      structOK c' = true ∧ posValidAll c' = true ∧
      positionValid c' r.beginning = true ∧
      (∀ h a0, c.anchors.get h = some a0 →
        c'.anchors.get h = some (removeMovedAnchor a0 r)) ∧
      (∃ inv1, applyRemoveUntracked r c =
        some ({ c with lines := c'.lines }, inv1)) := by
  have hsorted : storeSorted c.anchors.store = true :=
    (anchorsOK_iff.mp (structOK_iff.mp hs).2).1
  have hnd := keys_nodup_of_sorted hsorted
  have hok1 : changeOKb (Change.Remove r) c = true := hv
  have hrm : ∃ c1 inv1, applyRemoveUntracked r c = some (c1, inv1) ∧
      c1.anchors = c.anchors ∧ c1.indentation = c.indentation ∧
      c1.language = c.language := by
    by_cases hbe : r.beginning.row = r.ending.row
    · exact ⟨_, _, applyRemoveUntracked_eq_single hv hbe, rfl, rfl, rfl⟩
    · exact ⟨_, _, applyRemoveUntracked_eq_multi hv hbe, rfl, rfl, rfl⟩
  rcases hrm with ⟨c1, inv1, hrm1, hanch, hind1, hlang1⟩
  have ha1 : applyChange (Change.Remove r) c = some (c1, inv1) := hrm1
  have hs1 : structOK c1 = true := by
    rcases applyChange_invol hs hok1 with ⟨cm, invm, ham, hsm, _, _⟩
    rw [ha1] at ham
    injection ham with hm1
    injection hm1 with hm2 hm3
    rw [hm2]
    exact hsm
  have hid : ∀ a0 : Anchor, ¬posLt r.beginning a0.position = true →
      removeMovedAnchor a0 r = a0 := by
    intro a0 hq
    have hnlt : ¬posLt r.ending a0.position = true := by
      intro hcon
      apply hq
      rw [posLt_iff] at hcon
      rw [posLt_iff]
      rcases rangeValid_iff.mp hv with ⟨_, _, hble⟩
      rw [posLe_iff] at hble
      omega
    rw [removeMovedAnchor, if_neg hnlt, if_neg hq]
  have hmem : ∀ e ∈ c.anchors.store,
      (storeGet c1.anchors.store e.1).isSome = true := by
    intro e he
    rw [hanch]
    exact storeGet_isSome_mem hsorted (List.mem_map_of_mem Prod.fst he)
  rcases anchorSets_pointwise (fun e => posLt r.beginning e.2.position)
    (fun e => removeMovedAnchor e.2 r) c.anchors.store c1 hs1 hnd hmem
    with ⟨c2, invs2, hchain, hlines2, hind2, hlang2, hnid2, hs2, hment,
      hpget⟩
  refine ⟨c2, inv1 :: invs2, ?_, hs2, ?_, ?_, ?_, ?_⟩
  · rw [applyChangesOK, if_pos hok1, ha1]
    change (match applyChangesOK c1 (removeAnchorChanges c.anchors.store r)
        with
      | none => none
      | some (cc, ii) => some (cc, inv1 :: ii)) = _
    rw [show applyChangesOK c1 (removeAnchorChanges c.anchors.store r) =
      some (c2, invs2) from hchain]
  · rw [posValidAll, List.all_eq_true]
    intro e' he'
    rcases hment e' he' with ⟨x, hx, hxe⟩
    rw [hanch] at hx
    rw [find_self_of_nodup hnd hx] at hxe
    have hxe2 : e' = if posLt r.beginning x.2.position = true then
        (x.1, removeMovedAnchor x.2 r) else x := hxe
    have hvx : positionValid c x.2.position = true := by
      rw [posValidAll, List.all_eq_true] at hpv
      exact hpv x hx
    have hmoved : positionValid c1 (removeMovedAnchor x.2 r).position =
        true := remove_rebase_PV hs hrm1 hvx
    by_cases hq : posLt r.beginning x.2.position = true
    · rw [if_pos hq] at hxe2
      rw [hxe2]
      show positionValid c2 (removeMovedAnchor x.2 r).position = true
      rw [show positionValid c2 (removeMovedAnchor x.2 r).position =
        positionValid c1 (removeMovedAnchor x.2 r).position from by
          rw [positionValid, positionValid, hlines2]]
      exact hmoved
    · rw [if_neg hq] at hxe2
      rw [hxe2]
      show positionValid c2 x.2.position = true
      rw [show positionValid c2 x.2.position =
        positionValid c1 x.2.position from by
          rw [positionValid, positionValid, hlines2]]
      have hm2 := hmoved
      rw [hid x.2 hq] at hm2
      exact hm2
  · have hvb : positionValid c r.beginning = true := (rangeValid_iff.mp hv).1
    have hmb := remove_rebase_PV (a := ⟨r.beginning⟩) hs hrm1 hvb
    have hidb : removeMovedAnchor ⟨r.beginning⟩ r = ⟨r.beginning⟩ := by
      apply hid
      show ¬posLt r.beginning r.beginning = true
      rw [posLt_iff]
      omega
    rw [hidb] at hmb
    show positionValid c2 r.beginning = true
    rw [show positionValid c2 r.beginning =
      positionValid c1 r.beginning from by
        rw [positionValid, positionValid, hlines2]]
    exact hmb
  · intro h a0 hget
    have hget1 : storeGet c1.anchors.store h = some a0 := by
      rw [hanch]
      exact hget
    have hpt := hpget h a0 hget1
    change storeGet c.anchors.store h = some a0 at hget
    rw [storeGet] at hget
    cases hf : c.anchors.store.find? (fun (e : AnchorHandle × Anchor) =>
        e.1 == h) with
    | none =>
      rw [hf] at hget
      exact absurd hget (by simp)
    | some e0 =>
      rw [hf] at hget
      have he02 : e0.2 = a0 := by
        injection hget
      rw [hf] at hpt
      have hpt2 : storeGet c2.anchors.store h =
          some (if posLt r.beginning e0.2.position = true then
            removeMovedAnchor e0.2 r else a0) := hpt
      rw [he02] at hpt2
      show storeGet c2.anchors.store h = some (removeMovedAnchor a0 r)
      by_cases hq : posLt r.beginning a0.position = true
      · rw [if_pos hq] at hpt2
        exact hpt2
      · rw [if_neg hq] at hpt2
        rw [hid a0 hq]
        exact hpt2
  · refine ⟨inv1, ?_⟩
    have hc1 : { c with lines := c2.lines } = c1 := by
      obtain ⟨l1, an1, in1, lg1⟩ := c1
      change an1 = c.anchors at hanch
      change in1 = c.indentation at hind1
      change lg1 = c.language at hlang1
      change c2.lines = l1 at hlines2
      rw [hlines2, hanch, hind1, hlang1]
    rw [hc1]
    exact hrm1

/-- The change chain built by `Document::insert` - the primitive insertion
followed by one `AnchorSet` per anchor at or after the insertion point -
applies cleanly on a coherent core, keeps every anchor position valid, and
maps every anchor at or after the insertion point through
`insertMovedAnchor`. -/
theorem insert_chain {c : Core} {lines : List (List Char)} {p : Position}
    (hs : structOK c = true) (hpv : posValidAll c = true)
    (hp : positionValid c p = true) (hne : lines ≠ []) :
    ∃ c' invs, applyChangesOK c (Change.Insert lines p ::
        insertAnchorChanges c.anchors.store p lines) = some (c', invs) ∧
      structOK c' = true ∧ posValidAll c' = true ∧
      (∀ h a0, c.anchors.get h = some a0 →
        c'.anchors.get h = some (if posLe p a0.position then
          insertMovedAnchor a0 p lines else a0)) := by
  have hsorted : storeSorted c.anchors.store = true :=
    (anchorsOK_iff.mp (structOK_iff.mp hs).2).1
  have hnd := keys_nodup_of_sorted hsorted
  have hok1 : changeOKb (Change.Insert lines p) c = true := by
    show (!lines.isEmpty && positionValid c p) = true
    refine Bool.and_eq_true_iff.mpr ⟨?_, hp⟩
    cases lines with
    | nil => exact absurd rfl hne
    | cons t0 rest => rfl
  have hins : ∃ c1 inv1, applyInsertUntracked lines p c = some (c1, inv1) ∧
      c1.anchors = c.anchors ∧ c1.indentation = c.indentation ∧
      c1.language = c.language := by
    cases lines with
    | nil => exact absurd rfl hne
    | cons t0 rest =>
      cases rest with
      | nil => exact ⟨_, _, applyInsertUntracked_eq_single hp, rfl, rfl, rfl⟩
      | cons t1 ts =>
        exact ⟨_, _, applyInsertUntracked_eq_multi hp, rfl, rfl, rfl⟩
  rcases hins with ⟨c1, inv1, hins1, hanch, hind1, hlang1⟩
  have ha1 : applyChange (Change.Insert lines p) c = some (c1, inv1) := hins1
  have hs1 : structOK c1 = true := by
    rcases applyChange_invol hs hok1 with ⟨cm, invm, ham, hsm, _, _⟩
    rw [ha1] at ham
    injection ham with hm1
    injection hm1 with hm2 hm3
    rw [hm2]
    exact hsm
  have hmem : ∀ e ∈ c.anchors.store,
      (storeGet c1.anchors.store e.1).isSome = true := by
    intro e he
    rw [hanch]
    exact storeGet_isSome_mem hsorted (List.mem_map_of_mem Prod.fst he)
  rcases anchorSets_pointwise (fun e => posLe p e.2.position)
    (fun e => insertMovedAnchor e.2 p lines) c.anchors.store c1 hs1 hnd hmem
    with ⟨c2, invs2, hchain, hlines2, hind2, hlang2, hnid2, hs2, hment,
      hpget⟩
  refine ⟨c2, inv1 :: invs2, ?_, hs2, ?_, ?_⟩
  · rw [applyChangesOK, if_pos hok1, ha1]
    change (match applyChangesOK c1 (insertAnchorChanges c.anchors.store p
        lines) with
      | none => none
      | some (cc, ii) => some (cc, inv1 :: ii)) = _
    rw [show applyChangesOK c1 (insertAnchorChanges c.anchors.store p
      lines) = some (c2, invs2) from hchain]
  · rw [posValidAll, List.all_eq_true]
    intro e' he'
    rcases hment e' he' with ⟨x, hx, hxe⟩
    rw [hanch] at hx
    rw [find_self_of_nodup hnd hx] at hxe
    have hxe2 : e' = if posLe p x.2.position = true then
        (x.1, insertMovedAnchor x.2 p lines) else x := hxe
    have hvx : positionValid c x.2.position = true := by
      rw [posValidAll, List.all_eq_true] at hpv
      exact hpv x hx
    have hmoved := insert_rebase_PV (a := x.2) hs hins1 hvx
    by_cases hq : posLe p x.2.position = true
    · rw [if_pos hq] at hxe2
      rw [if_pos hq] at hmoved
      rw [hxe2]
      show positionValid c2 (insertMovedAnchor x.2 p lines).position = true
      rw [show positionValid c2 (insertMovedAnchor x.2 p lines).position =
        positionValid c1 (insertMovedAnchor x.2 p lines).position from by
          rw [positionValid, positionValid, hlines2]]
      exact hmoved
    · rw [if_neg hq] at hxe2
      rw [if_neg hq] at hmoved
      rw [hxe2]
      show positionValid c2 x.2.position = true
      rw [show positionValid c2 x.2.position =
        positionValid c1 x.2.position from by
          rw [positionValid, positionValid, hlines2]]
      exact hmoved
  · intro h a0 hget
    have hget1 : storeGet c1.anchors.store h = some a0 := by
      rw [hanch]
      exact hget
    have hpt := hpget h a0 hget1
    change storeGet c.anchors.store h = some a0 at hget
    rw [storeGet] at hget
    cases hf : c.anchors.store.find? (fun (e : AnchorHandle × Anchor) =>
        e.1 == h) with
    | none =>
      rw [hf] at hget
      exact absurd hget (by simp)
    | some e0 =>
      rw [hf] at hget
      have he02 : e0.2 = a0 := by
        injection hget
      rw [hf] at hpt
      have hpt2 : storeGet c2.anchors.store h =
          some (if posLe p e0.2.position = true then
            insertMovedAnchor e0.2 p lines else a0) := hpt
      rw [he02] at hpt2
      show storeGet c2.anchors.store h = some (if posLe p a0.position = true
        then insertMovedAnchor a0 p lines else a0)
      exact hpt2

/-- `Document::remove_resolved` on a valid non-empty range: success shape. -/
theorem removeResolved_success {d : Document} {r : Range} (hinv : DocInv d)
    (hv : rangeValid d.core r = true) (hne : r.empty = false) :
    ∃ d' invs, Document.removeResolved d r = some (d', Except.ok ()) ∧
      DocInv d' ∧
      (∀ h a0, d.core.anchors.get h = some a0 →
        d'.core.anchors.get h = some (removeMovedAnchor a0 r)) ∧
      positionValid d'.core r.beginning = true ∧
      d'.undo_redo.redo_stack = [] ∧
      d'.undo_redo.checkpoint_requested = false ∧
      applyChangesOK d'.core invs.reverse = some (d.core,
        (Change.Remove r :: removeAnchorChanges d.core.anchors.store
          r).reverse) ∧
      ((d.undo_redo.undo_stack.isEmpty ||
          d.undo_redo.checkpoint_requested) = true →
        d'.undo_redo.undo_stack = ⟨invs⟩ :: d.undo_redo.undo_stack) ∧
      (∀ top rest', d.undo_redo.undo_stack = top :: rest' →
        d.undo_redo.checkpoint_requested = false →
        d'.undo_redo.undo_stack = ⟨top.changes ++ invs⟩ :: rest') ∧
      d'.undo_redo.undo_stack.length =
        (if (d.undo_redo.undo_stack.isEmpty ||
            d.undo_redo.checkpoint_requested) = true then
          d.undo_redo.undo_stack.length + 1
        else d.undo_redo.undo_stack.length) ∧
      (∃ inv1, applyRemoveUntracked r d.core =
        some ({ d.core with lines := d'.core.lines }, inv1)) := by
  rcases remove_chain hinv.1 hinv.2.1 hv with
    ⟨c', invs, hchain, hs', hpv', hposb, hgetmap, hprim⟩
  rcases tracked_run_DocInv hinv hchain hpv' with
    ⟨s', hrun, hinv', hredo, hflagc, hback, hfresh, hpush, hlen⟩
  refine ⟨⟨c', s'⟩, invs, ?_, hinv', hgetmap, hposb, hredo, hflagc, hback,
    hfresh, hpush, hlen, hprim⟩
  rw [Document.removeResolved, if_neg (show ¬(r.empty = true) from by
    rw [hne]
    simp)]
  rw [applyTrackedList] at hrun
  cases ht : applyTracked d (Change.Remove r) with
  | none =>
    rw [ht] at hrun
    exact absurd hrun (by simp)
  | some d1 =>
    rw [ht] at hrun
    change applyTrackedList d1 (removeAnchorChanges d.core.anchors.store r)
      = some ⟨c', s'⟩ at hrun
    change (match applyTrackedList d1 (removeAnchorChanges
        d.core.anchors.store r) with
      | none => none
      | some d2 => some (d2, Except.ok ())) = _
    rw [hrun]

theorem posValid_of_get {c : Core} (hpv : posValidAll c = true)
    {h : AnchorHandle} {a : Anchor} (hget : c.anchors.get h = some a) :
    positionValid c a.position = true := by
  change storeGet c.anchors.store h = some a at hget
  rw [storeGet] at hget
  cases hf : c.anchors.store.find? (fun (e : AnchorHandle × Anchor) =>
      e.1 == h) with
  | none =>
    rw [hf] at hget
    exact absurd hget (by simp)
  | some e =>
    rw [hf] at hget
    have he2 : e.2 = a := by
      injection hget
    rw [posValidAll, List.all_eq_true] at hpv
    have := hpv e (List.mem_of_find?_eq_some hf)
    rw [he2] at this
    exact this

/-- On a coherent document, `Document::selection` returns a valid range. -/
theorem selection_valid {d : Document} (hinv : DocInv d) {r : Range}
    (hsel : d.selection = some r) : rangeValid d.core r = true := by
  have hcur : (d.core.anchors.get Anchors.CURSOR).isSome = true :=
    (anchorsOK_iff.mp (structOK_iff.mp hinv.1).2).2.1
  have hmark : (d.core.anchors.get Anchors.MARK).isSome = true :=
    (anchorsOK_iff.mp (structOK_iff.mp hinv.1).2).2.2.1
  rcases Option.isSome_iff_exists.mp hcur with ⟨ca, hca⟩
  rcases Option.isSome_iff_exists.mp hmark with ⟨ma, hma⟩
  have hpc : positionValid d.core ca.position = true :=
    posValid_of_get hinv.2.1 hca
  have hpm : positionValid d.core ma.position = true :=
    posValid_of_get hinv.2.1 hma
  rw [Document.selection, hca, hma] at hsel
  change (if posLe ca.position ma.position = true then
      some (⟨ca.position, ma.position⟩ : Range)
    else some ⟨ma.position, ca.position⟩) = some r at hsel
  by_cases hle : posLe ca.position ma.position = true
  · rw [if_pos hle] at hsel
    injection hsel with h1
    rw [← h1]
    exact rangeValid_iff.mpr ⟨hpc, hpm, hle⟩
  · rw [if_neg hle] at hsel
    injection hsel with h1
    rw [← h1]
    refine rangeValid_iff.mpr ⟨hpm, hpc, ?_⟩
    show posLe ma.position ca.position = true
    rw [posLe_iff]
    have h2 : ¬(ca.position.row < ma.position.row ∨
        ca.position.row = ma.position.row ∧
        ca.position.column ≤ ma.position.column) := fun hcon =>
      hle (posLe_iff.mpr hcon)
    omega

/-- `Document::remove_resolved` preserves the invariant. -/
theorem removeResolved_inv {d : Document} {r : Range} {d' : Document}
    {res : Except Oops Unit} (hinv : DocInv d)
    (hv : rangeValid d.core r = true)
    (h : Document.removeResolved d r = some (d', res)) : DocInv d' := by
  by_cases hem : r.empty = true
  · rw [Document.removeResolved, if_pos hem] at h
    injection h with h1
    injection h1 with h2 h3
    rw [← h2]
    exact hinv
  · have hne : r.empty = false := by
      revert hem
      cases r.empty <;> simp
    rcases removeResolved_success hinv hv hne with
      ⟨d2, invs, heq, hinv2, _⟩
    rw [heq] at h
    injection h with h1
    injection h1 with h2 h3
    rw [← h2]
    exact hinv2

/-- `Document::remove` preserves the invariant. -/
theorem remove_inv {d : Document} {o : RemoveOptions} {d' : Document}
    {res : Except Oops Unit} (hinv : DocInv d)
    (h : d.remove o = some (d', res)) : DocInv d' := by
  rcases o with ⟨ro⟩
  cases ro with
  | some r =>
    rw [Document.remove] at h
    change (if (!rangeValid d.core r) = true then
        some (d, Except.error (Oops.InvalidRange r "remove"))
      else d.removeResolved r) = some (d', res) at h
    by_cases hv : rangeValid d.core r = true
    · rw [if_neg (show ¬((!rangeValid d.core r) = true) from by
        rw [hv]
        simp)] at h
      exact removeResolved_inv hinv hv h
    · have hv' : rangeValid d.core r = false := by
        revert hv
        cases rangeValid d.core r <;> simp
      rw [if_pos (by rw [hv']; rfl)] at h
      injection h with h1
      injection h1 with h2 h3
      rw [← h2]
      exact hinv
  | none =>
    rw [Document.remove] at h
    change (match d.selection with
      | none => none
      | some r => d.removeResolved r) = some (d', res) at h
    cases hsel : Document.selection d with
    | none =>
      rw [hsel] at h
      exact absurd h (by simp)
    | some r =>
      rw [hsel] at h
      exact removeResolved_inv hinv (selection_valid hinv hsel) h

/-- Two consecutive successful operation runs compose into one: the second
run's inverses merge into the packet pushed by the first. -/
theorem OpRun_comp {d d1 d2 : Document} (h1 : OpRun d d1)
    (h2 : OpRun d1 d2) : OpRun d d2 := by
  rcases h1 with ⟨hinv1, hredo1, hflag1, invs1, chs1, hback1, hcase1⟩
  rcases h2 with ⟨hinv2, hredo2, hflag2, invs2, chs2, hback2, hcase2⟩
  refine ⟨hinv2, hredo2, hflag2, invs1 ++ invs2, ?_, ?_, ?_⟩
  · exact chs2 ++ chs1
  · rw [List.reverse_append, applyChangesOK_append, hback2]
    change (match applyChangesOK d1.core invs1.reverse with
      | none => none
      | some (c2, i2) => some (c2, chs2 ++ i2)) = _
    rw [hback1]
  · rcases hcase1 with ⟨hg1, hstk1⟩ | ⟨top, rest', hstk0, hfl0, hstk1⟩
    · left
      refine ⟨hg1, ?_⟩
      rcases hcase2 with ⟨hg2, hstk2⟩ | ⟨top2, rest2, hstk1', hfl1', hstk2⟩
      · rw [hstk1, hflag1] at hg2
        simp at hg2
      · rw [hstk1] at hstk1'
        injection hstk1' with hh ht
        rw [hstk2, ← hh, ← ht]
    · right
      refine ⟨top, rest', hstk0, hfl0, ?_⟩
      rcases hcase2 with ⟨hg2, hstk2⟩ | ⟨top2, rest2, hstk1', hfl1', hstk2⟩
      · rw [hstk1, hflag1] at hg2
        simp at hg2
      · rw [hstk1] at hstk1'
        injection hstk1' with hh ht
        rw [hstk2, ← hh, ← ht]
        rw [show ((⟨top.changes ++ invs1⟩ : ChangePacket).changes ++ invs2) =
          top.changes ++ (invs1 ++ invs2) from by
            rw [show ((⟨top.changes ++ invs1⟩ : ChangePacket).changes) =
              top.changes ++ invs1 from rfl]
            rw [List.append_assoc]]

/-- A successful tracked run is an operation run in the above sense. -/
theorem OpRun_of_run {d : Document} {ch : Change} {chs : List Change}
    {c' : Core} {invs : List Change} {d' : Document} (hinv : DocInv d)
    (happ : applyChangesOK d.core (ch :: chs) = some (c', invs))
    (hpv : posValidAll c' = true)
    (hrun : applyTrackedList d (ch :: chs) = some d') :
    OpRun d d' ∧ d'.core = c' := by
  rcases tracked_run_DocInv hinv happ hpv with
    ⟨s', hrun2, hinv', hredo, hflagc, hback, hfresh, hpush, hlen⟩
  rw [hrun2] at hrun
  injection hrun with h1
  rw [← h1]
  refine ⟨⟨hinv', hredo, hflagc, invs, (ch :: chs).reverse, hback, ?_⟩, rfl⟩
  by_cases hflag : (d.undo_redo.undo_stack.isEmpty ||
      d.undo_redo.checkpoint_requested) = true
  · exact Or.inl ⟨hflag, hfresh hflag⟩
  · have hflag' : d.undo_redo.undo_stack.isEmpty = false ∧
        d.undo_redo.checkpoint_requested = false := by
      revert hflag
      cases d.undo_redo.undo_stack.isEmpty <;>
        cases d.undo_redo.checkpoint_requested <;> simp
    cases hstk : d.undo_redo.undo_stack with
    | nil =>
      rw [hstk] at hflag'
      simp at hflag'
    | cons top rest' =>
      exact Or.inr ⟨top, rest', rfl, hflag'.2, hpush top rest' hstk
        hflag'.2⟩

/-- One applicable tracked change whose result respects all anchor positions
is a successful operation run. -/
theorem tracked_single {d : Document} {ch : Change} {c1 : Core}
    {inv : Change} (hinv : DocInv d) (hok : changeOKb ch d.core = true)
    (ha : applyChange ch d.core = some (c1, inv))
    (hpv1 : posValidAll c1 = true) :
    ∃ d', applyTracked d ch = some d' ∧ d'.core = c1 ∧ OpRun d d' := by
  have hchain := applyChangesOK_one hok ha
  rcases tracked_run_DocInv hinv hchain hpv1 with
    ⟨s', hrun, hinv', hredo, hflagc, hback, hfresh, hpush, hlen⟩
  refine ⟨⟨c1, s'⟩, applyTracked_eq_of_list hrun, rfl, ?_⟩
  exact (OpRun_of_run hinv hchain hpv1 hrun).1

/-! ## Invariant preservation by the public operations -/

theorem set_anchor_inv {d : Document} {h : AnchorHandle} {v : Anchor}
    {d' : Document} {res : Except Oops Unit} (hinv : DocInv d)
    (hop : d.set_anchor h v = some (d', res)) : DocInv d' := by
  rw [Document.set_anchor] at hop
  by_cases hnone : (d.core.anchors.get h).isNone = true
  · rw [if_pos hnone] at hop
    injection hop with h1
    injection h1 with h2 h3
    rw [← h2]
    exact hinv
  · rw [if_neg hnone] at hop
    by_cases hval : positionValid d.core v.position = true
    swap
    · rw [if_pos (show (!positionValid d.core v.position) = true from by
        revert hval
        cases positionValid d.core v.position <;> simp)] at hop
      injection hop with h1
      injection h1 with h2 h3
      rw [← h2]
      exact hinv
    · rw [if_neg (show ¬(!positionValid d.core v.position) = true from by
        rw [hval]
        simp)] at hop
      have hsome : (d.core.anchors.get h).isSome = true := by
        revert hnone
        cases d.core.anchors.get h <;> simp
      rcases Option.isSome_iff_exists.mp hsome with ⟨old, hold⟩
      have hok : changeOKb (Change.AnchorSet h v) d.core = true := hsome
      have ha := applyChange_anchorSet (v := v) hold
      have hpv1 : posValidAll { d.core with anchors :=
          ⟨storeSet d.core.anchors.store h v, d.core.anchors.next_id⟩ } =
          true := posValidAll_storeSet hinv.2.1 hval
      rcases tracked_single hinv hok ha hpv1 with ⟨dd, htr, hcore, hrunOp⟩
      rw [htr] at hop
      change some (dd, Except.ok ()) = some (d', res) at hop
      injection hop with h1
      injection h1 with h2 h3
      rw [← h2]
      exact hrunOp.1

theorem create_anchor_inv {d : Document} {a : Anchor} {d' : Document}
    {res : Except Oops AnchorHandle} (hinv : DocInv d)
    (hop : d.create_anchor a = some (d', res)) : DocInv d' := by
  rw [Document.create_anchor] at hop
  by_cases hval : positionValid d.core a.position = true
  swap
  · rw [if_pos (show (!positionValid d.core a.position) = true from by
      revert hval
      cases positionValid d.core a.position <;> simp)] at hop
    injection hop with h1
    injection h1 with h2 h3
    rw [← h2]
    exact hinv
  · rw [if_neg (show ¬(!positionValid d.core a.position) = true from by
      rw [hval]
      simp)] at hop
    have hn1 : d.core.anchors.next_id ≤ d.core.anchors.next_id + 1 :=
      Nat.le_succ _
    have hinvb : DocInv { d with core := { d.core with anchors :=
        ⟨d.core.anchors.store, d.core.anchors.next_id + 1⟩ } } := by
      rcases hinv with ⟨hs, hpv, hu, hr⟩
      exact ⟨structOK_bump hn1 hs, hpv, stackOK_bump _ hn1 hu,
        stackOK_bump _ hn1 hr⟩
    have hkeys := (anchorsOK_iff.mp (structOK_iff.mp hinv.1).2).2.2.2
    have hnotmem : d.core.anchors.next_id ∉
        d.core.anchors.store.map Prod.fst := by
      intro hmem
      rcases List.mem_map.mp hmem with ⟨e, he, hef⟩
      exact absurd (hkeys e he) (by rw [hef]; exact Nat.lt_irrefl _)
    have hok : changeOKb (Change.AnchorInsert d.core.anchors.next_id a)
        ({ d with core := { d.core with anchors := ⟨d.core.anchors.store,
          d.core.anchors.next_id + 1⟩ } } : Document).core = true := by
      show ((storeGet d.core.anchors.store d.core.anchors.next_id).isNone &&
        Nat.blt d.core.anchors.next_id (d.core.anchors.next_id + 1)) = true
      refine Bool.and_eq_true_iff.mpr ⟨?_, ?_⟩
      · rw [storeGet_not_mem hnotmem]
        rfl
      · rw [Nat.blt_eq]
        exact Nat.lt_succ_self _
    have ha : applyChange (Change.AnchorInsert d.core.anchors.next_id a)
        ({ d with core := { d.core with anchors := ⟨d.core.anchors.store,
          d.core.anchors.next_id + 1⟩ } } : Document).core =
        some ({ d.core with anchors := ⟨storeInsert d.core.anchors.store
          d.core.anchors.next_id a, d.core.anchors.next_id + 1⟩ },
          Change.AnchorRemove d.core.anchors.next_id) := rfl
    have hpv1 : posValidAll { d.core with anchors :=
        ⟨storeInsert d.core.anchors.store d.core.anchors.next_id a,
          d.core.anchors.next_id + 1⟩ } = true := by
      rw [posValidAll, List.all_eq_true]
      intro e he
      have he' : e ∈ storeInsert d.core.anchors.store
          d.core.anchors.next_id a := he
      rcases mem_storeInsert_elim he' with he2 | he2
      · rw [he2]
        exact hval
      · have hall := hinv.2.1
        rw [posValidAll, List.all_eq_true] at hall
        exact hall e he2
    rcases tracked_single hinvb hok ha hpv1 with ⟨dd, htr, hcore, hrunOp⟩
    change (match applyTracked { d with core := { d.core with anchors :=
        ⟨d.core.anchors.store, d.core.anchors.next_id + 1⟩ } }
        (Change.AnchorInsert d.core.anchors.next_id a) with
      | none => none
      | some d2 => some (d2, Except.ok d.core.anchors.next_id)) =
      some (d', res) at hop
    rw [htr] at hop
    change some (dd, Except.ok d.core.anchors.next_id) = some (d', res)
      at hop
    injection hop with h1
    injection h1 with h2 h3
    rw [← h2]
    exact hrunOp.1

theorem remove_anchor_inv {d : Document} {h : AnchorHandle} {d' : Document}
    {res : Except Oops Unit} (hinv : DocInv d)
    (hop : d.remove_anchor h = some (d', res)) : DocInv d' := by
  rw [Document.remove_anchor] at hop
  by_cases hnone : (d.core.anchors.get h).isNone = true
  · rw [if_pos hnone] at hop
    injection hop with h1
    injection h1 with h2 h3
    rw [← h2]
    exact hinv
  · rw [if_neg hnone] at hop
    have hsome : (d.core.anchors.get h).isSome = true := by
      revert hnone
      cases d.core.anchors.get h <;> simp
    rcases Option.isSome_iff_exists.mp hsome with ⟨old, hold⟩
    by_cases hres : (h == Anchors.CURSOR || h == Anchors.MARK) = true
    · have hnoneapp : applyTracked d (Change.AnchorRemove h) = none := by
        rw [applyTracked]
        rw [show applyChange (Change.AnchorRemove h) d.core = none from by
          rw [applyChange]
          rw [show d.core.anchors.remove h = Except.error
            (Oops.CannotRemoveAnchor h) from by
              rw [Anchors.remove, if_pos hres]]]
      rw [hnoneapp] at hop
      exact absurd hop (by simp)
    · have hflags : (h == Anchors.CURSOR) = false ∧
          (h == Anchors.MARK) = false := by
        revert hres
        cases h == Anchors.CURSOR <;> cases h == Anchors.MARK <;> simp
      have hok : changeOKb (Change.AnchorRemove h) d.core = true := by
        show (!(h == Anchors.CURSOR) && !(h == Anchors.MARK) &&
          (d.core.anchors.get h).isSome) = true
        rw [hflags.1, hflags.2, hsome]
        rfl
      have ha : applyChange (Change.AnchorRemove h) d.core = some
          ({ d.core with anchors := ⟨storeErase d.core.anchors.store h,
            d.core.anchors.next_id⟩ }, Change.AnchorInsert h old) := by
        rw [applyChange]
        rw [show d.core.anchors.remove h = Except.ok (old,
          ⟨storeErase d.core.anchors.store h, d.core.anchors.next_id⟩)
          from by
            rw [Anchors.remove, if_neg hres]
            change (match storeGet d.core.anchors.store h with
              | none => (Except.error (Oops.NonexistentAnchor h) :
                  Except Oops (Anchor × Anchors))
              | some old => Except.ok (old, ⟨storeErase
                  d.core.anchors.store h, d.core.anchors.next_id⟩)) = _
            rw [show storeGet d.core.anchors.store h = some old from hold]]
      have hpv1 : posValidAll { d.core with anchors :=
          ⟨storeErase d.core.anchors.store h, d.core.anchors.next_id⟩ } =
          true := by
        rw [posValidAll, List.all_eq_true]
        intro e he
        have he' : e ∈ d.core.anchors.store.filter
            (fun e => !(e.1 == h)) := he
        have hall := hinv.2.1
        rw [posValidAll, List.all_eq_true] at hall
        exact hall e (List.mem_of_mem_filter he')
      rcases tracked_single hinv hok ha hpv1 with ⟨dd, htr, hcore, hrunOp⟩
      rw [htr] at hop
      change some (dd, Except.ok ()) = some (d', res) at hop
      injection hop with h1
      injection h1 with h2 h3
      rw [← h2]
      exact hrunOp.1

theorem set_indentation_inv {d : Document} {i : Indentation}
    {d' : Document} {res : Except Oops Unit} (hinv : DocInv d)
    (hop : d.set_indentation i = some (d', res)) : DocInv d' := by
  rw [Document.set_indentation] at hop
  have hok : changeOKb (Change.IndentationChange i) d.core = true := rfl
  have ha : applyChange (Change.IndentationChange i) d.core =
      some ({ d.core with indentation := i },
        Change.IndentationChange d.core.indentation) := rfl
  have hpv1 : posValidAll { d.core with indentation := i } = true :=
    hinv.2.1
  rcases tracked_single hinv hok ha hpv1 with ⟨dd, htr, hcore, hrunOp⟩
  rw [htr] at hop
  change some (dd, Except.ok ()) = some (d', res) at hop
  injection hop with h1
  injection h1 with h2 h3
  rw [← h2]
  exact hrunOp.1

theorem set_language_inv {d : Document} {l : List Char}
    {d' : Document} {res : Except Oops Unit} (hinv : DocInv d)
    (hop : d.set_language l = some (d', res)) : DocInv d' := by
  rw [Document.set_language] at hop
  have hok : changeOKb (Change.LanguageChange l) d.core = true := rfl
  have ha : applyChange (Change.LanguageChange l) d.core =
      some ({ d.core with language := l },
        Change.LanguageChange d.core.language) := rfl
  have hpv1 : posValidAll { d.core with language := l } = true := hinv.2.1
  rcases tracked_single hinv hok ha hpv1 with ⟨dd, htr, hcore, hrunOp⟩
  rw [htr] at hop
  change some (dd, Except.ok ()) = some (d', res) at hop
  injection hop with h1
  injection h1 with h2 h3
  rw [← h2]
  exact hrunOp.1

theorem set_cursor_inv {d : Document} {p : Position} {d' : Document}
    {res : Except Oops Unit} (hinv : DocInv d)
    (hop : d.set_cursor p = some (d', res)) : DocInv d' := by
  rw [Document.set_cursor] at hop
  cases hc : d.core.anchors.get Anchors.CURSOR with
  | none =>
    rw [hc] at hop
    exact absurd hop (by simp)
  | some a0 =>
    rw [hc] at hop
    change d.set_anchor Anchors.CURSOR ⟨p⟩ = some (d', res) at hop
    exact set_anchor_inv hinv hop

theorem set_mark_inv {d : Document} {p : Position} {d' : Document}
    {res : Except Oops Unit} (hinv : DocInv d)
    (hop : d.set_mark p = some (d', res)) : DocInv d' := by
  rw [Document.set_mark] at hop
  cases hc : d.core.anchors.get Anchors.MARK with
  | none =>
    rw [hc] at hop
    exact absurd hop (by simp)
  | some a0 =>
    rw [hc] at hop
    change d.set_anchor Anchors.MARK ⟨p⟩ = some (d', res) at hop
    exact set_anchor_inv hinv hop

theorem set_cursor_and_mark_inv {d : Document} {p : Position}
    {d' : Document} {res : Except Oops Unit} (hinv : DocInv d)
    (hop : d.set_cursor_and_mark p = some (d', res)) : DocInv d' := by
  rw [Document.set_cursor_and_mark] at hop
  cases hc : d.set_cursor p with
  | none =>
    rw [hc] at hop
    exact absurd hop (by simp)
  | some r1 =>
    rcases r1 with ⟨d1, e⟩
    rw [hc] at hop
    cases e with
    | ok u =>
      cases u
      change d1.set_mark p = some (d', res) at hop
      exact set_mark_inv (set_cursor_inv hinv hc) hop
    | error err =>
      change some (d1, Except.error err) = some (d', res) at hop
      injection hop with h1
      injection h1 with h2 h3
      rw [← h2]
      exact set_cursor_inv hinv hc

theorem set_selection_inv {d : Document} {r : Range} {d' : Document}
    {res : Except Oops Unit} (hinv : DocInv d)
    (hop : d.set_selection r = some (d', res)) : DocInv d' := by
  rw [Document.set_selection] at hop
  by_cases hv : rangeValid d.core r = true
  · rw [if_neg (show ¬((!rangeValid d.core r) = true) from by
      rw [hv]
      simp)] at hop
    cases hc : d.set_mark r.beginning with
    | none =>
      rw [hc] at hop
      exact absurd hop (by simp)
    | some r1 =>
      rcases r1 with ⟨d1, e⟩
      rw [hc] at hop
      cases e with
      | ok u =>
        cases u
        change d1.set_cursor r.ending = some (d', res) at hop
        exact set_cursor_inv (set_mark_inv hinv hc) hop
      | error err =>
        change some (d1, Except.error err) = some (d', res) at hop
        injection hop with h1
        injection h1 with h2 h3
        rw [← h2]
        exact set_mark_inv hinv hc
  · have hv' : rangeValid d.core r = false := by
      revert hv
      cases rangeValid d.core r <;> simp
    rw [if_pos (by rw [hv']; rfl)] at hop
    injection hop with h1
    injection h1 with h2 h3
    rw [← h2]
    exact hinv

theorem undo_inv {d : Document} {n : Nat} {d' : Document}
    {res : Except Oops Nat} (hinv : DocInv d)
    (hop : d.undo n = some (d', res)) : DocInv d' := by
  by_cases hlen : n ≤ d.undo_redo.undo_stack.length
  · rcases undo_redo_iter n hinv hlen with ⟨d1, hgo, hinv1, _⟩
    rw [Document.undo, hgo 0] at hop
    injection hop with h1
    injection h1 with h2 h3
    rw [← h2]
    exact hinv1
  · have hlt : d.undo_redo.undo_stack.length < n := by omega
    rcases undoGo_exhaust d.undo_redo.undo_stack.length (k := 0) hinv rfl
      hlt with ⟨d1, hgo, hinv1, _⟩
    rw [Document.undo, hgo] at hop
    injection hop with h1
    injection h1 with h2 h3
    rw [← h2]
    exact hinv1

theorem redo_inv {d : Document} {n : Nat} {d' : Document}
    {res : Except Oops Nat} (hinv : DocInv d)
    (hop : d.redo n = some (d', res)) : DocInv d' := by
  by_cases hlen : n ≤ d.undo_redo.redo_stack.length
  · rcases redo_undo_iter n hinv hlen with ⟨d1, hgo, hinv1, _⟩
    rw [Document.redo, hgo 0] at hop
    injection hop with h1
    injection h1 with h2 h3
    rw [← h2]
    exact hinv1
  · have hlt : d.undo_redo.redo_stack.length < n := by omega
    rcases redoGo_exhaust d.undo_redo.redo_stack.length (k := 0) hinv rfl
      hlt with ⟨d1, hgo, hinv1, _⟩
    rw [Document.redo, hgo] at hop
    injection hop with h1
    injection h1 with h2 h3
    rw [← h2]
    exact hinv1

theorem checkpoint_inv {d : Document} (hinv : DocInv d) :
    DocInv d.checkpoint := by
  rcases hinv with ⟨hs, hpv, hu, hr⟩
  exact ⟨hs, hpv, hu, rfl⟩

theorem forget_inv {d : Document} (hinv : DocInv d) :
    DocInv d.forget_undo_redo.1 := by
  rcases hinv with ⟨hs, hpv, hu, hr⟩
  exact ⟨hs, hpv, rfl, rfl⟩

theorem remove_exact_eq {d : Document} {r : Range}
    (hv : rangeValid d.core r = true) :
    d.remove (RemoveOptions.exact_at r) = Document.removeResolved d r := by
  rw [Document.remove]
  change (if (!rangeValid d.core r) = true then
      some (d, Except.error (Oops.InvalidRange r "remove"))
    else d.removeResolved r) = _
  rw [if_neg (show ¬((!rangeValid d.core r) = true) from by
    rw [hv]
    simp)]

/-- The tail of `Document::insert_resolved` after the target range has been
removed preserves the invariant. -/
theorem insert_tail_inv {d1 : Document} {text : List Char}
    {o : InsertOptions} {r : Range} {d' : Document} {res : Except Oops Unit}
    (hinv1 : DocInv d1) (hpb : positionValid d1.core r.beginning = true)
    (h : (match prepText text o with
      | none => none
      | some lines =>
        if lines.length == 0 ||
            (lines.length == 1 && (lines.getD 0 []).length == 0) then
          some (d1, Except.error (Oops.EmptyString "can't insert nothing"))
        else
          match applyTracked d1 (Change.Insert lines r.beginning) with
          | none => none
          | some d2 =>
            match applyTrackedList d2 (insertAnchorChanges
                d1.core.anchors.store r.beginning lines) with
            | none => none
            | some d3 => some (d3, Except.ok ())) = some (d', res)) :
    DocInv d' := by
  cases hprep : prepText text o with
  | none =>
    rw [hprep] at h
    exact absurd h (by simp)
  | some lines =>
    rw [hprep] at h
    change (if lines.length == 0 ||
        (lines.length == 1 && (lines.getD 0 []).length == 0) then
      some (d1, Except.error (Oops.EmptyString "can't insert nothing"))
    else
      match applyTracked d1 (Change.Insert lines r.beginning) with
      | none => none
      | some d2 =>
        match applyTrackedList d2 (insertAnchorChanges
            d1.core.anchors.store r.beginning lines) with
        | none => none
        | some d3 => some (d3, Except.ok ())) = some (d', res) at h
    by_cases hguard : (lines.length == 0 ||
        (lines.length == 1 && (lines.getD 0 []).length == 0)) = true
    · rw [if_pos hguard] at h
      injection h with h1
      injection h1 with h2 h3
      rw [← h2]
      exact hinv1
    · rw [if_neg hguard] at h
      have hne : lines ≠ [] := by
        intro hcon
        subst hcon
        simp at hguard
      rcases insert_chain hinv1.1 hinv1.2.1 hpb hne with
        ⟨c', invs, hchain, hs', hpv', hget⟩
      rcases tracked_run_DocInv hinv1 hchain hpv' with
        ⟨s', hrun, hinv', _⟩
      rw [applyTrackedList] at hrun
      cases ht : applyTracked d1 (Change.Insert lines r.beginning) with
      | none =>
        rw [ht] at hrun
        exact absurd hrun (by simp)
      | some d2 =>
        rw [ht] at hrun
        change applyTrackedList d2 (insertAnchorChanges
          d1.core.anchors.store r.beginning lines) = some ⟨c', s'⟩ at hrun
        rw [ht] at h
        change (match applyTrackedList d2 (insertAnchorChanges
            d1.core.anchors.store r.beginning lines) with
          | none => none
          | some d3 => some (d3, Except.ok ())) = some (d', res) at h
        rw [hrun] at h
        injection h with h1
        injection h1 with h2 h3
        rw [← h2]
        exact hinv'

/-- `Document::insert_resolved` preserves the invariant. -/
theorem insertResolved_inv {d : Document} {text : List Char}
    {o : InsertOptions} {r : Range} {d' : Document} {res : Except Oops Unit}
    (hinv : DocInv d) (hv : rangeValid d.core r = true)
    (h : Document.insertResolved d text o r = some (d', res)) :
    DocInv d' := by
  rw [Document.insertResolved] at h
  by_cases hem : r.empty = true
  · rw [if_pos hem] at h
    change (match prepText text o with
      | none => none
      | some lines =>
        if lines.length == 0 ||
            (lines.length == 1 && (lines.getD 0 []).length == 0) then
          some (d, Except.error (Oops.EmptyString "can't insert nothing"))
        else
          match applyTracked d (Change.Insert lines r.beginning) with
          | none => none
          | some d2 =>
            match applyTrackedList d2 (insertAnchorChanges
                d.core.anchors.store r.beginning lines) with
            | none => none
            | some d3 => some (d3, Except.ok ())) = some (d', res) at h
    exact insert_tail_inv hinv (rangeValid_iff.mp hv).1 h
  · have hne : r.empty = false := by
      revert hem
      cases r.empty <;> simp
    rw [if_neg (by rw [hne]; simp)] at h
    rcases removeResolved_success hinv hv hne with
      ⟨dr, invs, heq, hinvr, _, hposb, _⟩
    rw [remove_exact_eq hv, heq] at h
    change (match prepText text o with
      | none => none
      | some lines =>
        if lines.length == 0 ||
            (lines.length == 1 && (lines.getD 0 []).length == 0) then
          some (dr, Except.error (Oops.EmptyString "can't insert nothing"))
        else
          match applyTracked dr (Change.Insert lines r.beginning) with
          | none => none
          | some d2 =>
            match applyTrackedList d2 (insertAnchorChanges
                dr.core.anchors.store r.beginning lines) with
            | none => none
            | some d3 => some (d3, Except.ok ())) = some (d', res) at h
    exact insert_tail_inv hinvr hposb h

/-- `Document::insert` preserves the invariant. -/
theorem insert_inv {d : Document} {text : List Char} {o : InsertOptions}
    {d' : Document} {res : Except Oops Unit} (hinv : DocInv d)
    (h : d.insert text o = some (d', res)) : DocInv d' := by
  rcases o with ⟨oe, oi, os, orng⟩
  cases orng with
  | some r =>
    rw [Document.insert] at h
    change (if (!rangeValid d.core r) = true then
        some (d, Except.error (Oops.InvalidRange r "insert"))
      else Document.insertResolved d text ⟨oe, oi, os, some r⟩ r) =
      some (d', res) at h
    by_cases hv : rangeValid d.core r = true
    · rw [if_neg (show ¬((!rangeValid d.core r) = true) from by
        rw [hv]
        simp)] at h
      exact insertResolved_inv hinv hv h
    · have hv' : rangeValid d.core r = false := by
        revert hv
        cases rangeValid d.core r <;> simp
      rw [if_pos (by rw [hv']; rfl)] at h
      injection h with h1
      injection h1 with h2 h3
      rw [← h2]
      exact hinv
  | none =>
    rw [Document.insert] at h
    change (match d.selection with
      | none => none
      | some r => Document.insertResolved d text ⟨oe, oi, os, none⟩ r) =
      some (d', res) at h
    cases hsel : Document.selection d with
    | none =>
      rw [hsel] at h
      exact absurd h (by simp)
    | some r =>
      rw [hsel] at h
      exact insertResolved_inv hinv (selection_valid hinv hsel) h

theorem splitLines_ne_nil (t : List Char) : splitLines t ≠ [] := by
  induction t with
  | nil => simp [splitLines]
  | cons ch rest ih =>
    rw [splitLines]
    by_cases hc : ch = '\n'
    · rw [if_pos hc]
      simp
    · rw [if_neg hc]
      cases hsp : splitLines rest with
      | nil => simp
      | cons l ls => simp

theorem DocInv_new : DocInv Document.new := by decide

theorem DocInv_fromText (t : List Char) : DocInv (Document.fromText t) := by
  by_cases ht : t = []
  · subst ht
    decide
  · have hlines : (Document.fromText t).core.lines =
        (splitLines t).map Line.fromContent := by
      show (if t = [] then [Line.fromContent []]
        else (splitLines t).map Line.fromContent) = _
      rw [if_neg ht]
    have hlen : 0 < (Document.fromText t).core.lines.length := by
      rw [hlines]
      have := splitLines_ne_nil t
      cases hsp : splitLines t with
      | nil => exact absurd hsp this
      | cons l ls => simp
    have hpos : positionValid (Document.fromText t).core ⟨0, 0⟩ = true := by
      rw [positionValid]
      refine Bool.and_eq_true_iff.mpr ⟨?_, ?_⟩
      · rw [Nat.blt_eq]
        exact hlen
      · rw [Nat.ble_eq]
        exact Nat.zero_le _
    refine ⟨?_, ?_, rfl, rfl⟩
    · refine structOK_iff.mpr ⟨?_, ?_⟩
      · rw [hlines]
        refine linesOK_iff.mpr ⟨?_, ?_⟩
        · intro hcon
          exact splitLines_ne_nil t (by
            cases hsp : splitLines t with
            | nil => rfl
            | cons l ls =>
              rw [hsp] at hcon
              exact absurd hcon (by simp))
        · intro l hl
          rcases List.mem_map.mp hl with ⟨x, hx, hxe⟩
          rw [← hxe]
          rfl
      · show anchorsOK Anchors.new = true
        decide
    · show posValidAll (Document.fromText t).core = true
      rw [posValidAll]
      change ([((0 : AnchorHandle), (⟨⟨0, 0⟩⟩ : Anchor)),
        ((1 : AnchorHandle), (⟨⟨0, 0⟩⟩ : Anchor))].all (fun e =>
          positionValid (Document.fromText t).core e.2.position)) = true
      rw [List.all_cons, List.all_cons, List.all_nil]
      change (positionValid (Document.fromText t).core ⟨0, 0⟩ &&
        (positionValid (Document.fromText t).core ⟨0, 0⟩ && true)) = true
      rw [hpos]
      rfl

theorem DocInv_from_with_language (t l : List Char) :
    DocInv (Document.from_with_language t l) := by
  rcases DocInv_fromText t with ⟨hs, hpv, hu, hr⟩
  exact ⟨hs, hpv, rfl, rfl⟩

/-- Every document reachable through the public API satisfies the full
invariant. -/
theorem DocInv_of_reachable {d : Document} (hr : Reachable d) :
    DocInv d := by
  induction hr with
  | new => exact DocInv_new
  | fromText t => exact DocInv_fromText t
  | from_with_language t l => exact DocInv_from_with_language t l
  | insert _ hop ih => exact insert_inv ih hop
  | remove _ hop ih => exact remove_inv ih hop
  | set_anchor _ hop ih => exact set_anchor_inv ih hop
  | create_anchor _ hop ih => exact create_anchor_inv ih hop
  | remove_anchor _ hop ih => exact remove_anchor_inv ih hop
  | set_cursor _ hop ih => exact set_cursor_inv ih hop
  | set_mark _ hop ih => exact set_mark_inv ih hop
  | set_cursor_and_mark _ hop ih => exact set_cursor_and_mark_inv ih hop
  | set_selection _ hop ih => exact set_selection_inv ih hop
  | set_indentation _ hop ih => exact set_indentation_inv ih hop
  | set_language _ hop ih => exact set_language_inv ih hop
  | undo _ hop ih => exact undo_inv ih hop
  | redo _ hop ih => exact redo_inv ih hop
  | checkpoint _ ih => exact checkpoint_inv ih
  | forget _ ih => exact forget_inv ih

/-- A successful `remove_resolved` call is an operation run. -/
theorem removeResolved_OpRun {d : Document} {r : Range} {d' : Document}
    (hinv : DocInv d) (hv : rangeValid d.core r = true)
    (hne : r.empty = false)
    (h : Document.removeResolved d r = some (d', Except.ok ())) :
    OpRun d d' := by
  rcases remove_chain hinv.1 hinv.2.1 hv with
    ⟨c', invs, hchain, hs', hpv', hposb, hgetmap, hprim⟩
  rcases removeResolved_success hinv hv hne with
    ⟨d2, invs2, heq, hinv2, _, _, hredo2, hflag2, hback2, hfresh2, hpush2,
      hlen2, _⟩
  rw [heq] at h
  injection h with h1
  injection h1 with h2 h3
  rw [← h2]
  refine ⟨hinv2, hredo2, hflag2, invs2, _, hback2, ?_⟩
  by_cases hflag : (d.undo_redo.undo_stack.isEmpty ||
      d.undo_redo.checkpoint_requested) = true
  · exact Or.inl ⟨hflag, hfresh2 hflag⟩
  · have hflag' : d.undo_redo.undo_stack.isEmpty = false ∧
        d.undo_redo.checkpoint_requested = false := by
      revert hflag
      cases d.undo_redo.undo_stack.isEmpty <;>
        cases d.undo_redo.checkpoint_requested <;> simp
    cases hstk : d.undo_redo.undo_stack with
    | nil =>
      rw [hstk] at hflag'
      simp at hflag'
    | cons top rest' =>
      exact Or.inr ⟨top, rest', rfl, hflag'.2, hpush2 top rest' hstk
        hflag'.2⟩

/-- The tail of `Document::insert_resolved`, when it reports success, is an
operation run and rebases every anchor through `insertMovedAnchor`. -/
theorem insert_tail_success {d1 : Document} {text : List Char}
    {o : InsertOptions} {r : Range} {d' : Document}
    {lines : List (List Char)}
    (hinv1 : DocInv d1) (hpb : positionValid d1.core r.beginning = true)
    (hprep : prepText text o = some lines)
    (h : (match prepText text o with
      | none => none
      | some lines =>
        if lines.length == 0 ||
            (lines.length == 1 && (lines.getD 0 []).length == 0) then
          some (d1, Except.error (Oops.EmptyString "can't insert nothing"))
        else
          match applyTracked d1 (Change.Insert lines r.beginning) with
          | none => none
          | some d2 =>
            match applyTrackedList d2 (insertAnchorChanges
                d1.core.anchors.store r.beginning lines) with
            | none => none
            | some d3 => some (d3, Except.ok ())) =
      some (d', Except.ok ())) :
    OpRun d1 d' ∧
      (∀ h a0, d1.core.anchors.get h = some a0 →
        d'.core.anchors.get h = some (if posLe r.beginning a0.position then
          insertMovedAnchor a0 r.beginning lines else a0)) := by
  rw [hprep] at h
  change (if lines.length == 0 ||
      (lines.length == 1 && (lines.getD 0 []).length == 0) then
    some (d1, Except.error (Oops.EmptyString "can't insert nothing"))
  else
    match applyTracked d1 (Change.Insert lines r.beginning) with
    | none => none
    | some d2 =>
      match applyTrackedList d2 (insertAnchorChanges
          d1.core.anchors.store r.beginning lines) with
      | none => none
      | some d3 => some (d3, Except.ok ())) =
    some (d', Except.ok ()) at h
  by_cases hguard : (lines.length == 0 ||
      (lines.length == 1 && (lines.getD 0 []).length == 0)) = true
  · rw [if_pos hguard] at h
    injection h with h1
    injection h1 with h2 h3
    exact absurd h3 (by simp)
  · rw [if_neg hguard] at h
    have hne : lines ≠ [] := by
      intro hcon
      subst hcon
      simp at hguard
    rcases insert_chain hinv1.1 hinv1.2.1 hpb hne with
      ⟨c', invs, hchain, hs', hpv', hget⟩
    rcases tracked_run_DocInv hinv1 hchain hpv' with
      ⟨s', hrun, hinv', _⟩
    have hrun0 := hrun
    rw [applyTrackedList] at hrun
    cases ht : applyTracked d1 (Change.Insert lines r.beginning) with
    | none =>
      rw [ht] at hrun
      exact absurd hrun (by simp)
    | some d2 =>
      rw [ht] at hrun
      change applyTrackedList d2 (insertAnchorChanges
        d1.core.anchors.store r.beginning lines) = some ⟨c', s'⟩ at hrun
      rw [ht] at h
      change (match applyTrackedList d2 (insertAnchorChanges
          d1.core.anchors.store r.beginning lines) with
        | none => none
        | some d3 => some (d3, Except.ok ())) = some (d', Except.ok ()) at h
      rw [hrun] at h
      injection h with h1
      injection h1 with h2 h3
      rw [← h2]
      exact ⟨(OpRun_of_run hinv1 hchain hpv' hrun0).1, hget⟩

/-- A successful `Document::insert` call is an operation run. -/
theorem insert_ok_OpRun {d : Document} {text : List Char}
    {o : InsertOptions} {d' : Document} (hinv : DocInv d)
    (h : d.insert text o = some (d', Except.ok ())) : OpRun d d' := by
  have hres : ∀ (r : Range), rangeValid d.core r = true →
      Document.insertResolved d text o r = some (d', Except.ok ()) →
      OpRun d d' := by
    intro r hv hop
    rw [Document.insertResolved] at hop
    by_cases hem : r.empty = true
    · rw [if_pos hem] at hop
      cases hprep : prepText text o with
      | none =>
        rw [hprep] at hop
        change (none : Option (Document × Except Oops Unit)) =
          some (d', Except.ok ()) at hop
        exact absurd hop (by simp)
      | some lines =>
        have htail := @insert_tail_success d text o r d' lines hinv
          (rangeValid_iff.mp hv).1 hprep hop
        exact htail.1
    · have hne : r.empty = false := by
        revert hem
        cases r.empty <;> simp
      rw [if_neg (by rw [hne]; simp)] at hop
      rw [remove_exact_eq hv] at hop
      by_cases hok : ∃ dr, Document.removeResolved d r =
          some (dr, Except.ok ())
      · rcases hok with ⟨dr, hdr⟩
        rw [hdr] at hop
        have hrOp : OpRun d dr := removeResolved_OpRun hinv hv hne hdr
        rcases removeResolved_success hinv hv hne with
          ⟨dr2, invs2, heq, hinv2, _, hposb2, _⟩
        rw [heq] at hdr
        injection hdr with hd1
        injection hd1 with hd2 hd3
        subst hd2
        change (match prepText text o with
          | none => none
          | some lines =>
            if lines.length == 0 ||
                (lines.length == 1 && (lines.getD 0 []).length == 0) then
              some (dr2, Except.error
                (Oops.EmptyString "can't insert nothing"))
            else
              match applyTracked dr2 (Change.Insert lines r.beginning) with
              | none => none
              | some d2 =>
                match applyTrackedList d2 (insertAnchorChanges
                    dr2.core.anchors.store r.beginning lines) with
                | none => none
                | some d3 => some (d3, Except.ok ())) =
          some (d', Except.ok ()) at hop
        cases hprep : prepText text o with
        | none =>
          rw [hprep] at hop
          exact absurd hop (by simp)
        | some lines =>
          have htail := @insert_tail_success dr2 text o r d' lines hinv2
            hposb2 hprep hop
          exact OpRun_comp hrOp htail.1
      · cases hrr : Document.removeResolved d r with
        | none =>
          rw [hrr] at hop
          exact absurd hop (by simp)
        | some p =>
          rcases p with ⟨dr, e⟩
          cases e with
          | ok u =>
            cases u
            exact absurd ⟨dr, hrr⟩ hok
          | error err =>
            rw [hrr] at hop
            change some (dr, Except.error err) = some (d', Except.ok ())
              at hop
            injection hop with h1
            injection h1 with h2 h3
            exact absurd h3 (by simp)
  rcases o with ⟨oe, oi, os, orng⟩
  cases orng with
  | some r =>
    rw [Document.insert] at h
    change (if (!rangeValid d.core r) = true then
        some (d, Except.error (Oops.InvalidRange r "insert"))
      else Document.insertResolved d text ⟨oe, oi, os, some r⟩ r) =
      some (d', Except.ok ()) at h
    by_cases hv : rangeValid d.core r = true
    · rw [if_neg (show ¬((!rangeValid d.core r) = true) from by
        rw [hv]
        simp)] at h
      exact hres r hv h
    · have hv' : rangeValid d.core r = false := by
        revert hv
        cases rangeValid d.core r <;> simp
      rw [if_pos (by rw [hv']; rfl)] at h
      injection h with h1
      injection h1 with h2 h3
      exact absurd h3 (by simp)
  | none =>
    rw [Document.insert] at h
    change (match d.selection with
      | none => none
      | some r => Document.insertResolved d text ⟨oe, oi, os, none⟩ r) =
      some (d', Except.ok ()) at h
    cases hsel : Document.selection d with
    | none =>
      rw [hsel] at h
      exact absurd h (by simp)
    | some r =>
      rw [hsel] at h
      exact hres r (selection_valid hinv hsel) h

/-- A successful insert into an empty (cursor-like) valid range rebases
every anchor at or after the insertion point through `insertMovedAnchor`
and leaves earlier anchors untouched. -/
theorem insert_emptyRange_success {d : Document} {text : List Char}
    {r : Range} (hinv : DocInv d) (hv : rangeValid d.core r = true)
    (hem : r.empty = true)
    (hguard : ((splitLines text).length == 1 &&
      ((splitLines text).getD 0 []).length == 0) = false) :
    ∃ d', d.insert text (InsertOptions.exact_at r) =
        some (d', Except.ok ()) ∧ DocInv d' ∧
      (∀ h a0, d.core.anchors.get h = some a0 →
        d'.core.anchors.get h = some (if posLe r.beginning a0.position then
          insertMovedAnchor a0 r.beginning (splitLines text) else a0)) := by
  have hpb : positionValid d.core r.beginning = true :=
    (rangeValid_iff.mp hv).1
  have hg : ¬(((splitLines text).length == 0 ||
      ((splitLines text).length == 1 &&
        ((splitLines text).getD 0 []).length == 0)) = true) := by
    have hne := splitLines_ne_nil text
    have h0 : ((splitLines text).length == 0) = false := by
      cases hsp : splitLines text with
      | nil => exact absurd hsp hne
      | cons a l => rfl
    rw [h0, hguard]
    simp
  rcases insert_chain (p := r.beginning) hinv.1 hinv.2.1 hpb
      (splitLines_ne_nil text) with ⟨c', invs, hchain, hs', hpv', hget⟩
  rcases tracked_run_DocInv hinv hchain hpv' with
    ⟨s', hrun, hinv', _⟩
  refine ⟨⟨c', s'⟩, ?_, hinv', hget⟩
  rw [Document.insert]
  change (if (!rangeValid d.core r) = true then
      some (d, Except.error (Oops.InvalidRange r "insert"))
    else Document.insertResolved d text (InsertOptions.exact_at r) r) =
    some (⟨c', s'⟩, Except.ok ())
  rw [if_neg (show ¬((!rangeValid d.core r) = true) from by
    rw [hv]
    simp)]
  rw [Document.insertResolved]
  rw [if_pos hem]
  change (match prepText text (InsertOptions.exact_at r) with
    | none => none
    | some lines =>
      if lines.length == 0 ||
          (lines.length == 1 && (lines.getD 0 []).length == 0) then
        some (d, Except.error (Oops.EmptyString "can't insert nothing"))
      else
        match applyTracked d (Change.Insert lines r.beginning) with
        | none => none
        | some d2 =>
          match applyTrackedList d2 (insertAnchorChanges
              d.core.anchors.store r.beginning lines) with
          | none => none
          | some d3 => some (d3, Except.ok ())) =
    some (⟨c', s'⟩, Except.ok ())
  rw [show prepText text (InsertOptions.exact_at r) =
    some (splitLines text) from rfl]
  change (if (splitLines text).length == 0 ||
      ((splitLines text).length == 1 &&
        ((splitLines text).getD 0 []).length == 0) then
    some (d, Except.error (Oops.EmptyString "can't insert nothing"))
  else
    match applyTracked d (Change.Insert (splitLines text) r.beginning) with
    | none => none
    | some d2 =>
      match applyTrackedList d2 (insertAnchorChanges
          d.core.anchors.store r.beginning (splitLines text)) with
      | none => none
      | some d3 => some (d3, Except.ok ())) =
    some (⟨c', s'⟩, Except.ok ())
  rw [if_neg hg]
  rw [applyTrackedList] at hrun
  cases ht : applyTracked d (Change.Insert (splitLines text) r.beginning) with
  | none =>
    rw [ht] at hrun
    exact absurd hrun (by simp)
  | some d2 =>
    rw [ht] at hrun
    change applyTrackedList d2 (insertAnchorChanges d.core.anchors.store
      r.beginning (splitLines text)) = some ⟨c', s'⟩ at hrun
    change (match applyTrackedList d2 (insertAnchorChanges
        d.core.anchors.store r.beginning (splitLines text)) with
      | none => none
      | some d3 => some (d3, Except.ok ())) =
      some (⟨c', s'⟩, Except.ok ())
    rw [hrun]

/-- A valid non-empty removal strictly changes the line list. -/
theorem remove_changes_lines {r : Range} {c c1 : Core} {inv : Change}
    (hs : structOK c = true) (hv : rangeValid c r = true)
    (hne : r.empty = false)
    (happ : applyRemoveUntracked r c = some (c1, inv)) :
    c1.lines ≠ c.lines := by
  rcases rangeValid_iff.mp hv with ⟨hb, he, hle⟩
  rcases positionValid_iff.mp hb with ⟨hbr, hbc⟩
  rcases positionValid_iff.mp he with ⟨her, hec⟩
  have hlOK : linesOK c.lines = true := (structOK_iff.mp hs).1
  have hne' : r.beginning ≠ r.ending := by
    intro hcon
    rw [Range.empty, hcon] at hne
    simp at hne
  rw [applyRemoveUntracked] at happ
  rw [if_neg (show ¬((!rangeValid c r) = true) from by
    rw [hv]
    simp)] at happ
  change (if r.beginning.row = r.ending.row then
    some ({ c with lines := (c.lines.set r.beginning.row
        (Line.fromContent
          ((c.lines.getD r.beginning.row
              (Line.fromContent [])).content.take r.beginning.column ++
            (c.lines.getD r.beginning.row
              (Line.fromContent [])).content.drop r.ending.column))) },
      Change.Insert [((c.lines.getD r.beginning.row
          (Line.fromContent [])).content.drop r.beginning.column).take
        (r.ending.column - r.beginning.column)] r.beginning)
  else
    some ({ c with lines := (c.lines.take r.beginning.row ++
        Line.fromContent ((c.lines.getD r.beginning.row
            (Line.fromContent [])).content.take r.beginning.column ++
          (c.lines.getD r.ending.row
            (Line.fromContent [])).content.drop r.ending.column) ::
        c.lines.drop (r.ending.row + 1)) },
      Change.Insert ((c.lines.getD r.beginning.row
          (Line.fromContent [])).content.drop r.beginning.column ::
        ((c.lines.drop (r.beginning.row + 1)).take
          (r.ending.row - r.beginning.row - 1)).map (fun l => l.content) ++
        [(c.lines.getD r.ending.row
          (Line.fromContent [])).content.take r.ending.column])
        r.beginning)) = some (c1, inv) at happ
  by_cases hrow : r.beginning.row = r.ending.row
  · have hbclt : r.beginning.column < r.ending.column := by
      rcases posLe_iff.mp hle with h | ⟨_, hcle⟩
      · omega
      · rcases Nat.lt_or_ge r.beginning.column r.ending.column with h | h
        · exact h
        · exfalso
          have hcoleq : r.beginning.column = r.ending.column :=
            Nat.le_antisymm hcle h
          exact hne' (by
            rw [show r.beginning =
              (⟨r.beginning.row, r.beginning.column⟩ : Position) from rfl,
              hrow, hcoleq])
    rw [if_pos hrow] at happ
    injection happ with h1
    injection h1 with h2 h3
    rw [← h2]
    intro hcon
    change c.lines.set r.beginning.row
      (Line.fromContent
        ((c.lines.getD r.beginning.row
            (Line.fromContent [])).content.take r.beginning.column ++
          (c.lines.getD r.beginning.row
            (Line.fromContent [])).content.drop r.ending.column)) =
      c.lines at hcon
    have hgd := getD_set_self c.lines
      (Line.fromContent
        ((c.lines.getD r.beginning.row
            (Line.fromContent [])).content.take r.beginning.column ++
          (c.lines.getD r.beginning.row
            (Line.fromContent [])).content.drop r.ending.column))
      (Line.fromContent []) hbr
    rw [hcon] at hgd
    have hcache := getD_length_of_linesOK hlOK hbr
    have hlen2 : (c.lines.getD r.beginning.row (Line.fromContent [])).length =
        ((c.lines.getD r.beginning.row
            (Line.fromContent [])).content.take r.beginning.column ++
          (c.lines.getD r.beginning.row
            (Line.fromContent [])).content.drop r.ending.column).length :=
      congrArg Line.length hgd
    rw [List.length_append, List.length_take, List.length_drop, hcache]
      at hlen2
    rw [hcache] at hbc
    rw [← hrow] at hec
    rw [hcache] at hec
    omega
  · have hbrer : r.beginning.row < r.ending.row := by
      rcases posLe_iff.mp hle with h | ⟨h, _⟩
      · exact h
      · exact absurd h hrow
    rw [if_neg hrow] at happ
    injection happ with h1
    injection h1 with h2 h3
    rw [← h2]
    intro hcon
    change c.lines.take r.beginning.row ++
        Line.fromContent ((c.lines.getD r.beginning.row
            (Line.fromContent [])).content.take r.beginning.column ++
          (c.lines.getD r.ending.row
            (Line.fromContent [])).content.drop r.ending.column) ::
        c.lines.drop (r.ending.row + 1) = c.lines at hcon
    have hlen := congrArg List.length hcon
    rw [List.length_append, List.length_cons, List.length_take,
      List.length_drop] at hlen
    omega

/-- Inserting empty text over a valid non-empty range fails with
`EmptyString`, but only after the removal of the range (with its anchor
rebases and undo packet) has already been performed. -/
theorem insert_empty_text {d : Document} {r : Range} (hinv : DocInv d)
    (hv : rangeValid d.core r = true) (hne : r.empty = false) :
    ∃ d1, d.insert [] (InsertOptions.exact_at r) =
        some (d1, Except.error (Oops.EmptyString "can't insert nothing")) ∧
      d.remove (RemoveOptions.exact_at r) = some (d1, Except.ok ()) ∧
      d1.core.lines ≠ d.core.lines ∧
      d1.undo_redo.undo_stack ≠ [] ∧
      DocInv d1 ∧
      (∀ h a0, d.core.anchors.get h = some a0 →
        d1.core.anchors.get h = some (removeMovedAnchor a0 r)) := by
  rcases removeResolved_success hinv hv hne with
    ⟨d1, invs, heq, hinv1, hgetmap, hposb, hredo, hflagc, hback, hfresh,
      hpush, hlen, hprim⟩
  rcases hprim with ⟨inv1, hprim⟩
  have hrem : d.remove (RemoveOptions.exact_at r) =
      some (d1, Except.ok ()) := by
    rw [remove_exact_eq hv]
    exact heq
  refine ⟨d1, ?_, hrem, ?_, ?_, hinv1, hgetmap⟩
  · rw [Document.insert]
    change (if (!rangeValid d.core r) = true then
        some (d, Except.error (Oops.InvalidRange r "insert"))
      else Document.insertResolved d [] (InsertOptions.exact_at r) r) =
      some (d1, Except.error (Oops.EmptyString "can't insert nothing"))
    rw [if_neg (show ¬((!rangeValid d.core r) = true) from by
      rw [hv]
      simp)]
    rw [Document.insertResolved]
    rw [if_neg (show ¬(r.empty = true) from by
      rw [hne]
      simp)]
    rw [remove_exact_eq hv]
    rw [heq]
    rfl
  · exact @remove_changes_lines r d.core
      { d.core with lines := d1.core.lines } inv1 hinv.1 hv hne hprim
  · by_cases hflag : (d.undo_redo.undo_stack.isEmpty ||
        d.undo_redo.checkpoint_requested) = true
    · rw [hfresh hflag]
      simp
    · have hflag' : d.undo_redo.undo_stack.isEmpty = false ∧
          d.undo_redo.checkpoint_requested = false := by
        revert hflag
        cases d.undo_redo.undo_stack.isEmpty <;>
          cases d.undo_redo.checkpoint_requested <;> simp
      cases hstk : d.undo_redo.undo_stack with
      | nil =>
        rw [hstk] at hflag'
        simp at hflag'
      | cons top rest' =>
        rw [hpush top rest' hstk hflag'.2]
        simp

/-- Undoing once after an operation run that opened a fresh undo packet
restores the pre-run core and undo stack. -/
theorem OpRun_undo_fresh {d d' : Document} (hr : OpRun d d')
    (hflag : (d.undo_redo.undo_stack.isEmpty ||
      d.undo_redo.checkpoint_requested) = true) :
    ∃ d2, d'.undo 1 = some (d2, Except.ok 1) ∧ d2.core = d.core ∧
      d2.undo_redo.undo_stack = d.undo_redo.undo_stack := by
  rcases hr with ⟨hinv', hredo, hflagc, invs, chs, hback, hdis⟩
  rcases hdis with ⟨hfl2, hstk⟩ | ⟨top, rest', hstk0, hfl, hstk⟩
  · have honce := undo_once_cons hstk (applyChanges_of_OK hback)
    refine ⟨⟨d.core, ⟨d.undo_redo.undo_stack,
      ⟨chs⟩ :: d'.undo_redo.redo_stack,
      d'.undo_redo.checkpoint_requested⟩⟩, ?_, rfl, rfl⟩
    show d'.undoGo 0 1 = _
    rw [Document.undoGo, honce]
    rfl
  · rw [hstk0, hfl] at hflag
    simp at hflag

/-- `Indentation::indent` re-renders the measured margin shifted by
`delta` tab stops (clamped at zero) and appends the content after the
margin exactly when requested. -/
theorem indent_eq {ind : Indentation} {line : List Char} {delta : Int}
    {ic : Bool} :
    ind.indent line delta ic =
      ind.produce (max 0 (((ind.measure line).1 : Int) + delta *
        (ind.spaces_per_tab : Int))).toNat ++
        (if ic then line.drop (ind.measure line).2 else []) := by
  have hact : (if ((ind.measure line).1 : Int) + delta *
        (ind.spaces_per_tab : Int) < 0 then (0 : Nat)
      else (((ind.measure line).1 : Int) + delta *
        (ind.spaces_per_tab : Int)).toNat) =
      (max 0 (((ind.measure line).1 : Int) + delta *
        (ind.spaces_per_tab : Int))).toNat := by
    by_cases h : ((ind.measure line).1 : Int) + delta *
        (ind.spaces_per_tab : Int) < 0
    · rw [if_pos h]
      omega
    · rw [if_neg h]
      omega
  cases ic
  · show ind.produce (if ((ind.measure line).1 : Int) + delta *
        (ind.spaces_per_tab : Int) < 0 then 0
      else (((ind.measure line).1 : Int) + delta *
        (ind.spaces_per_tab : Int)).toNat) =
      ind.produce (max 0 (((ind.measure line).1 : Int) + delta *
        (ind.spaces_per_tab : Int))).toNat ++ []
    rw [hact, List.append_nil]
  · show ind.produce (if ((ind.measure line).1 : Int) + delta *
        (ind.spaces_per_tab : Int) < 0 then 0
      else (((ind.measure line).1 : Int) + delta *
        (ind.spaces_per_tab : Int)).toNat) ++
        line.drop (ind.measure line).2 =
      ind.produce (max 0 (((ind.measure line).1 : Int) + delta *
        (ind.spaces_per_tab : Int))).toNat ++ line.drop (ind.measure line).2
    rw [hact]

/-- Dedenting past column zero yields an empty margin, never a negative
width. -/
theorem indent_clamp_empty {ind : Indentation} {line : List Char}
    {delta : Int}
    (h : ((ind.measure line).1 : Int) + delta *
      (ind.spaces_per_tab : Int) ≤ 0) :
    ind.indent line delta false = [] := by
  show ind.produce (if ((ind.measure line).1 : Int) + delta *
      (ind.spaces_per_tab : Int) < 0 then 0
    else (((ind.measure line).1 : Int) + delta *
      (ind.spaces_per_tab : Int)).toNat) = []
  have hz : (if ((ind.measure line).1 : Int) + delta *
      (ind.spaces_per_tab : Int) < 0 then (0 : Nat)
    else (((ind.measure line).1 : Int) + delta *
      (ind.spaces_per_tab : Int)).toNat) = 0 := by
    by_cases hc : ((ind.measure line).1 : Int) + delta *
        (ind.spaces_per_tab : Int) < 0
    · rw [if_pos hc]
    · rw [if_neg hc]
      omega
  rw [hz, Indentation.produce]
  by_cases hu : ind.use_spaces = true
  · rw [if_pos hu]
    rfl
  · rw [if_neg hu, Nat.zero_div, Nat.zero_mod]
    rfl

/-! ## The claims -/

/-- Claim C1: for every structurally valid document core and every change
applicable in it (valid position/range, existing handle where the variant
requires one, fresh handle for `AnchorInsert`), `apply_untracked` succeeds
and returns an inverse change whose application restores a core with
identical lines (text) and an identical anchor store. -/
theorem claim_C1_change_round_trip {c : Core} {ch : Change}
    (hs : structOK c = true) (hok : changeOKb ch c = true) :
    ∃ c1 inv, applyChange ch c = some (c1, inv) ∧
      ∃ c2 inv2, applyChange inv c1 = some (c2, inv2) ∧
        c2.lines = c.lines ∧ c2.anchors.store = c.anchors.store := by
  rcases applyChange_invol hs hok with ⟨c1, inv, h1, _, _, h2⟩
  exact ⟨c1, inv, h1, c, ch, h2, rfl, rfl⟩

/-- Concrete instance of C1: inserting `"X"` at the origin of the fresh
document and applying the returned inverse. -/
theorem claim_C1_witness :
    structOK Document.new.core = true ∧
    changeOKb (Change.Insert [['X']] ⟨0, 0⟩) Document.new.core = true ∧
    (∃ c1 inv, applyChange (Change.Insert [['X']] ⟨0, 0⟩)
        Document.new.core = some (c1, inv) ∧
      ∃ c2 inv2, applyChange inv c1 = some (c2, inv2) ∧
        c2.lines = Document.new.core.lines ∧
        c2.anchors.store = Document.new.core.anchors.store) :=
  ⟨by decide, by decide,
    claim_C1_change_round_trip (by decide) (by decide)⟩

/-- Claim C2: for every document reachable through the public API and every
`n` within the undo depth, `undo(n)` followed by `redo(n)` restores a
document with exactly the pre-undo text, anchor store, indentation policy
and language. -/
theorem claim_C2_undo_redo_symmetry {d : Document} {n : Nat}
    (hr : Reachable d) (hn : n ≤ d.undo_redo.undo_stack.length) :
    ∃ d1 d2, d.undo n = some (d1, Except.ok n) ∧
      d1.redo n = some (d2, Except.ok n) ∧
      d2.text = d.text ∧ d2.core.anchors = d.core.anchors ∧
      d2.core.indentation = d.core.indentation ∧
      d2.core.language = d.core.language := by
  have hinv := DocInv_of_reachable hr
  rcases undo_redo_iter n hinv hn with ⟨d1, hundo, hinv1, hredo⟩
  refine ⟨d1, d, ?_, ?_, rfl, rfl, rfl, rfl⟩
  · have h := hundo 0
    rw [Nat.zero_add] at h
    exact h
  · have h := hredo 0
    rw [Nat.zero_add] at h
    exact h

/-- Concrete instance of C2: one `set_language` call, then undo 1 / redo 1. -/
theorem claim_C2_witness :
    Document.new.set_language ['r'] = some (docLangR, Except.ok ()) ∧
    1 ≤ docLangR.undo_redo.undo_stack.length ∧
    (∃ d1 d2, docLangR.undo 1 = some (d1, Except.ok 1) ∧
      d1.redo 1 = some (d2, Except.ok 1) ∧
      d2.text = docLangR.text ∧ d2.core.anchors = docLangR.core.anchors ∧
      d2.core.indentation = docLangR.core.indentation ∧
      d2.core.language = docLangR.core.language) :=
  ⟨by decide, by decide,
    claim_C2_undo_redo_symmetry
      (@Reachable.set_language Document.new docLangR (Except.ok ()) ['r']
        Reachable.new (by decide)) (by decide)⟩

/-- Claim C3: every document reachable through the public API has at least
one line, contains the cursor (0) and mark (1) anchors, and every stored
anchor position `p` satisfies `p.row < lines.len()` and
`p.column <= lines[p.row].length`. -/
theorem claim_C3_reachable_invariants {d : Document} (hr : Reachable d) :
    1 ≤ d.core.lines.length ∧
    (d.core.anchors.get Anchors.CURSOR).isSome = true ∧
    (d.core.anchors.get Anchors.MARK).isSome = true ∧
    ∀ h a, d.core.anchors.get h = some a →
      a.position.row < d.core.lines.length ∧
      a.position.column ≤
        (d.core.lines.getD a.position.row (Line.fromContent [])).length := by
  have hinv := DocInv_of_reachable hr
  have hl := (structOK_iff.mp hinv.1).1
  rcases anchorsOK_iff.mp (structOK_iff.mp hinv.1).2 with ⟨_, hcur, hmark, _⟩
  refine ⟨?_, hcur, hmark, ?_⟩
  · have hne := (linesOK_iff.mp hl).1
    cases hls : d.core.lines with
    | nil => exact absurd hls hne
    | cons x xs =>
      exact Nat.succ_le_succ (Nat.zero_le _)
  · intro h a hget
    exact positionValid_iff.mp (posValid_of_get hinv.2.1 hget)

/-- Concrete instance of C3: the fresh document. -/
theorem claim_C3_witness :
    1 ≤ Document.new.core.lines.length ∧
    (Document.new.core.anchors.get Anchors.CURSOR).isSome = true ∧
    (Document.new.core.anchors.get Anchors.MARK).isSome = true ∧
    ∀ h a, Document.new.core.anchors.get h = some a →
      a.position.row < Document.new.core.lines.length ∧
      a.position.column ≤ (Document.new.core.lines.getD a.position.row
        (Line.fromContent [])).length :=
  claim_C3_reachable_invariants Reachable.new

/-- Claim C5 is refuted: for the reserved handles 0 (cursor) and 1 (mark)
the public `remove_anchor` does not return `CannotRemoveAnchor` - the
existence pre-check passes, and `remove_anchor_untracked` then panics
(modelled by `none`) on the `CannotRemoveAnchor` error of `Anchors::remove`.
The `NonexistentAnchor` half of the claim does hold, as also shown here. -/
theorem claim_C5_remove_anchor_panics :
    Document.new.remove_anchor 0 = none ∧
    Document.new.remove_anchor 1 = none ∧
    Document.new.remove_anchor 5 =
      some (Document.new, Except.error (Oops.NonexistentAnchor 5)) :=
  ⟨by decide, by decide, by decide⟩

/-- Claim C10: inserting text that resolves to an empty insertion over a
valid non-empty range fails with `EmptyString`, but the target range's text
has already been removed (the document is the one `remove` would produce:
lines changed, anchors rebased, an undo packet pushed) - the error path is
not atomic. -/
theorem claim_C10_empty_insert_not_atomic {d : Document} {r : Range}
    (hinv : DocInv d) (hv : rangeValid d.core r = true)
    (hne : r.empty = false) :
    ∃ d1, d.insert [] (InsertOptions.exact_at r) =
        some (d1, Except.error (Oops.EmptyString "can't insert nothing")) ∧
      d.remove (RemoveOptions.exact_at r) = some (d1, Except.ok ()) ∧
      d1.core.lines ≠ d.core.lines ∧
      d1.undo_redo.undo_stack ≠ [] ∧
      (∀ h a0, d.core.anchors.get h = some a0 →
        d1.core.anchors.get h = some (removeMovedAnchor a0 r)) := by
  rcases insert_empty_text hinv hv hne with ⟨d1, h1, h2, h3, h4, _, h5⟩
  exact ⟨d1, h1, h2, h3, h4, h5⟩

/-- Concrete instance of C10: the empty insertion over (0,0)-(0,1) of
`Document::from("AB")`. -/
theorem claim_C10_witness :
    DocInv (Document.fromText ['A', 'B']) ∧
    rangeValid (Document.fromText ['A', 'B']).core ⟨⟨0, 0⟩, ⟨0, 1⟩⟩ = true ∧
    Range.empty ⟨⟨0, 0⟩, ⟨0, 1⟩⟩ = false ∧
    (∃ d1, (Document.fromText ['A', 'B']).insert []
        (InsertOptions.exact_at ⟨⟨0, 0⟩, ⟨0, 1⟩⟩) =
        some (d1, Except.error (Oops.EmptyString "can't insert nothing")) ∧
      (Document.fromText ['A', 'B']).remove
        (RemoveOptions.exact_at ⟨⟨0, 0⟩, ⟨0, 1⟩⟩) =
        some (d1, Except.ok ()) ∧
      d1.core.lines ≠ (Document.fromText ['A', 'B']).core.lines ∧
      d1.undo_redo.undo_stack ≠ [] ∧
      (∀ h a0, (Document.fromText ['A', 'B']).core.anchors.get h =
          some a0 →
        d1.core.anchors.get h =
          some (removeMovedAnchor a0 ⟨⟨0, 0⟩, ⟨0, 1⟩⟩))) :=
  ⟨by decide, by decide, by decide,
    claim_C10_empty_insert_not_atomic (by decide) (by decide) (by decide)⟩

/-- The insert rebasing written as the spec states it: same-row anchors
shift their column (by the inserted width for a one-line insertion, to the
last line's width plus the overhang past the insertion column otherwise),
and every moved anchor's row advances by `insertedLineCount - 1`. -/
theorem insertMovedAnchor_formula (a : Anchor) (p : Position)
    (lines : List (List Char)) :
    insertMovedAnchor a p lines =
      if a.position.row = p.row then
        (if lines.length = 1 then
          ⟨⟨a.position.row + (lines.length - 1),
            a.position.column + (lines.getD 0 []).length⟩⟩
        else
          ⟨⟨a.position.row + (lines.length - 1),
            (lines.getLastD []).length + (a.position.column - p.column)⟩⟩)
      else ⟨⟨a.position.row + (lines.length - 1), a.position.column⟩⟩ := by
  rw [insertMovedAnchor]
  by_cases hrow : a.position.row = p.row
  · by_cases hlen : lines.length = 1
    · rw [if_pos (show (a.position.row == p.row) = true from by
          rw [beq_iff_eq]
          exact hrow),
        if_pos (show (lines.length == 1) = true from by
          rw [beq_iff_eq]
          exact hlen),
        if_pos hrow, if_pos hlen]
    · have hpast : (if p.column < a.position.column then
          a.position.column - p.column else 0) =
          a.position.column - p.column := by
        by_cases hpc : p.column < a.position.column
        · rw [if_pos hpc]
        · rw [if_neg hpc]
          omega
      rw [if_pos (show (a.position.row == p.row) = true from by
          rw [beq_iff_eq]
          exact hrow),
        if_neg (show ¬((lines.length == 1) = true) from by
          rw [beq_iff_eq]
          exact hlen),
        if_pos hrow, if_neg hlen, hpast]
  · rw [if_neg (show ¬((a.position.row == p.row) = true) from by
        rw [beq_iff_eq]
        exact hrow),
      if_neg hrow]

/-- The remove rebasing written as the spec states it. -/
theorem removeMovedAnchor_formula (a : Anchor) (r : Range) :
    removeMovedAnchor a r =
      if posLt r.ending a.position then
        ⟨⟨a.position.row - (r.ending.row - r.beginning.row),
          if a.position.row = r.ending.row then
            r.beginning.column + a.position.column - r.ending.column
          else a.position.column⟩⟩
      else if posLt r.beginning a.position then ⟨r.beginning⟩
      else a := by
  rw [removeMovedAnchor]
  by_cases h1 : posLt r.ending a.position = true
  · rw [if_pos h1, if_pos h1]
    by_cases h2 : a.position.row = r.ending.row
    · rw [if_pos (show (a.position.row == r.ending.row) = true from by
          rw [beq_iff_eq]
          exact h2),
        if_pos h2]
    · rw [if_neg (show ¬((a.position.row == r.ending.row) = true) from by
          rw [beq_iff_eq]
          exact h2),
        if_neg h2]
  · rw [if_neg h1, if_neg h1]

/-- Claim C4 is refuted on its concrete example: in `"AAA\nBBB"` with an
anchor created at (0,2), inserting `"Z\nY"` at (0,0) moves that anchor to
(1,3) - last inserted line width 1 plus overhang 2 - not to the claimed
(1,1). -/
theorem claim_C4_counterexample :
    (match (Document.fromText
        ['A', 'A', 'A', '\n', 'B', 'B', 'B']).create_anchor ⟨⟨0, 2⟩⟩ with
      | some (d1, Except.ok h) =>
        match d1.insert ['Z', '\n', 'Y']
            (InsertOptions.exact_at ⟨⟨0, 0⟩, ⟨0, 0⟩⟩) with
        | some (d2, Except.ok ()) => d2.core.anchors.get h
        | _ => none
      | _ => none) = some ⟨⟨1, 3⟩⟩ ∧
    (⟨⟨1, 3⟩⟩ : Anchor) ≠ ⟨⟨1, 1⟩⟩ :=
  ⟨by decide, by decide⟩

/-- Claim C4, amended to what the code computes: on a successful insertion
into an empty valid range at `p` with `K` prepared lines, an anchor at or
after `p` moves as follows - a same-row anchor goes to row `p.row + (K-1)`
with column shifted by the inserted width when `K = 1` and set to the last
inserted line's width plus the anchor's overhang past `p.column` when
`K >= 2` (the claimed "tail width" shift is wrong for anchors past the
insertion point of a multi-line insert: the original column is replaced,
not shifted); an anchor on a later row keeps its column and moves down by
`K - 1`; anchors strictly before `p` are untouched. -/
theorem claim_C4_insert_rebase_amended {d : Document} {text : List Char}
    {r : Range} (hinv : DocInv d) (hv : rangeValid d.core r = true)
    (hem : r.empty = true)
    (hguard : ((splitLines text).length == 1 &&
      ((splitLines text).getD 0 []).length == 0) = false) :
    ∃ d', d.insert text (InsertOptions.exact_at r) =
        some (d', Except.ok ()) ∧
      ∀ h a0, d.core.anchors.get h = some a0 →
        d'.core.anchors.get h = some (
          if posLe r.beginning a0.position then
            (if a0.position.row = r.beginning.row then
              (if (splitLines text).length = 1 then
                ⟨⟨a0.position.row + ((splitLines text).length - 1),
                  a0.position.column +
                    ((splitLines text).getD 0 []).length⟩⟩
              else
                ⟨⟨a0.position.row + ((splitLines text).length - 1),
                  ((splitLines text).getLastD []).length +
                    (a0.position.column - r.beginning.column)⟩⟩)
            else ⟨⟨a0.position.row + ((splitLines text).length - 1),
              a0.position.column⟩⟩)
          else a0) := by
  rcases insert_emptyRange_success hinv hv hem hguard with ⟨d', heq, _, hget⟩
  refine ⟨d', heq, ?_⟩
  intro h a0 hmem
  rw [hget h a0 hmem, insertMovedAnchor_formula]

/-- Concrete instance of the amended C4: `"Z\nY"` into the fresh document. -/
theorem claim_C4_witness :
    DocInv Document.new ∧
    rangeValid Document.new.core ⟨⟨0, 0⟩, ⟨0, 0⟩⟩ = true ∧
    Range.empty ⟨⟨0, 0⟩, ⟨0, 0⟩⟩ = true ∧
    ((splitLines ['Z', '\n', 'Y']).length == 1 &&
      ((splitLines ['Z', '\n', 'Y']).getD 0 []).length == 0) = false ∧
    (∃ d', Document.new.insert ['Z', '\n', 'Y']
        (InsertOptions.exact_at ⟨⟨0, 0⟩, ⟨0, 0⟩⟩) =
        some (d', Except.ok ()) ∧
      ∀ h a0, Document.new.core.anchors.get h = some a0 →
        d'.core.anchors.get h = some (
          if posLe (⟨0, 0⟩ : Position) a0.position then
            (if a0.position.row = (⟨0, 0⟩ : Position).row then
              (if (splitLines ['Z', '\n', 'Y']).length = 1 then
                ⟨⟨a0.position.row +
                    ((splitLines ['Z', '\n', 'Y']).length - 1),
                  a0.position.column +
                    ((splitLines ['Z', '\n', 'Y']).getD 0 []).length⟩⟩
              else
                ⟨⟨a0.position.row +
                    ((splitLines ['Z', '\n', 'Y']).length - 1),
                  ((splitLines ['Z', '\n', 'Y']).getLastD []).length +
                    (a0.position.column - (⟨0, 0⟩ : Position).column)⟩⟩)
            else ⟨⟨a0.position.row +
                ((splitLines ['Z', '\n', 'Y']).length - 1),
              a0.position.column⟩⟩)
          else a0)) :=
  ⟨by decide, by decide, by decide, by decide,
    claim_C4_insert_rebase_amended (by decide) (by decide) (by decide)
      (by decide)⟩

/-- Claim C6: a valid non-empty removal rebases every anchor exactly as
stated - strictly-after-the-end anchors shift their row back by the removed
row span and, when on the end row, take column
`beginning.column + column - ending.column`; anchors strictly inside the
range clamp to the beginning; anchors at or before the beginning are
untouched. -/
theorem claim_C6_remove_rebase {d : Document} {r : Range} (hinv : DocInv d)
    (hv : rangeValid d.core r = true) (hne : r.empty = false) :
    ∃ d', d.remove (RemoveOptions.exact_at r) = some (d', Except.ok ()) ∧
      ∀ h a, d.core.anchors.get h = some a →
        d'.core.anchors.get h = some (
          if posLt r.ending a.position then
            ⟨⟨a.position.row - (r.ending.row - r.beginning.row),
              if a.position.row = r.ending.row then
                r.beginning.column + a.position.column - r.ending.column
              else a.position.column⟩⟩
          else if posLt r.beginning a.position then ⟨r.beginning⟩
          else a) := by
  rcases removeResolved_success hinv hv hne with
    ⟨d', invs, heq, _, hgetmap, _⟩
  refine ⟨d', ?_, ?_⟩
  · rw [remove_exact_eq hv]
    exact heq
  · intro h a hget
    rw [hgetmap h a hget, removeMovedAnchor_formula]

/-- Concrete instance of C6: removing (0,1)-(1,1) in `"AAA\nBBB"` with an
extra anchor at (1,2). -/
theorem claim_C6_witness :
    DocInv docAnchored ∧
    rangeValid docAnchored.core ⟨⟨0, 1⟩, ⟨1, 1⟩⟩ = true ∧
    Range.empty ⟨⟨0, 1⟩, ⟨1, 1⟩⟩ = false ∧
    (∃ d', docAnchored.remove (RemoveOptions.exact_at ⟨⟨0, 1⟩, ⟨1, 1⟩⟩) =
        some (d', Except.ok ()) ∧
      ∀ h a, docAnchored.core.anchors.get h = some a →
        d'.core.anchors.get h = some (
          if posLt (⟨1, 1⟩ : Position) a.position then
            ⟨⟨a.position.row - ((⟨1, 1⟩ : Position).row -
                (⟨0, 1⟩ : Position).row),
              if a.position.row = (⟨1, 1⟩ : Position).row then
                (⟨0, 1⟩ : Position).column + a.position.column -
                  (⟨1, 1⟩ : Position).column
              else a.position.column⟩⟩
          else if posLt (⟨0, 1⟩ : Position) a.position then ⟨⟨0, 1⟩⟩
          else a)) :=
  ⟨by decide, by decide, by decide,
    claim_C6_remove_rebase (by decide) (by decide) (by decide)⟩

/-- Claim C7: from any coherent document with an empty undo stack, two
successful inserts separated by `checkpoint()` leave exactly two undo
packets, and one undo reverts only the second insert; the same two inserts
with no checkpoint leave exactly one packet, and one undo reverts both. -/
theorem claim_C7_checkpoint_grouping {d d1 d3 d3' : Document}
    {t1 t2 : List Char} {o1 o2 : InsertOptions}
    (hinv : DocInv d) (hstk : d.undo_redo.undo_stack = [])
    (h1 : d.insert t1 o1 = some (d1, Except.ok ()))
    (h2 : d1.checkpoint.insert t2 o2 = some (d3, Except.ok ()))
    (h2' : d1.insert t2 o2 = some (d3', Except.ok ())) :
    (d3.undo_redo.undo_stack.length = 2 ∧
      ∃ d4, d3.undo 1 = some (d4, Except.ok 1) ∧ d4.core = d1.core) ∧
    (d3'.undo_redo.undo_stack.length = 1 ∧
      ∃ d4, d3'.undo 1 = some (d4, Except.ok 1) ∧ d4.core = d.core) := by
  have hr1 : OpRun d d1 := insert_ok_OpRun hinv h1
  have hinv1 : DocInv d1 := hr1.1
  have hstk1 : ∃ p, d1.undo_redo.undo_stack = [p] := by
    rcases hr1.2.2.2 with ⟨invs, chs, hback, hdis⟩
    rcases hdis with ⟨_, hsh⟩ | ⟨top, rest', hsh0, _, _⟩
    · rw [hstk] at hsh
      exact ⟨⟨invs⟩, hsh⟩
    · rw [hstk] at hsh0
      exact absurd hsh0 (by simp)
  have hinv2 : DocInv d1.checkpoint := checkpoint_inv hinv1
  have hr2 : OpRun d1.checkpoint d3 := insert_ok_OpRun hinv2 h2
  have hflag2 : (d1.checkpoint.undo_redo.undo_stack.isEmpty ||
      d1.checkpoint.undo_redo.checkpoint_requested) = true := Bool.or_true _
  constructor
  · constructor
    · rcases hr2.2.2.2 with ⟨invs2, chs2, hback2, hdis2⟩
      rcases hdis2 with ⟨_, hsh⟩ | ⟨top, rest', hsh0, hfl, _⟩
      · rcases hstk1 with ⟨p, hp⟩
        have hcp : d1.checkpoint.undo_redo.undo_stack = [p] := hp
        rw [hsh, hcp]
        rfl
      · exact absurd (show (true : Bool) = false from hfl) (by simp)
    · rcases OpRun_undo_fresh hr2 hflag2 with ⟨d4, hu, hcore, _⟩
      exact ⟨d4, hu, hcore⟩
  · have hr2' : OpRun d1 d3' := insert_ok_OpRun hinv1 h2'
    have hcomp : OpRun d d3' := OpRun_comp hr1 hr2'
    have hflag0 : (d.undo_redo.undo_stack.isEmpty ||
        d.undo_redo.checkpoint_requested) = true := by
      rw [hstk]
      rfl
    constructor
    · rcases hcomp.2.2.2 with ⟨invs, chs, hback, hdis⟩
      rcases hdis with ⟨_, hsh⟩ | ⟨top, rest', hsh0, _, _⟩
      · rw [hsh, hstk]
        rfl
      · rw [hstk] at hsh0
        exact absurd hsh0 (by simp)
    · rcases OpRun_undo_fresh hcomp hflag0 with ⟨d4, hu, hcore, _⟩
      exact ⟨d4, hu, hcore⟩

/-- Concrete instance of C7: inserting `"B"` then `"C"` into the fresh
document, with and without a checkpoint between them. -/
theorem claim_C7_witness :
    DocInv Document.new ∧
    Document.new.insert ['B'] (InsertOptions.exact_at ⟨⟨0, 0⟩, ⟨0, 0⟩⟩) =
      some (docB, Except.ok ()) ∧
    docB.checkpoint.insert ['C'] (InsertOptions.exact_at ⟨⟨0, 1⟩, ⟨0, 1⟩⟩) =
      some (docBC2, Except.ok ()) ∧
    docB.insert ['C'] (InsertOptions.exact_at ⟨⟨0, 1⟩, ⟨0, 1⟩⟩) =
      some (docBC1, Except.ok ()) ∧
    ((docBC2.undo_redo.undo_stack.length = 2 ∧
      ∃ d4, docBC2.undo 1 = some (d4, Except.ok 1) ∧ d4.core = docB.core) ∧
    (docBC1.undo_redo.undo_stack.length = 1 ∧
      ∃ d4, docBC1.undo 1 = some (d4, Except.ok 1) ∧
        d4.core = Document.new.core)) :=
  ⟨by decide, by decide, by decide, by decide,
    @claim_C7_checkpoint_grouping Document.new docB docBC2 docBC1
      ['B'] ['C'] (InsertOptions.exact_at ⟨⟨0, 0⟩, ⟨0, 0⟩⟩)
      (InsertOptions.exact_at ⟨⟨0, 1⟩, ⟨0, 1⟩⟩)
      (by decide) rfl (by decide) (by decide) (by decide)⟩

/-- Claim C8: on a coherent document, `undo(n)` returns `Ok(n)` when the
undo stack holds at least `n` packets and otherwise `Err(NoMoreUndos(d))`
after undoing exactly the `d` available packets (the stack ends empty);
symmetrically for `redo(n)` with `NoMoreRedos`. -/
theorem claim_C8_undo_redo_exhaustion {d : Document} {n : Nat}
    (hinv : DocInv d) :
    (n ≤ d.undo_redo.undo_stack.length →
      ∃ d1, d.undo n = some (d1, Except.ok n)) ∧
    (d.undo_redo.undo_stack.length < n →
      ∃ d1, d.undo n = some (d1,
        Except.error (Oops.NoMoreUndos d.undo_redo.undo_stack.length)) ∧
        d1.undo_redo.undo_stack = []) ∧
    (n ≤ d.undo_redo.redo_stack.length →
      ∃ d1, d.redo n = some (d1, Except.ok n)) ∧
    (d.undo_redo.redo_stack.length < n →
      ∃ d1, d.redo n = some (d1,
        Except.error (Oops.NoMoreRedos d.undo_redo.redo_stack.length)) ∧
        d1.undo_redo.redo_stack = []) := by
  refine ⟨?_, ?_, ?_, ?_⟩
  · intro hn
    rcases undo_redo_iter n hinv hn with ⟨d1, hundo, _, _⟩
    have h := hundo 0
    rw [Nat.zero_add] at h
    exact ⟨d1, h⟩
  · intro hn
    rcases @undoGo_exhaust d.undo_redo.undo_stack.length d 0 n hinv rfl hn
      with ⟨d1, h, _, hstk⟩
    rw [Nat.zero_add] at h
    exact ⟨d1, h, hstk⟩
  · intro hn
    rcases redo_undo_iter n hinv hn with ⟨d1, hredo, _, _⟩
    have h := hredo 0
    rw [Nat.zero_add] at h
    exact ⟨d1, h⟩
  · intro hn
    rcases @redoGo_exhaust d.undo_redo.redo_stack.length d 0 n hinv rfl hn
      with ⟨d1, h, _, hstk⟩
    rw [Nat.zero_add] at h
    exact ⟨d1, h, hstk⟩

/-- Concrete instance of C8: requesting two undos/redos of a document with
one undo packet and no redo packets. -/
theorem claim_C8_witness :
    ((2 : Nat) ≤ docB.undo_redo.undo_stack.length →
      ∃ d1, docB.undo 2 = some (d1, Except.ok 2)) ∧
    (docB.undo_redo.undo_stack.length < 2 →
      ∃ d1, docB.undo 2 = some (d1,
        Except.error (Oops.NoMoreUndos docB.undo_redo.undo_stack.length)) ∧
        d1.undo_redo.undo_stack = []) ∧
    ((2 : Nat) ≤ docB.undo_redo.redo_stack.length →
      ∃ d1, docB.redo 2 = some (d1, Except.ok 2)) ∧
    (docB.undo_redo.redo_stack.length < 2 →
      ∃ d1, docB.redo 2 = some (d1,
        Except.error (Oops.NoMoreRedos docB.undo_redo.redo_stack.length)) ∧
        d1.undo_redo.redo_stack = []) :=
  claim_C8_undo_redo_exhaustion (by decide)

/-- Claim C9: `Indentation::indent` measures the leading margin in logical
spaces (tabs weighted by `spaces_per_tab`), shifts it by
`delta * spaces_per_tab` clamped at zero (a dedent past column 0 yields an
empty margin), renders the result with `produce`, and appends the content
after the margin exactly when `includeContent` holds; and
`Indentation::tabs(4).indent("     Hello", 1, true)` is `"\t\t Hello"`. -/
theorem claim_C9_indent_spec :
    (∀ (ind : Indentation) (line : List Char) (delta : Int) (ic : Bool),
      ind.indent line delta ic =
        ind.produce (max 0 (((ind.measure line).1 : Int) + delta *
          (ind.spaces_per_tab : Int))).toNat ++
          (if ic then line.drop (ind.measure line).2 else [])) ∧
    (∀ (ind : Indentation) (line : List Char) (delta : Int),
      ((ind.measure line).1 : Int) + delta *
        (ind.spaces_per_tab : Int) ≤ 0 →
      ind.indent line delta false = []) ∧
    Indentation.tabs 4 = some ⟨false, 4⟩ ∧
    Indentation.indent ⟨false, 4⟩
      [' ', ' ', ' ', ' ', ' ', 'H', 'e', 'l', 'l', 'o'] 1 true =
      ['\t', '\t', ' ', 'H', 'e', 'l', 'l', 'o'] :=
  ⟨fun ind line delta ic => indent_eq,
    fun ind line delta h => indent_clamp_empty h,
    by decide, by decide⟩
